import Mathlib

/-!
# MIPS32 assembler: label table, pseudo-instruction expansion and encoder

A shallow embedding of `src/encoder.cpp`, `src/error.cpp` and the pseudo-instruction
expander of `src/lexer.cpp`.

Conventions of the embedding.

* A `std::string` is a Lean `String` read as a sequence of one-byte characters, so
  `size()` is `String.length` and `operator+` is `++`.
* A C++ `int` is a Lean `Int`.  Where the source relies on a conversion
  (`static_cast<int>`, `static_cast<uint32_t>`, `std::bitset<N>(int)`) the reduction
  modulo `2^32`, `2^64` or `2^N` is written out.  `unsigned long` is 64 bits wide (LP64).
* A function that may call `reportError` returns, next to its value, the list of
  diagnostics it registered, in call order; the process-wide counter `g_errorCount`
  is the length of the concatenation of these lists since the last `resetErrors`.
* A C++ exception that is not caught inside the function, and an out-of-range
  `operands[i]`, are the result `none`.
-/

namespace Mips

/-! ## Data model (lexer.h, encoder.h, error.cpp) -/

/-- One call of `reportError(line, msg)`: the line number passed and the message. -/
structure Diag where
  line : Int
  msg : String
deriving DecidableEq, Repr

/-- The function `reportError` of error.cpp: one message on the diagnostic stream and
`g_errorCount++`; here the one diagnostic the call adds. -/
def reportError (line : Int) (msg : String) : List Diag := [⟨line, msg⟩]

/-- The function `errorCount` of error.cpp, for the diagnostics registered since
`resetErrors`. -/
def errorCount (log : List Diag) : Nat := log.length

/-- The function `hasErrors` of error.cpp. -/
def hasErrors (log : List Diag) : Bool := decide (0 < errorCount log)

/-- The struct `ParsedLine` of lexer.h. -/
structure ParsedLine where
  lineNumber : Int
  rawText : String
  label : String
  mnemonic : String
  operands : List String
deriving DecidableEq, Repr

/-- The enum `OperandPattern` of encoder.h. -/
inductive OperandPattern where
  | R_DST_SRC_TMP
  | R_DST_TMP_SHAMT
  | R_SRC_ONLY
  | I_TMP_SRC_IMM
  | I_TMP_IMM
  | I_SRC_TMP_LABEL
  | I_TMP_OFF_SRC
  | J_LABEL
deriving DecidableEq, Repr

/-- The struct `InstructionDef` of encoder.h. -/
structure InstructionDef where
  opcode : String
  funct : String
  pattern : OperandPattern
deriving DecidableEq, Repr

/-- The struct `EncodedInst` of encoder.h. -/
structure EncodedInst where
  hex : String
  rawText : String
deriving DecidableEq, Repr

/-- A `std::map<std::string, int>` read through `find`: the bound value, if any. -/
abbrev LabelTable := String → Option Int

/-- The empty `std::map`. -/
def LabelTable.empty : LabelTable := fun _ => none

/-- The assignment `labels[key] = value` on a `std::map`: inserts or overwrites. -/
def LabelTable.set (labels : LabelTable) (key : String) (value : Int) : LabelTable :=
  fun k => if k = key then some value else labels k

/-! ## Number conversions of the C++ standard library -/

/-- The characters `isspace` accepts in the C locale. -/
def isSpace (c : Char) : Bool :=
  c == ' ' || c == '\t' || c == '\n' || c == '\x0b' || c == '\x0c' || c == '\r'

/-- Value of a decimal digit character. -/
def decDigit (c : Char) : Option Nat :=
  if 48 ≤ c.toNat ∧ c.toNat ≤ 57 then some (c.toNat - 48) else none

/-- Value of a hexadecimal digit character, either case. -/
def hexDigit (c : Char) : Option Nat :=
  if 48 ≤ c.toNat ∧ c.toNat ≤ 57 then some (c.toNat - 48)
  else if 97 ≤ c.toNat ∧ c.toNat ≤ 102 then some (c.toNat - 87)
  else if 65 ≤ c.toNat ∧ c.toNat ≤ 70 then some (c.toNat - 55)
  else none

/-- The digit values of the longest leading run of digits. -/
def takeDigits (dv : Char → Option Nat) : List Char → List Nat
  | [] => []
  | c :: cs =>
    match dv c with
    | some d => d :: takeDigits dv cs
    | none => []

/-- Value of a digit sequence, most significant digit first. -/
def digitsValue (base : Nat) (ds : List Nat) : Nat :=
  ds.foldl (fun acc d => acc * base + d) 0

/-- The optional sign `strtol` and `strtoul` accept: whether it was a minus, and the
rest of the text. -/
def takeSign : List Char → Bool × List Char
  | '-' :: r => (true, r)
  | '+' :: r => (false, r)
  | cs => (false, cs)

/-- The call `std::stoi(s)`: leading white space, an optional sign, then the longest run
of decimal digits; what follows the digits is ignored.  `none` is a thrown
`std::invalid_argument` (no digit) or `std::out_of_range` (outside `int`). -/
def stoi (s : String) : Option Int :=
  let sc := takeSign (s.data.dropWhile isSpace)
  let ds := takeDigits decDigit sc.2
  if ds.isEmpty then none
  else
    let m : Int := (digitsValue 10 ds : Nat)
    let v : Int := if sc.1 then -m else m
    if v < -2147483648 ∨ 2147483647 < v then none else some v

/-- The `0x`/`0X` that `strtoul` skips in base 16 when a hexadecimal digit follows. -/
def skipHexMark : List Char → List Char
  | '0' :: x :: h :: r =>
    if (x == 'x' || x == 'X') && (hexDigit h).isSome then h :: r else '0' :: x :: h :: r
  | cs => cs

/-- The call `std::stoul(s, nullptr, 16)` with a 64-bit `unsigned long`: white space,
an optional sign, an optional `0x`, then the longest run of hexadecimal digits; a minus
sign negates modulo `2^64`.  `none` is a thrown `std::invalid_argument` (no digit) or
`std::out_of_range` (magnitude of `2^64` or more). -/
def stoul16 (s : String) : Option Nat :=
  let sc := takeSign (s.data.dropWhile isSpace)
  let ds := takeDigits hexDigit (skipHexMark sc.2)
  if ds.isEmpty then none
  else
    let m := digitsValue 16 ds
    if 18446744073709551616 ≤ m then none
    else some (if sc.1 then (18446744073709551616 - m) % 18446744073709551616 else m)

/-- The conversion of an integer to the 32-bit `int`: reduction modulo `2^32` into
`[-2^31, 2^31)`. -/
def wrapInt32 (v : Int) : Int :=
  let r := v % 4294967296
  if r < 2147483648 then r else r - 4294967296

/-- The call `s.substr(k)` for `k ≤ s.size()`. -/
def substrFrom (s : String) (k : Nat) : String := String.mk (s.data.drop k)

/-- The low `w` binary digits of `n`, most significant first, as `0`/`1` characters. -/
def bitsOf : Nat → Nat → List Char
  | 0, _ => []
  | w + 1, n => bitsOf w (n / 2) ++ [if n % 2 = 1 then '1' else '0']

/-- The expression `std::bitset<N>(value).to_string()` for an `int` value: the value is
converted to `unsigned long long` (modulo `2^64`) and its low `N` bits are printed. -/
def bitsetToString (N : Nat) (value : Int) : String :=
  String.mk (bitsOf N (value % 18446744073709551616).toNat)

/-- Value of a `0`/`1` character sequence read as a binary numeral. -/
def binVal (cs : List Char) : Nat :=
  cs.foldl (fun acc c => 2 * acc + (if c = '1' then 1 else 0)) 0

/-- The expression `std::bitset<32>(binary).to_ulong()`: the first 32 characters are
read as a binary numeral; a character other than `0` and `1` among them throws
`std::invalid_argument`. -/
def bitset32 (binary : String) : Option Nat :=
  let cs := binary.data.take 32
  if cs.all (fun c => c == '0' || c == '1') then some (binVal cs) else none

/-- One hexadecimal digit as `std::hex` prints it (lower case). -/
def hexChar (d : Nat) : Char :=
  if d < 10 then Char.ofNat (48 + d) else Char.ofNat (87 + d)

/-- Hexadecimal digits of `n` without leading zeros (`0` prints as one digit); the
first argument bounds the number of digits. -/
def hexDigitsFuel : Nat → Nat → List Char
  | 0, _ => []
  | f + 1, n =>
    if n < 16 then [hexChar n] else hexDigitsFuel f (n / 16) ++ [hexChar (n % 16)]

/-- What `stream << std::hex << n` prints for an unsigned `n`. -/
def hexLower (n : Nat) : List Char := hexDigitsFuel (n + 1) n

/-- The function `::toupper` in the C locale. -/
def toUpperC (c : Char) : Char :=
  if 97 ≤ c.toNat ∧ c.toNat ≤ 122 then Char.ofNat (c.toNat - 32) else c

/-- The text `bin2hex` makes of the word `n`:
`std::hex << std::setfill(0) << std::setw(8) << n`, then `::toupper` on every
character. -/
def fmtHex8 (n : Nat) : String :=
  let ds := hexLower n
  String.mk ((List.replicate (8 - ds.length) '0' ++ ds).map toUpperC)

/-! ## encoder.cpp -/

/-- The table `INSTRUCTIONS`: mnemonic, then opcode bits, function-code bits and operand
pattern. -/
def INSTRUCTIONS : List (String × InstructionDef) := [
  ("add",   ⟨"000000", "100000", .R_DST_SRC_TMP⟩),
  ("addu",  ⟨"000000", "100001", .R_DST_SRC_TMP⟩),
  ("addi",  ⟨"001000", "",       .I_TMP_SRC_IMM⟩),
  ("addiu", ⟨"001001", "",       .I_TMP_SRC_IMM⟩),
  ("and",   ⟨"000000", "100100", .R_DST_SRC_TMP⟩),
  ("andi",  ⟨"001100", "",       .I_TMP_SRC_IMM⟩),
  ("beq",   ⟨"000100", "",       .I_SRC_TMP_LABEL⟩),
  ("bne",   ⟨"000101", "",       .I_SRC_TMP_LABEL⟩),
  ("j",     ⟨"000010", "",       .J_LABEL⟩),
  ("jal",   ⟨"000011", "",       .J_LABEL⟩),
  ("jr",    ⟨"000000", "001000", .R_SRC_ONLY⟩),
  ("lbu",   ⟨"100100", "",       .I_TMP_OFF_SRC⟩),
  ("lhu",   ⟨"100101", "",       .I_TMP_OFF_SRC⟩),
  ("lui",   ⟨"001111", "",       .I_TMP_IMM⟩),
  ("lw",    ⟨"100011", "",       .I_TMP_OFF_SRC⟩),
  ("nor",   ⟨"000000", "100111", .R_DST_SRC_TMP⟩),
  ("or",    ⟨"000000", "100101", .R_DST_SRC_TMP⟩),
  ("ori",   ⟨"001101", "",       .I_TMP_SRC_IMM⟩),
  ("sb",    ⟨"101000", "",       .I_TMP_OFF_SRC⟩),
  ("sh",    ⟨"101001", "",       .I_TMP_OFF_SRC⟩),
  ("sll",   ⟨"000000", "000000", .R_DST_TMP_SHAMT⟩),
  ("slt",   ⟨"000000", "101010", .R_DST_SRC_TMP⟩),
  ("slti",  ⟨"001010", "",       .I_TMP_SRC_IMM⟩),
  ("sltiu", ⟨"001011", "",       .I_TMP_SRC_IMM⟩),
  ("sltu",  ⟨"000000", "101011", .R_DST_SRC_TMP⟩),
  ("srl",   ⟨"000000", "000010", .R_DST_TMP_SHAMT⟩),
  ("sub",   ⟨"000000", "100010", .R_DST_SRC_TMP⟩),
  ("subu",  ⟨"000000", "100011", .R_DST_SRC_TMP⟩),
  ("sw",    ⟨"101011", "",       .I_TMP_OFF_SRC⟩)]

/-- The call `INSTRUCTIONS.find(mnemonic)`; `none` is `INSTRUCTIONS.end()`. -/
def findInstruction (mnemonic : String) : Option InstructionDef :=
  INSTRUCTIONS.lookup mnemonic

/-- The table `REG_BINARY`: register number to 5-bit binary string. -/
def REG_BINARY : List String := [
  "00000", "00001", "00010", "00011", "00100", "00101", "00110", "00111",
  "01000", "01001", "01010", "01011", "01100", "01101", "01110", "01111",
  "10000", "10001", "10010", "10011", "10100", "10101", "10110", "10111",
  "11000", "11001", "11010", "11011", "11100", "11101", "11110", "11111"]

/-- The function `encodeRegister`: the 5-bit field of a register operand and the
diagnostics registered. -/
def encodeRegister (operand : String) (lineNumber : Int) : String × List Diag :=
  if operand.length < 2 ∨ operand.data.head? ≠ some '$' then
    ("00000", reportError lineNumber ("invalid register \x27" ++ operand ++ "\x27"))
  else
    match stoi (substrFrom operand 1) with
    | none =>
      ("00000", reportError lineNumber ("invalid register \x27" ++ operand ++ "\x27"))
    | some n =>
      if n < 0 ∨ n > 31 then
        ("00000", reportError lineNumber ("register number out of range: " ++ operand))
      else (REG_BINARY.getD n.toNat "00000", [])

/-- The function `parseImmediate`: the `int` value of an immediate operand and the
diagnostics registered.  Both exceptions of `stoul` and `stoi` are caught. -/
def parseImmediate (operand : String) (lineNumber : Int) : Int × List Diag :=
  let parsed : Option Int :=
    if operand.length > 2 ∧ operand.data[0]? = some '0' ∧
        (operand.data[1]? = some 'x' ∨ operand.data[1]? = some 'X') then
      (stoul16 (substrFrom operand 2)).map (fun (n : Nat) => wrapInt32 (n : Int))
    else stoi operand
  match parsed with
  | some v => (v, [])
  | none => (0, reportError lineNumber ("invalid immediate value \x27" ++ operand ++ "\x27"))

/-- The function `encodeImmediate`. -/
def encodeImmediate (value : Int) (bits : Nat) : String :=
  if bits = 5 then bitsetToString 5 value
  else if bits = 16 then bitsetToString 16 value
  else if bits = 26 then bitsetToString 26 value
  else String.mk (List.replicate bits '0')

/-- The function `bin2hex`; `none` is the exception of the `std::bitset<32>`
constructor. -/
def bin2hex (binary : String) : Option String :=
  (bitset32 binary).map fmtHex8

/-- The function `expectedOperandCount`. -/
def expectedOperandCount : OperandPattern → Nat
  | .R_DST_SRC_TMP => 3
  | .R_DST_TMP_SHAMT => 3
  | .R_SRC_ONLY => 1
  | .I_TMP_SRC_IMM => 3
  | .I_TMP_IMM => 2
  | .I_SRC_TMP_LABEL => 3
  | .I_TMP_OFF_SRC => 3
  | .J_LABEL => 1

/-- The expression `std::string(32, 0)` with the character zero: the all-zero word. -/
def zeroWord : String := String.mk (List.replicate 32 '0')

/-- The branch offset computed in `encodeInstruction` from the target and the current
address; every `int` operation is reduced to 32 bits. -/
def branchOffset (target address : Int) : Int :=
  if target > address then wrapInt32 (wrapInt32 (target - address) - 1)
  else wrapInt32 (-(wrapInt32 (address - target)))

/-- The function `encodeInstruction`: the 32-character binary string and the diagnostics
registered, in call order.  `none` is an `operands[i]` with `i` past the end. -/
def encodeInstruction (d : InstructionDef) (line : ParsedLine) (labels : LabelTable)
    (address : Int) : Option (String × List Diag) :=
  let ln := line.lineNumber
  match d.pattern with
  | .R_DST_SRC_TMP =>
    match line.operands[0]?, line.operands[1]?, line.operands[2]? with
    | some o0, some o1, some o2 =>
      let rd := encodeRegister o0 ln
      let rs := encodeRegister o1 ln
      let rt := encodeRegister o2 ln
      some (d.opcode ++ rs.1 ++ rt.1 ++ rd.1 ++ "00000" ++ d.funct, rd.2 ++ rs.2 ++ rt.2)
    | _, _, _ => none
  | .R_DST_TMP_SHAMT =>
    match line.operands[0]?, line.operands[1]?, line.operands[2]? with
    | some o0, some o1, some o2 =>
      let rd := encodeRegister o0 ln
      let rt := encodeRegister o1 ln
      let sh := parseImmediate o2 ln
      let shamt := encodeImmediate sh.1 5
      some (d.opcode ++ "00000" ++ rt.1 ++ rd.1 ++ shamt ++ d.funct, rd.2 ++ rt.2 ++ sh.2)
    | _, _, _ => none
  | .R_SRC_ONLY =>
    match line.operands[0]? with
    | some o0 =>
      let rs := encodeRegister o0 ln
      some (d.opcode ++ rs.1 ++ "000000000000000" ++ d.funct, rs.2)
    | none => none
  | .I_TMP_SRC_IMM =>
    match line.operands[0]?, line.operands[1]?, line.operands[2]? with
    | some o0, some o1, some o2 =>
      let rt := encodeRegister o0 ln
      let rs := encodeRegister o1 ln
      let im := parseImmediate o2 ln
      let imm := encodeImmediate im.1 16
      some (d.opcode ++ rs.1 ++ rt.1 ++ imm, rt.2 ++ rs.2 ++ im.2)
    | _, _, _ => none
  | .I_TMP_IMM =>
    match line.operands[0]?, line.operands[1]? with
    | some o0, some o1 =>
      let rt := encodeRegister o0 ln
      let im := parseImmediate o1 ln
      let imm := encodeImmediate im.1 16
      some (d.opcode ++ "00000" ++ rt.1 ++ imm, rt.2 ++ im.2)
    | _, _ => none
  | .I_SRC_TMP_LABEL =>
    match line.operands[0]?, line.operands[1]?, line.operands[2]? with
    | some o0, some o1, some labelName =>
      let rs := encodeRegister o0 ln
      let rt := encodeRegister o1 ln
      match labels labelName with
      | none =>
        some (zeroWord,
          rs.2 ++ rt.2 ++ reportError ln ("undefined label \x27" ++ labelName ++ "\x27"))
      | some target =>
        let imm := encodeImmediate (branchOffset target address) 16
        some (d.opcode ++ rs.1 ++ rt.1 ++ imm, rs.2 ++ rt.2)
    | _, _, _ => none
  | .I_TMP_OFF_SRC =>
    match line.operands[0]?, line.operands[1]?, line.operands[2]? with
    | some o0, some o1, some o2 =>
      let rt := encodeRegister o0 ln
      let im := parseImmediate o1 ln
      let imm := encodeImmediate im.1 16
      let rs := encodeRegister o2 ln
      some (d.opcode ++ rs.1 ++ rt.1 ++ imm, rt.2 ++ im.2 ++ rs.2)
    | _, _, _ => none
  | .J_LABEL =>
    match line.operands[0]? with
    | some labelName =>
      match labels labelName with
      | none =>
        some (zeroWord, reportError ln ("undefined label \x27" ++ labelName ++ "\x27"))
      | some a => some (d.opcode ++ encodeImmediate a 26, [])
    | none => none

/-- The loop of `buildLabelTable`, from the state `(address, labels)` and the
diagnostics registered so far. -/
def buildLabelTableLoop :
    List ParsedLine → Int → LabelTable → List Diag → LabelTable × List Diag
  | [], _, labels, log => (labels, log)
  | line :: rest, address, labels, log =>
    let log1 :=
      if line.label ≠ "" ∧ (labels line.label).isSome then
        log ++ reportError line.lineNumber ("duplicate label \x27" ++ line.label ++ "\x27")
      else log
    let labels1 := if line.label ≠ "" then labels.set line.label address else labels
    let address1 := if line.mnemonic ≠ "" then address + 1 else address
    buildLabelTableLoop rest address1 labels1 log1

/-- The function `buildLabelTable`: the table and the diagnostics registered. -/
def buildLabelTable (lines : List ParsedLine) : LabelTable × List Diag :=
  buildLabelTableLoop lines 0 LabelTable.empty []

/-- The loop of `encode`, from the state `(address, encoded)` and the diagnostics
registered so far. -/
def encodeLoop (labels : LabelTable) :
    List ParsedLine → Int → List EncodedInst → List Diag →
      Option (List EncodedInst × List Diag)
  | [], _, encoded, log => some (encoded, log)
  | line :: rest, address, encoded, log =>
    if line.mnemonic = "" then encodeLoop labels rest address encoded log
    else
      match findInstruction line.mnemonic with
      | none =>
        encodeLoop labels rest (address + 1) encoded
          (log ++ reportError line.lineNumber
            ("unknown instruction \x27" ++ line.mnemonic ++ "\x27"))
      | some d =>
        let expected := expectedOperandCount d.pattern
        if line.operands.length < expected then
          encodeLoop labels rest (address + 1) encoded
            (log ++ reportError line.lineNumber
              ("\x27" ++ line.mnemonic ++ "\x27 requires " ++ toString expected ++
                " operands, got " ++ toString line.operands.length))
        else
          match encodeInstruction d line labels address with
          | none => none
          | some (binary, errs) =>
            match bin2hex binary with
            | none => none
            | some hex =>
              encodeLoop labels rest (address + 1) (encoded ++ [⟨hex, line.rawText⟩])
                (log ++ errs)

/-- The function `encode`: the encoded instructions and the diagnostics registered. -/
def encode (lines : List ParsedLine) (labels : LabelTable) :
    Option (List EncodedInst × List Diag) :=
  encodeLoop labels lines 0 [] []

/-! ## lexer.cpp: pseudo-instruction expansion -/

/-- The function `parsePseudoImmediate`, with its `static_cast<int32_t>`; `none` is an
exception of `stoul` or `stoi`, which neither this function nor `expandPseudos`
catches. -/
def parsePseudoImmediate (s : String) : Option Int :=
  if s.length > 2 ∧ s.data[0]? = some '0' ∧
      (s.data[1]? = some 'x' ∨ s.data[1]? = some 'X') then
    (stoul16 (substrFrom s 2)).map (fun (n : Nat) => wrapInt32 (n : Int))
  else stoi s

/-- The loop of `expandPseudos`, from the lines emitted and the diagnostics registered so
far.  The pattern `o0 :: o1 :: _` is the case `operands.size() >= 2`, in which
`operands[0]` and `operands[1]` are read; `val` is the `uint32_t` the parsed value is
cast to.  `none` is the exception of `parsePseudoImmediate`. -/
def expandLoop :
    List ParsedLine → List ParsedLine → List Diag → Option (List ParsedLine × List Diag)
  | [], expanded, log => some (expanded, log)
  | line :: rest, expanded, log =>
    if line.mnemonic = "nop" then
      expandLoop rest
        (expanded ++ [{ line with mnemonic := "sll", operands := ["$0", "$0", "0"] }]) log
    else if line.mnemonic = "move" then
      match line.operands with
      | o0 :: o1 :: _ =>
        expandLoop rest
          (expanded ++ [{ line with mnemonic := "add", operands := [o0, o1, "$0"] }]) log
      | _ =>
        expandLoop rest (expanded ++ [line])
          (log ++ reportError line.lineNumber "\x27move\x27 requires 2 operands")
    else if line.mnemonic = "li" then
      match line.operands with
      | o0 :: o1 :: _ =>
        match parsePseudoImmediate o1 with
        | none => none
        | some v =>
          let val : Nat := (v % 4294967296).toNat
          if val ≤ 0xFFFF then
            expandLoop rest
              (expanded ++ [{ line with mnemonic := "ori", operands := [o0, "$0", o1] }]) log
          else
            let upper : Nat := (val / 65536) % 65536
            let lower : Nat := val % 65536
            let luiLine : ParsedLine :=
              { line with mnemonic := "lui",
                          operands := [o0, "0x" ++ String.mk (hexLower upper)] }
            let oriLine : ParsedLine :=
              { line with mnemonic := "ori", label := "",
                          operands := [o0, o0, "0x" ++ String.mk (hexLower lower)] }
            expandLoop rest (expanded ++ [luiLine, oriLine]) log
      | _ =>
        expandLoop rest (expanded ++ [line])
          (log ++ reportError line.lineNumber "\x27li\x27 requires 2 operands")
    else expandLoop rest (expanded ++ [line]) log

/-- The function `expandPseudos`: the new line sequence and the diagnostics
registered. -/
def expandPseudos (lines : List ParsedLine) : Option (List ParsedLine × List Diag) :=
  expandLoop lines [] []

/-! ## lexer.cpp: tokenizer and alias resolver -/

/-- The characters `trim` removes: the set given to `find_first_not_of` and
`find_last_not_of`. -/
def isTrimChar (c : Char) : Bool :=
  c == ' ' || c == '\t' || c == '\r' || c == '\n'

/-- The function `trim` on the characters of a string: what lies between the first and
the last character outside the set, nothing when there is none. -/
def trimChars (cs : List Char) : List Char :=
  ((cs.dropWhile isTrimChar).reverse.dropWhile isTrimChar).reverse

/-- The function `trim`. -/
def trim (s : String) : String := String.mk (trimChars s.data)

/-- The function `::tolower` in the C locale. -/
def toLowerC (c : Char) : Char :=
  if 65 ≤ c.toNat ∧ c.toNat ≤ 90 then Char.ofNat (c.toNat + 32) else c

/-- The function `toLower`. -/
def toLower (s : String) : String := String.mk (s.data.map toLowerC)

/-- The table `REGISTER_ALIASES`. -/
def REGISTER_ALIASES : List (String × String) := [
  ("$zero", "$0"), ("$at", "$1"),
  ("$v0", "$2"), ("$v1", "$3"),
  ("$a0", "$4"), ("$a1", "$5"), ("$a2", "$6"), ("$a3", "$7"),
  ("$t0", "$8"), ("$t1", "$9"), ("$t2", "$10"), ("$t3", "$11"),
  ("$t4", "$12"), ("$t5", "$13"), ("$t6", "$14"), ("$t7", "$15"),
  ("$s0", "$16"), ("$s1", "$17"), ("$s2", "$18"), ("$s3", "$19"),
  ("$s4", "$20"), ("$s5", "$21"), ("$s6", "$22"), ("$s7", "$23"),
  ("$t8", "$24"), ("$t9", "$25"),
  ("$k0", "$26"), ("$k1", "$27"),
  ("$gp", "$28"), ("$sp", "$29"), ("$fp", "$30"), ("$ra", "$31")]

/-- The call `s.find(c)` and, with a set of characters, `s.find_first_of(set)`: the
position of the first character that satisfies `p`; `none` is `npos`. -/
def findFirst (p : Char → Bool) : List Char → Option Nat
  | [] => none
  | x :: xs => if p x then some 0 else (findFirst p xs).map (fun k => k + 1)

/-- The call `s.substr(pos, len)` for `pos ≤ s.size()`. -/
def substr (cs : List Char) (pos len : Nat) : List Char := (cs.drop pos).take len

/-- What `std::getline` reads, call after call, from a stream holding `text`: the
segments that end at a newline, then the rest when it is not empty.  The second
argument is the segment being read. -/
def getLines : List Char → List Char → List (List Char)
  | [], cur => if cur = [] then [] else [cur]
  | c :: cs, cur => if c = '\n' then cur :: getLines cs [] else getLines cs (cur ++ [c])

/-- The state of the comma-splitting loop of `tokenize`. -/
structure SplitState where
  rawOperands : List String
  current : List Char
  parenDepth : Int
deriving DecidableEq, Repr

/-- One iteration of the comma-splitting loop of `tokenize`. -/
def splitStep (st : SplitState) (c : Char) : SplitState :=
  let depth1 := if c = '(' then st.parenDepth + 1 else st.parenDepth
  let depth2 := if c = ')' then depth1 - 1 else depth1
  if c = ',' ∧ depth2 = 0 then
    ⟨st.rawOperands ++ [String.mk (trimChars st.current)], [], depth2⟩
  else ⟨st.rawOperands, st.current ++ [c], depth2⟩

/-- The comma-splitting loop of `tokenize` on the operand text `rest`, with the push of
the last piece when it is not empty: the vector `rawOperands`. -/
def splitOperands (rest : List Char) : List String :=
  let st := rest.foldl splitStep ⟨[], [], 0⟩
  if st.current ≠ [] then st.rawOperands ++ [String.mk (trimChars st.current)]
  else st.rawOperands

/-- The body of the second loop of `tokenize` for one raw operand: the operands it
pushes. -/
def splitParen (op : String) : List String :=
  match findFirst (fun c => c == '(') op.data, findFirst (fun c => c == ')') op.data with
  | some parenOpen, some parenClose =>
    if parenClose > parenOpen then
      [String.mk (trimChars (substr op.data 0 parenOpen)),
        String.mk (trimChars (substr op.data (parenOpen + 1) (parenClose - parenOpen - 1)))]
    else [op]
  | _, _ => [op]

/-- The part of the loop body of `tokenize` that follows the label: mnemonic and
operands of the non-empty text `line`. -/
def parseInstruction (lineNum : Int) (rawText label : String) (line : List Char) :
    ParsedLine :=
  match findFirst (fun c => c == ' ' || c == '\t') line with
  | none => ⟨lineNum, rawText, label, toLower (String.mk line), []⟩
  | some spacePos =>
    let rest := trimChars (line.drop spacePos)
    ⟨lineNum, rawText, label, toLower (String.mk (substr line 0 spacePos)),
      (splitOperands rest).flatMap splitParen⟩

/-- The body of the `while` loop of `tokenize` for the physical line `rawLine`, numbered
`lineNum`: the record pushed, or `none` when the line is skipped. -/
def tokenizeLine (lineNum : Int) (rawLine : List Char) : Option ParsedLine :=
  let line0 :=
    match findFirst (fun c => c == '#') rawLine with
    | some commentPos => substr rawLine 0 commentPos
    | none => rawLine
  let line := trimChars line0
  if line = [] then none
  else
    let rawText := String.mk (trimChars rawLine)
    match findFirst (fun c => c == ':') line with
    | some colonPos =>
      let label := String.mk (trimChars (substr line 0 colonPos))
      let line2 := trimChars (line.drop (colonPos + 1))
      if line2 = [] then some ⟨lineNum, rawText, label, "", []⟩
      else some (parseInstruction lineNum rawText label line2)
    | none => some (parseInstruction lineNum rawText "" line)

/-- The `while` loop of `tokenize` over the physical lines still to read, from the
counter `lineNum` and the records pushed so far. -/
def tokenizeLoop : List (List Char) → Int → List ParsedLine → List ParsedLine
  | [], _, lines => lines
  | rawLine :: rest, lineNum, lines =>
    match tokenizeLine (lineNum + 1) rawLine with
    | none => tokenizeLoop rest (lineNum + 1) lines
    | some parsed => tokenizeLoop rest (lineNum + 1) (lines ++ [parsed])

/-- The function `tokenize` on a file named `filename` whose content is `content`;
`none` is a file that cannot be opened. -/
def tokenize (filename : String) (content : Option String) :
    List ParsedLine × List Diag :=
  match content with
  | none => ([], reportError 0 ("cannot open file \x27" ++ filename ++ "\x27"))
  | some text => (tokenizeLoop (getLines text.data []) 0 [], [])

/-- The function `resolveAliases`: the lines after the in-place rewriting. -/
def resolveAliases (lines : List ParsedLine) : List ParsedLine :=
  lines.map (fun line =>
    { line with operands := line.operands.map (fun op =>
        match REGISTER_ALIASES.lookup (toLower op) with
        | some numeric => numeric
        | none => op) })

/-! ## assembler.cpp: the memory-initialization text -/

/-- What `out << std::setw(3) << std::setfill(zero) << std::hex << n` prints for a
non-negative `int`. -/
def hexPad3 (n : Nat) : String :=
  String.mk (List.replicate (3 - (hexLower n).length) '0' ++ hexLower n)

/-- The text one iteration of the content loop of `writeMIF` writes for `encoded[i]`. -/
def mifContentLine (i : Nat) (e : EncodedInst) : String :=
  "   " ++ hexPad3 i ++ "  :   " ++ e.hex ++ ";"
    ++ (if e.rawText ≠ "" then "  -- " ++ e.rawText else "") ++ "\n"

/-- The content loop of `writeMIF`, `for (i = 0; i < numInstructions && i < 256; i++)`,
from index `i` with the instructions `encoded[i]`, `encoded[i+1]`, ... still to visit. -/
def mifContentLoop : List EncodedInst → Nat → String
  | [], _ => ""
  | e :: rest, i => if i < 256 then mifContentLine i e ++ mifContentLoop rest (i + 1) else ""

/-- The function `writeMIF`: the text written to the output file once it is open. -/
def writeMIF (encoded : List EncodedInst) : String :=
  "WIDTH=32;\n" ++ "DEPTH=256;\n" ++ "\n" ++ "ADDRESS_RADIX=HEX;\n" ++ "DATA_RADIX=HEX;\n"
    ++ "\n" ++ "CONTENT BEGIN\n"
    ++ mifContentLoop encoded 0
    ++ (if encoded.length < 256 then
          "   [" ++ hexPad3 encoded.length ++ ".." ++ hexPad3 255 ++ "]  :   00000000;\n"
        else "")
    ++ "\n" ++ "END;"

/-! ## Vocabulary of the statements -/

/-- The operand text of the numeric register `n`: the sigil, then `n` in decimal. -/
def regName (n : Nat) : String := "$" ++ toString n

/-- The numeric opcode of a table entry: its opcode bits read as a binary numeral. -/
def opcodeOf (d : InstructionDef) : Nat := binVal d.opcode.data

/-- The numeric function code of a table entry. -/
def functOf (d : InstructionDef) : Nat := binVal d.funct.data

/-- The string `s` is a bit field of width `w` holding `v`: `w` characters, each `0`
or `1`, reading `v` as a binary numeral. -/
def IsField (w : Nat) (s : String) (v : Nat) : Prop :=
  s.data.length = w ∧ s.data.all (fun c => c == '0' || c == '1') = true ∧ binVal s.data = v

instance (w : Nat) (s : String) (v : Nat) : Decidable (IsField w s v) := by
  unfold IsField
  infer_instance

/-- The line `line`, met by the loop of `encode` at address `address`, is in the
instruction table, `encodeInstruction` turns it into a binary string that
`std::bitset<32>` reads as the word `W`, registering exactly the diagnostics `errs`, and
the loop appends the entry `(bin2hex of that string, rawText)`, which is
`(fmtHex8 W, rawText)`, and goes on at `address + 1`. -/
def EncodesAs (labels : LabelTable) (address : Int) (line : ParsedLine) (W : Nat)
    (errs : List Diag) : Prop :=
  (∃ d binary, findInstruction line.mnemonic = some d ∧
      encodeInstruction d line labels address = some (binary, errs) ∧
      bitset32 binary = some W) ∧
  ∀ (rest : List ParsedLine) (encoded : List EncodedInst) (log : List Diag),
    encodeLoop labels (line :: rest) address encoded log =
      encodeLoop labels rest (address + 1) (encoded ++ [⟨fmtHex8 W, line.rawText⟩])
        (log ++ errs)

/-- The number of lines that carry a mnemonic. -/
def instrCount (lines : List ParsedLine) : Nat :=
  (lines.filter (fun l => l.mnemonic ≠ "")).length

/-- The labels defined by a line sequence, one per defining line, in line order. -/
def definedLabels (lines : List ParsedLine) : List String :=
  (lines.filter (fun l => l.label ≠ "")).map (fun l => l.label)

/-- The lines of the second argument that define a label which an earlier line (of the
first argument, or of the second) already defines, in line order. -/
def repeatedDefs (before : List ParsedLine) : List ParsedLine → List ParsedLine
  | [] => []
  | l :: rest =>
    (if l.label ≠ "" ∧ l.label ∈ definedLabels before then [l] else [])
      ++ repeatedDefs (before ++ [l]) rest

/-- The diagnostic `buildLabelTable` registers at a line that repeats a label. -/
def duplicateLabelDiag (l : ParsedLine) : Diag :=
  ⟨l.lineNumber, "duplicate label \x27" ++ l.label ++ "\x27"⟩

/-- Two lines that define the same label `a` at the addresses 0 and 1. -/
def twiceDefined : List ParsedLine := [
  ⟨1, "a: add $1, $2, $3", "a", "add", ["$1", "$2", "$3"]⟩,
  ⟨2, "a: sub $1, $2, $3", "a", "sub", ["$1", "$2", "$3"]⟩]

/-- A program with a leading label-only line, a labelled instruction and a trailing
label-only line. -/
def labelledProgram : List ParsedLine := [
  ⟨1, "start:", "start", "", []⟩,
  ⟨2, "add $1, $2, $3", "", "add", ["$1", "$2", "$3"]⟩,
  ⟨3, "loop: sub $1, $2, $3", "loop", "sub", ["$1", "$2", "$3"]⟩,
  ⟨4, "end:", "end", "", []⟩]

/-- What the loop of `encode` makes of one line met at address `address`: the entries
it appends and the diagnostics it registers.  A label-only line gives nothing; a
mnemonic outside the table or too few operands give one diagnostic and no entry; any
other line gives the entry of its encoding and the diagnostics of `encodeInstruction`. -/
def lineResult (labels : LabelTable) (address : Int) (line : ParsedLine) :
    List EncodedInst × List Diag :=
  if line.mnemonic = "" then ([], [])
  else
    match findInstruction line.mnemonic with
    | none =>
      ([], [⟨line.lineNumber, "unknown instruction \x27" ++ line.mnemonic ++ "\x27"⟩])
    | some d =>
      if line.operands.length < expectedOperandCount d.pattern then
        ([], [⟨line.lineNumber,
          "\x27" ++ line.mnemonic ++ "\x27 requires "
            ++ toString (expectedOperandCount d.pattern)
            ++ " operands, got " ++ toString line.operands.length⟩])
      else
        match encodeInstruction d line labels address with
        | some (binary, errs) =>
          match bitset32 binary with
          | some W => ([⟨fmtHex8 W, line.rawText⟩], errs)
          | none => ([], errs)
        | none => ([], [])

/-- A program whose second line has an unknown mnemonic and whose third line lacks
its operand; the fourth line branches back to the label of the third. -/
def faultyProgram : List ParsedLine := [
  ⟨1, "add $1, $2, $3", "", "add", ["$1", "$2", "$3"]⟩,
  ⟨2, "foo $1", "", "foo", ["$1"]⟩,
  ⟨3, "x: j", "x", "j", []⟩,
  ⟨4, "beq $1, $2, x", "", "beq", ["$1", "$2", "x"]⟩]

/-- The lines that carry a mnemonic, in line order: the instructions. -/
def instrLines (lines : List ParsedLine) : List ParsedLine :=
  lines.filter (fun l => l.mnemonic ≠ "")

/-- The line is a branch or a jump of the instruction table whose label operand (the
third operand of a branch, the first of a jump) is `L`. -/
def refersTo (line : ParsedLine) (L : String) : Prop :=
  ∃ d, findInstruction line.mnemonic = some d ∧
    ((d.pattern = .I_SRC_TMP_LABEL ∧ line.operands[2]? = some L) ∨
      (d.pattern = .J_LABEL ∧ line.operands[0]? = some L))

/-- A program whose second instruction branches to a label no line defines. -/
def danglingProgram : List ParsedLine := [
  ⟨1, "top: addi $1, $0, 5", "top", "addi", ["$1", "$0", "5"]⟩,
  ⟨2, "beq $1, $0, nowhere", "", "beq", ["$1", "$0", "nowhere"]⟩,
  ⟨3, "j top", "", "j", ["top"]⟩]

/-- The `uint32_t` that `expandPseudos` casts the parsed `li` value to. -/
def liValue (v : Int) : Nat := (v % 4294967296).toNat

/-- The text `0x` followed by what `std::hex` prints for `n`. -/
def hexLiteral (n : Nat) : String := "0x" ++ String.mk (hexLower n)

/-- What the loop of `expandPseudos` makes of one line: the lines it emits and the
diagnostics it registers; `none` is the exception of `parsePseudoImmediate`. -/
def expandLine (line : ParsedLine) : Option (List ParsedLine × List Diag) :=
  if line.mnemonic = "nop" then
    some ([{ line with mnemonic := "sll", operands := ["$0", "$0", "0"] }], [])
  else if line.mnemonic = "move" then
    match line.operands with
    | o0 :: o1 :: _ => some ([{ line with mnemonic := "add", operands := [o0, o1, "$0"] }], [])
    | _ => some ([line], [⟨line.lineNumber, "\x27move\x27 requires 2 operands"⟩])
  else if line.mnemonic = "li" then
    match line.operands with
    | o0 :: o1 :: _ =>
      match parsePseudoImmediate o1 with
      | none => none
      | some v =>
        if liValue v ≤ 0xFFFF then
          some ([{ line with mnemonic := "ori", operands := [o0, "$0", o1] }], [])
        else
          some ([{ line with mnemonic := "lui",
                             operands := [o0, hexLiteral (liValue v / 65536 % 65536)] },
            { line with mnemonic := "ori", label := "",
                        operands := [o0, o0, hexLiteral (liValue v % 65536)] }], [])
    | _ => some ([line], [⟨line.lineNumber, "\x27li\x27 requires 2 operands"⟩])
  else some ([line], [])

/-- The line is an `li` with at least two operands whose second operand
`parsePseudoImmediate` reads as a value above `0xFFFF` once cast to `uint32_t`. -/
def isWideLi (line : ParsedLine) : Bool :=
  line.mnemonic == "li" &&
    match line.operands with
    | _ :: imm :: _ =>
      match parsePseudoImmediate imm with
      | some v => decide (0xFFFF < liValue v)
      | none => false
    | _ => false

/-- The lines `p` are what one input line `l` becomes: a first line with the label,
lineNumber and rawText of `l`, then lines without label on the same lineNumber and
rawText; two lines in all when `l` is an `li` with a value above `0xFFFF`, one
otherwise; and `l` itself when its mnemonic is not `nop`, `move` or `li`. -/
def IsExpansionOf (p : List ParsedLine) (l : ParsedLine) : Prop :=
  ∃ first others, p = first :: others ∧
    first.label = l.label ∧ first.lineNumber = l.lineNumber ∧ first.rawText = l.rawText ∧
    (∀ q ∈ others, q.label = "" ∧ q.lineNumber = l.lineNumber ∧ q.rawText = l.rawText) ∧
    p.length = (if isWideLi l then 2 else 1) ∧
    (l.mnemonic ≠ "nop" → l.mnemonic ≠ "move" → l.mnemonic ≠ "li" → p = [l])

/-- A labelled `li` with a wide value between an instruction and a jump to the
label. -/
def wideProgram : List ParsedLine := [
  ⟨1, "add $1, $2, $3", "", "add", ["$1", "$2", "$3"]⟩,
  ⟨2, "big: li $8, 0x12345678", "big", "li", ["$8", "0x12345678"]⟩,
  ⟨3, "end: j big", "end", "j", ["big"]⟩]

/-- The alias name of register `n`: the key of the `n`-th entry of `REGISTER_ALIASES`,
which maps it to the numeric form of `n`. -/
def aliasOf (n : Nat) : String := (REGISTER_ALIASES.getD n ("", "")).1

/-- The 32 alias names. -/
def aliasNames : List String := REGISTER_ALIASES.map (fun p => p.1)

/-- What `resolveAliases` puts in place of one operand. -/
def resolveOperand (op : String) : String :=
  match REGISTER_ALIASES.lookup (toLower op) with
  | some numeric => numeric
  | none => op

/-- The test with which `parseImmediate` and `parsePseudoImmediate` choose `std::stoul`
in base 16 over `std::stoi`: more than two characters, the first `0`, the second `x` or
`X`. -/
def takesHexBranch (operand : String) : Prop :=
  operand.length > 2 ∧ operand.data[0]? = some '0' ∧
    (operand.data[1]? = some 'x' ∨ operand.data[1]? = some 'X')

instance (operand : String) : Decidable (takesHexBranch operand) := by
  unfold takesHexBranch
  infer_instance

/-- The character is a hexadecimal digit of either case. -/
def isHexChar (c : Char) : Prop :=
  (48 ≤ c.toNat ∧ c.toNat ≤ 57) ∨ (97 ≤ c.toNat ∧ c.toNat ≤ 102) ∨
    (65 ≤ c.toNat ∧ c.toNat ≤ 70)

instance (c : Char) : Decidable (isHexChar c) := by
  unfold isHexChar
  infer_instance

/-- The concatenation of a list of texts, in order. -/
def concatAll : List String → String
  | [] => ""
  | t :: rest => t ++ concatAll rest

/-- The seven header lines `writeMIF` writes first. -/
def mifHeader : String :=
  "WIDTH=32;\nDEPTH=256;\n\nADDRESS_RADIX=HEX;\nDATA_RADIX=HEX;\n\nCONTENT BEGIN\n"

/-- The compressed line `writeMIF` writes for the addresses `n` to 255. -/
def mifFillLine (n : Nat) : String :=
  "   [" ++ hexPad3 n ++ "..0ff]  :   00000000;\n"

/-- Steps 3 and 5 of `assemble` in a row: `expandPseudos`, then `encode` on the expanded
lines with the given label table; the diagnostics of both, in order. -/
def expandThenEncode (lines : List ParsedLine) (labels : LabelTable) :
    Option (List EncodedInst × List Diag) :=
  match expandPseudos lines with
  | none => none
  | some (expanded, log) =>
    match encode expanded labels with
    | none => none
    | some (out, log2) => some (out, log ++ log2)

/-- The real instruction the spec gives for `nop`: `sll $0, $0, 0`, on the line of the
pseudo-instruction. -/
def realNop (ln : Int) (raw label : String) : ParsedLine :=
  ⟨ln, raw, label, "sll", ["$0", "$0", "0"]⟩

/-- The real instruction the spec gives for `move d, s`: `add d, s, $0`, on the line of
the pseudo-instruction. -/
def realMove (ln : Int) (raw label d s : String) : ParsedLine :=
  ⟨ln, raw, label, "add", [d, s, "$0"]⟩

/-- The characters are decimal digits, at least one. -/
def IsDecDigits (cs : List Char) : Prop :=
  cs ≠ [] ∧ ∀ c ∈ cs, 48 ≤ c.toNat ∧ c.toNat ≤ 57

instance (cs : List Char) : Decidable (IsDecDigits cs) := by
  unfold IsDecDigits
  infer_instance

/-- The number a sequence of decimal digit characters denotes. -/
def decValue (cs : List Char) : Nat :=
  digitsValue 10 (cs.map (fun c => c.toNat - 48))

/-- The characters are hexadecimal digits of either case, at least one. -/
def IsHexDigits (cs : List Char) : Prop :=
  cs ≠ [] ∧ ∀ c ∈ cs, (48 ≤ c.toNat ∧ c.toNat ≤ 57) ∨ (97 ≤ c.toNat ∧ c.toNat ≤ 102) ∨
    (65 ≤ c.toNat ∧ c.toNat ≤ 70)

instance (cs : List Char) : Decidable (IsHexDigits cs) := by
  unfold IsHexDigits
  infer_instance

/-- The number a sequence of hexadecimal digit characters denotes. -/
def hexValue (cs : List Char) : Nat :=
  digitsValue 16 (cs.map (fun c =>
    if c.toNat ≤ 57 then c.toNat - 48 else if 97 ≤ c.toNat then c.toNat - 87
    else c.toNat - 55))

/-- The 16-bit field `n` read as a two's-complement number. -/
def signed16 (n : Nat) : Int := if n < 32768 then (n : Int) else (n : Int) - 65536

/-- The line, met by the loop of `encode` at address `address`, is encoded without
diagnostic as the entry whose hex text is that of the word `W`; the text has 8
characters and, read back as a hexadecimal numeral, gives `W`. -/
def ReadsBack (labels : LabelTable) (address : Int) (line : ParsedLine) (W : Nat) : Prop :=
  EncodesAs labels address line W [] ∧
    (fmtHex8 W).data.length = 8 ∧ hexValue (fmtHex8 W).data = W

/-- A physical line without its comment: what precedes the first `#`. -/
def stripComment (raw : List Char) : List Char := raw.takeWhile (fun c => !(c == '#'))

/-- A physical line after the comment is removed and the rest trimmed. -/
def strippedLine (raw : List Char) : List Char := trimChars (stripComment raw)

/-- The first token of a text: what precedes its first space or tab. -/
def firstToken (cs : List Char) : List Char :=
  cs.takeWhile (fun c => !(c == ' ' || c == '\t'))

/-- The text before the first colon. -/
def beforeColon (cs : List Char) : List Char := cs.takeWhile (fun c => !(c == ':'))

/-- The text after the first colon, trimmed. -/
def afterColon (cs : List Char) : List Char :=
  trimChars ((cs.dropWhile (fun c => !(c == ':'))).drop 1)

/-- The record `rec` stands for the physical line `raw` numbered `n`: it carries the
number; when the stripped line has a colon, its label is the trimmed text before the
first colon and, with nothing but trimmed characters after the colon, mnemonic and
operands are empty, otherwise the mnemonic is the lowercased first token of what
follows; without a colon the label is empty and the mnemonic is the lowercased first
token of the stripped line. -/
def IsRecordOf (n : Nat) (raw : List Char) (rec : ParsedLine) : Prop :=
  rec.lineNumber = (n : Int) ∧ rec.rawText = String.mk (trimChars raw) ∧
  (':' ∈ strippedLine raw →
    rec.label = String.mk (trimChars (beforeColon (strippedLine raw))) ∧
    (afterColon (strippedLine raw) = [] → rec.mnemonic = "" ∧ rec.operands = []) ∧
    (afterColon (strippedLine raw) ≠ [] →
      rec.mnemonic = toLower (String.mk (firstToken (afterColon (strippedLine raw)))) ∧
      rec.mnemonic ≠ "")) ∧
  (':' ∉ strippedLine raw →
    rec.label = "" ∧ rec.mnemonic = toLower (String.mk (firstToken (strippedLine raw))) ∧
    rec.mnemonic ≠ "")

/-- The running parenthesis count of a text: the number of `(` minus the number of `)`. -/
def balance (cs : List Char) : Int := (cs.count '(' : Int) - (cs.count ')' : Int)

/-- The pieces put back together with one comma between neighbours. -/
def joinCommas : List (List Char) → List Char
  | [] => []
  | [p] => p
  | p :: q :: ps => p ++ ',' :: joinCommas (q :: ps)

/-- Every comma inside the piece stands where the running parenthesis count, taken from
the start of the piece, is not 0. -/
def NoTopComma (p : List Char) : Prop :=
  ∀ a b : List Char, p = a ++ ',' :: b → balance a ≠ 0

/-- The text `rest` is cut into `pieces` followed by `last` at exactly its commas of
parenthesis count 0: joined with commas they give `rest` back, every piece before a
cutting comma has count 0 (so each piece starts, and each cutting comma stands, at count
0), and no piece holds a comma at count 0. -/
def IsTopSplit (rest : List Char) (pieces : List (List Char)) (last : List Char) : Prop :=
  joinCommas (pieces ++ [last]) = rest ∧ (∀ p ∈ pieces, balance p = 0) ∧
    ∀ p ∈ pieces ++ [last], NoTopComma p

/-- The instruction part of a physical line: what follows the first colon of the stripped
line, trimmed, or the stripped line itself when it has no colon. -/
def instructionText (raw : List Char) : List Char :=
  if ':' ∈ strippedLine raw then afterColon (strippedLine raw) else strippedLine raw

/-- The operand list of a physical line: what follows the first token of the instruction
part, trimmed. -/
def operandText (raw : List Char) : List Char :=
  trimChars ((instructionText raw).dropWhile (fun c => !(c == ' ' || c == '\t')))

/-- The character is one of `0`-`9`, `A`-`F`. -/
def isUpperHexChar (c : Char) : Prop :=
  (48 ≤ c.toNat ∧ c.toNat ≤ 57) ∨ (65 ≤ c.toNat ∧ c.toNat ≤ 70)

instance (c : Char) : Decidable (isUpperHexChar c) := by
  unfold isUpperHexChar
  infer_instance

/-- The line reaches `encodeInstruction` in the loop of `encode`: its mnemonic is in the
instruction table and it has at least the operands its pattern expects. -/
def reachesEncoder (line : ParsedLine) : Bool :=
  match findInstruction line.mnemonic with
  | some d => decide (expectedOperandCount d.pattern ≤ line.operands.length)
  | none => false

/-- The entry is well formed: its hex text has 8 characters, each one of `0`-`9`,
`A`-`F`. -/
def WellFormedEntry (e : EncodedInst) : Prop :=
  e.hex.data.length = 8 ∧ ∀ c ∈ e.hex.data, isUpperHexChar c

/-! ## Bit fields -/

theorem binVal_foldl (cs : List Char) (a : Nat) :
    cs.foldl (fun acc c => 2 * acc + (if c = '1' then 1 else 0)) a
      = a * 2 ^ cs.length + binVal cs := by
  induction cs generalizing a with
  | nil => simp [binVal]
  | cons c cs ih =>
    simp only [List.foldl_cons, binVal, List.length_cons]
    rw [ih, ih (2 * 0 + _)]
    ring

theorem binVal_append (a b : List Char) :
    binVal (a ++ b) = binVal a * 2 ^ b.length + binVal b := by
  unfold binVal
  rw [List.foldl_append, binVal_foldl]
  rfl

theorem bitsOf_length (w n : Nat) : (bitsOf w n).length = w := by
  induction w generalizing n with
  | zero => rfl
  | succ w ih => simp [bitsOf, ih]

theorem bitsOf_all (w n : Nat) :
    (bitsOf w n).all (fun c => c == '0' || c == '1') = true := by
  induction w generalizing n with
  | zero => rfl
  | succ w ih =>
    simp only [bitsOf, List.all_append, ih, Bool.true_and]
    split <;> decide

theorem binVal_bitsOf (w n : Nat) : binVal (bitsOf w n) = n % 2 ^ w := by
  induction w generalizing n with
  | zero => simp [bitsOf, binVal, Nat.mod_one]
  | succ w ih =>
    rw [bitsOf, binVal_append, ih]
    have h2 : binVal [if n % 2 = 1 then '1' else '0'] = n % 2 := by
      rcases Nat.mod_two_eq_zero_or_one n with h | h <;> simp [h, binVal]
    rw [h2]
    simp only [List.length_singleton, pow_one]
    rw [pow_succ, Nat.mul_comm (2 ^ w) 2, Nat.mod_mul]
    omega

theorem IsField.append {w1 w2 v1 v2 : Nat} {a b : String} (ha : IsField w1 a v1)
    (hb : IsField w2 b v2) : IsField (w1 + w2) (a ++ b) (v1 * 2 ^ w2 + v2) := by
  obtain ⟨la, aa, va⟩ := ha
  obtain ⟨lb, ab, vb⟩ := hb
  refine ⟨?_, ?_, ?_⟩
  · simp [String.data_append, la, lb]
  · rw [String.data_append, List.all_append, aa, ab]
    rfl
  · rw [String.data_append, binVal_append, va, vb, lb]

theorem bitset32_of_isField {s : String} {v : Nat} (h : IsField 32 s v) :
    bitset32 s = some v := by
  obtain ⟨l, a, hv⟩ := h
  have ht : s.data.take 32 = s.data := List.take_of_length_le (by omega)
  simp only [bitset32, ht, a, hv, if_true]

theorem bin2hex_of_isField {s : String} {v : Nat} (h : IsField 32 s v) :
    bin2hex s = some (fmtHex8 v) := by
  simp [bin2hex, bitset32_of_isField h]

theorem isField_bitsetToString (N : Nat) (value : Int) :
    IsField N (bitsetToString N value)
      ((value % 18446744073709551616).toNat % 2 ^ N) :=
  ⟨bitsOf_length _ _, bitsOf_all _ _, binVal_bitsOf _ _⟩

theorem isField_encodeImmediate5 (value : Int) :
    IsField 5 (encodeImmediate value 5) (value % 32).toNat := by
  have h := isField_bitsetToString 5 value
  have e : (value % 18446744073709551616).toNat % 2 ^ 5 = (value % 32).toNat := by omega
  rw [e] at h
  simpa [encodeImmediate] using h

theorem isField_encodeImmediate16 (value : Int) :
    IsField 16 (encodeImmediate value 16) (value % 65536).toNat := by
  have h := isField_bitsetToString 16 value
  have e : (value % 18446744073709551616).toNat % 2 ^ 16 = (value % 65536).toNat := by omega
  rw [e] at h
  simpa [encodeImmediate] using h

theorem isField_encodeImmediate26 (value : Int) :
    IsField 26 (encodeImmediate value 26) (value % 67108864).toNat := by
  have h := isField_bitsetToString 26 value
  have e : (value % 18446744073709551616).toNat % 2 ^ 26 = (value % 67108864).toNat := by
    omega
  rw [e] at h
  simpa [encodeImmediate] using h

theorem isField_zeros5 : IsField 5 "00000" 0 := by decide

theorem isField_zeros15 : IsField 15 "000000000000000" 0 := by decide

theorem isField_zeroWord : IsField 32 zeroWord 0 := by decide

/-! ## The two tables -/

theorem mem_of_lookup {β : Type} (l : List (String × β)) (k : String) (v : β)
    (h : l.lookup k = some v) : (k, v) ∈ l := by
  induction l with
  | nil => simp at h
  | cons p l ih =>
    obtain ⟨k1, v1⟩ := p
    by_cases hk : k = k1
    · subst hk
      simp [List.lookup] at h
      simp [h]
    · have hb : (k == k1) = false := by simpa using hk
      rw [List.lookup, hb] at h
      exact List.mem_cons_of_mem _ (ih h)

theorem isField_opcode {m : String} {d : InstructionDef} (h : findInstruction m = some d) :
    IsField 6 d.opcode (opcodeOf d) := by
  have hall : ∀ p ∈ INSTRUCTIONS, p.2.opcode.data.length = 6 ∧
      p.2.opcode.data.all (fun c => c == '0' || c == '1') = true := by decide
  have := hall _ (mem_of_lookup _ _ _ h)
  exact ⟨this.1, this.2, rfl⟩

theorem isField_funct {m : String} {d : InstructionDef} (h : findInstruction m = some d)
    (hp : d.pattern = .R_DST_SRC_TMP ∨ d.pattern = .R_DST_TMP_SHAMT ∨
      d.pattern = .R_SRC_ONLY) :
    IsField 6 d.funct (functOf d) := by
  have hall : ∀ p ∈ INSTRUCTIONS,
      (p.2.pattern = .R_DST_SRC_TMP ∨ p.2.pattern = .R_DST_TMP_SHAMT ∨
        p.2.pattern = .R_SRC_ONLY) →
      p.2.funct.data.length = 6 ∧
        p.2.funct.data.all (fun c => c == '0' || c == '1') = true := by decide
  have := hall _ (mem_of_lookup _ _ _ h) hp
  exact ⟨this.1, this.2, rfl⟩

theorem encodeRegister_regName (n : Nat) (hn : n ≤ 31) (ln : Int) :
    (encodeRegister (regName n) ln).2 = [] ∧
      IsField 5 (encodeRegister (regName n) ln).1 n := by
  have hall : ∀ k ∈ List.range 32,
      encodeRegister (regName k) 0 = (REG_BINARY.getD k "00000", []) ∧
        IsField 5 (REG_BINARY.getD k "00000") k := by decide
  have hk := hall n (List.mem_range.mpr (by omega))
  have hln : encodeRegister (regName n) ln = ((encodeRegister (regName n) 0).1,
      (encodeRegister (regName n) 0).2.map (fun e => ⟨ln, e.msg⟩)) := by
    unfold encodeRegister reportError
    split
    · rfl
    · split
      · rfl
      · split <;> rfl
  rw [hln, hk.1]
  exact ⟨rfl, hk.2⟩

/-! ## Decimal and hexadecimal literals -/

theorem takeDigits_map (dv : Char → Option Nat) (val : Char → Nat) (cs : List Char)
    (h : ∀ c ∈ cs, dv c = some (val c)) : takeDigits dv cs = cs.map val := by
  induction cs with
  | nil => rfl
  | cons c cs ih =>
    simp only [takeDigits, h c (List.mem_cons_self _ _), List.map_cons]
    rw [ih (fun x hx => h x (List.mem_cons_of_mem _ hx))]

theorem decDigit_of_digit (c : Char) (h : 48 ≤ c.toNat ∧ c.toNat ≤ 57) :
    decDigit c = some (c.toNat - 48) := by
  simp [decDigit, h]

theorem digit_not_special (c : Char) (h : 48 ≤ c.toNat ∧ c.toNat ≤ 57) :
    isSpace c = false ∧ c ≠ '-' ∧ c ≠ '+' ∧ c ≠ 'x' ∧ c ≠ 'X' := by
  refine ⟨?_, ?_, ?_, ?_, ?_⟩
  · unfold isSpace
    have h1 : c ≠ ' ' := by rintro rfl; revert h; decide
    have h2 : c ≠ '\t' := by rintro rfl; revert h; decide
    have h3 : c ≠ '\n' := by rintro rfl; revert h; decide
    have h4 : c ≠ '\x0b' := by rintro rfl; revert h; decide
    have h5 : c ≠ '\x0c' := by rintro rfl; revert h; decide
    have h6 : c ≠ '\r' := by rintro rfl; revert h; decide
    simp [h1, h2, h3, h4, h5, h6]
  · rintro rfl; revert h; decide
  · rintro rfl; revert h; decide
  · rintro rfl; revert h; decide
  · rintro rfl; revert h; decide

theorem takeSign_of_not_sign (c : Char) (r : List Char) (h1 : c ≠ '-') (h2 : c ≠ '+') :
    takeSign (c :: r) = (false, c :: r) := by
  unfold takeSign
  split
  · rename_i heq
    exact absurd (List.cons.inj heq).1 h1
  · rename_i heq
    exact absurd (List.cons.inj heq).1 h2
  · rfl

theorem stoi_digits (cs : List Char) (h : IsDecDigits cs) (hr : decValue cs ≤ 2147483647) :
    stoi (String.mk cs) = some ((decValue cs : Nat) : Int) := by
  obtain ⟨hne, hall⟩ := h
  rcases cs with _ | ⟨c, r⟩
  · exact absurd rfl hne
  · have hc := digit_not_special c (hall c (List.mem_cons_self _ _))
    have h1 : List.dropWhile isSpace (c :: r) = c :: r := by
      simp [List.dropWhile, hc.1]
    have h2 := takeSign_of_not_sign c r hc.2.1 hc.2.2.1
    have h3 : takeDigits decDigit (c :: r) = (c :: r).map (fun c => c.toNat - 48) :=
      takeDigits_map _ _ _ (fun x hx => decDigit_of_digit x (hall x hx))
    have h4 : ¬ (2147483647 : Int) < (decValue (c :: r) : Nat) := by omega
    have h5 : ¬ ((decValue (c :: r) : Nat) : Int) < -2147483648 := by omega
    simp only [stoi, h1, h2, h3]
    simp only [List.map_cons, List.isEmpty_cons, Bool.false_eq_true, if_false]
    simp only [decValue, List.map_cons] at h4 h5 ⊢
    simp [h4, h5]

theorem stoi_minus_digits (cs : List Char) (h : IsDecDigits cs)
    (hr : decValue cs ≤ 2147483648) :
    stoi (String.mk ('-' :: cs)) = some (-((decValue cs : Nat) : Int)) := by
  obtain ⟨hne, hall⟩ := h
  rcases cs with _ | ⟨c, r⟩
  · exact absurd rfl hne
  · have h1 : List.dropWhile isSpace ('-' :: c :: r) = '-' :: c :: r := by
      simp [List.dropWhile, isSpace]
    have h2 : takeSign ('-' :: c :: r) = (true, c :: r) := rfl
    have h3 : takeDigits decDigit (c :: r) = (c :: r).map (fun c => c.toNat - 48) :=
      takeDigits_map _ _ _ (fun x hx => decDigit_of_digit x (hall x hx))
    have h4 : ¬ (2147483647 : Int) < -((decValue (c :: r) : Nat) : Int) := by omega
    have h5 : ¬ -((decValue (c :: r) : Nat) : Int) < -2147483648 := by omega
    simp only [stoi, h1, h2, h3]
    simp only [List.map_cons, List.isEmpty_cons, Bool.false_eq_true, if_false]
    simp only [decValue, List.map_cons] at h4 h5 ⊢
    simp [h4, h5]

theorem hexDigit_of_hex (c : Char)
    (h : (48 ≤ c.toNat ∧ c.toNat ≤ 57) ∨ (97 ≤ c.toNat ∧ c.toNat ≤ 102) ∨
      (65 ≤ c.toNat ∧ c.toNat ≤ 70)) :
    hexDigit c = some (if c.toNat ≤ 57 then c.toNat - 48 else if 97 ≤ c.toNat
      then c.toNat - 87 else c.toNat - 55) := by
  unfold hexDigit
  rcases h with h | h | h
  · simp [h]
  · have h1 : ¬ (48 ≤ c.toNat ∧ c.toNat ≤ 57) := by omega
    have h2 : ¬ c.toNat ≤ 57 := by omega
    simp [h1, h, h2]
  · have h1 : ¬ (48 ≤ c.toNat ∧ c.toNat ≤ 57) := by omega
    have h2 : ¬ (97 ≤ c.toNat ∧ c.toNat ≤ 102) := by omega
    have h3 : ¬ c.toNat ≤ 57 := by omega
    have h4 : ¬ 97 ≤ c.toNat := by omega
    simp [h1, h2, h, h3, h4]

theorem hex_not_special (c : Char)
    (h : (48 ≤ c.toNat ∧ c.toNat ≤ 57) ∨ (97 ≤ c.toNat ∧ c.toNat ≤ 102) ∨
      (65 ≤ c.toNat ∧ c.toNat ≤ 70)) :
    isSpace c = false ∧ c ≠ '-' ∧ c ≠ '+' ∧ c ≠ 'x' ∧ c ≠ 'X' := by
  refine ⟨?_, ?_, ?_, ?_, ?_⟩
  · unfold isSpace
    have h1 : c ≠ ' ' := by rintro rfl; revert h; decide
    have h2 : c ≠ '\t' := by rintro rfl; revert h; decide
    have h3 : c ≠ '\n' := by rintro rfl; revert h; decide
    have h4 : c ≠ '\x0b' := by rintro rfl; revert h; decide
    have h5 : c ≠ '\x0c' := by rintro rfl; revert h; decide
    have h6 : c ≠ '\r' := by rintro rfl; revert h; decide
    simp [h1, h2, h3, h4, h5, h6]
  · rintro rfl; revert h; decide
  · rintro rfl; revert h; decide
  · rintro rfl; revert h; decide
  · rintro rfl; revert h; decide

theorem stoul16_hexDigits (hs : List Char) (h : IsHexDigits hs)
    (hlt : hexValue hs < 18446744073709551616) :
    stoul16 (String.mk hs) = some (hexValue hs) := by
  obtain ⟨hne, hall⟩ := h
  rcases hs with _ | ⟨c, r⟩
  · exact absurd rfl hne
  · have hc := hex_not_special c (hall c (List.mem_cons_self _ _))
    have h1 : List.dropWhile isSpace (c :: r) = c :: r := by
      simp [List.dropWhile, hc.1]
    have h2 := takeSign_of_not_sign c r hc.2.1 hc.2.2.1
    have h3 : skipHexMark (c :: r) = c :: r := by
      unfold skipHexMark
      split
      · rename_i x d t heq
        have hx : x ∈ c :: r := by rw [heq]; simp
        have hfx := hex_not_special x (hall x hx)
        simp [hfx.2.2.2.1, hfx.2.2.2.2, heq]
      · rfl
    have h4 := takeDigits_map hexDigit _ (c :: r) (fun x hx => hexDigit_of_hex x (hall x hx))
    simp only [stoul16, h1, h2, h3, h4]
    simp only [List.map_cons, List.isEmpty_cons, Bool.false_eq_true, if_false]
    simp only [hexValue, List.map_cons] at hlt ⊢
    simp [Nat.not_le.mpr hlt]

theorem parseImmediate_eq (operand : String) (ln : Int) :
    parseImmediate operand ln =
      match parsePseudoImmediate operand with
      | some v => (v, [])
      | none => (0, reportError ln ("invalid immediate value \x27" ++ operand ++ "\x27")) :=
  rfl

theorem parsePseudoImmediate_digits (cs : List Char) (h : IsDecDigits cs)
    (hr : decValue cs ≤ 2147483647) :
    parsePseudoImmediate (String.mk cs) = some ((decValue cs : Nat) : Int) := by
  have hx : ¬ (cs[1]? = some 'x' ∨ cs[1]? = some 'X') := by
    rintro (e | e)
    · have hm := List.getElem?_mem e
      exact (digit_not_special _ (h.2 _ hm)).2.2.2.1 rfl
    · have hm := List.getElem?_mem e
      exact (digit_not_special _ (h.2 _ hm)).2.2.2.2 rfl
  unfold parsePseudoImmediate
  simp only [hx, and_false, if_false]
  exact stoi_digits cs h hr

theorem parsePseudoImmediate_minus_digits (cs : List Char) (h : IsDecDigits cs)
    (hr : decValue cs ≤ 2147483648) :
    parsePseudoImmediate (String.mk ('-' :: cs)) = some (-((decValue cs : Nat) : Int)) := by
  unfold parsePseudoImmediate
  have h0 : ¬ (('-' :: cs)[0]? = some '0') := by simp
  simp only [h0, false_and, and_false, if_false]
  exact stoi_minus_digits cs h hr

theorem parsePseudoImmediate_hex (x : Char) (hx : x = 'x' ∨ x = 'X') (hs : List Char)
    (h : IsHexDigits hs) (hlt : hexValue hs < 18446744073709551616) :
    parsePseudoImmediate (String.mk ('0' :: x :: hs))
      = some (wrapInt32 ((hexValue hs : Nat) : Int)) := by
  obtain ⟨c, r, rfl⟩ : ∃ c r, hs = c :: r := by
    rcases hs with _ | ⟨c, r⟩
    · exact absurd rfl h.1
    · exact ⟨c, r, rfl⟩
  have hlen : (String.mk ('0' :: x :: c :: r)).length > 2 := by
    show ('0' :: x :: c :: r).length > 2
    simp
  have hsub : substrFrom (String.mk ('0' :: x :: c :: r)) 2 = String.mk (c :: r) := rfl
  unfold parsePseudoImmediate
  have hx2 : (('0' :: x :: c :: r)[1]? = some 'x' ∨ ('0' :: x :: c :: r)[1]? = some 'X') := by
    rcases hx with rfl | rfl <;> simp
  simp only [hlen, hx2, List.getElem?_cons_zero, and_self, if_true, hsub,
    stoul16_hexDigits _ h hlt, Option.map_some']

theorem parseImmediate_digits (cs : List Char) (ln : Int) (h : IsDecDigits cs)
    (hr : decValue cs ≤ 2147483647) :
    parseImmediate (String.mk cs) ln = (((decValue cs : Nat) : Int), []) := by
  rw [parseImmediate_eq, parsePseudoImmediate_digits cs h hr]

theorem parseImmediate_minus_digits (cs : List Char) (ln : Int) (h : IsDecDigits cs)
    (hr : decValue cs ≤ 2147483648) :
    parseImmediate (String.mk ('-' :: cs)) ln = (-((decValue cs : Nat) : Int), []) := by
  rw [parseImmediate_eq, parsePseudoImmediate_minus_digits cs h hr]

theorem parseImmediate_hex (x : Char) (hx : x = 'x' ∨ x = 'X') (hs : List Char) (ln : Int)
    (h : IsHexDigits hs) (hlt : hexValue hs < 18446744073709551616) :
    parseImmediate (String.mk ('0' :: x :: hs)) ln
      = (wrapInt32 ((hexValue hs : Nat) : Int), []) := by
  rw [parseImmediate_eq, parsePseudoImmediate_hex x hx hs h hlt]

/-! ## One iteration of the loop of `encode` -/

theorem IsField.cast {w w1 v v1 : Nat} {s : String} (h : IsField w s v) (hw : w = w1)
    (hv : v = v1) : IsField w1 s v1 := by
  subst hw
  subst hv
  exact h

theorem findInstruction_ne_empty {m : String} {d : InstructionDef}
    (h : findInstruction m = some d) : m ≠ "" := by
  intro hm
  subst hm
  have h0 : findInstruction "" = none := by decide
  rw [h0] at h
  exact Option.noConfusion h

theorem encodesAs_of {labels : LabelTable} {address : Int} {line : ParsedLine}
    {d : InstructionDef} {binary : String} {W : Nat} {errs : List Diag}
    (hf : findInstruction line.mnemonic = some d)
    (hc : expectedOperandCount d.pattern ≤ line.operands.length)
    (he : encodeInstruction d line labels address = some (binary, errs))
    (hw : IsField 32 binary W) : EncodesAs labels address line W errs := by
  refine ⟨⟨d, binary, hf, he, bitset32_of_isField hw⟩, ?_⟩
  intro rest encoded log
  have hne := findInstruction_ne_empty hf
  rw [encodeLoop]
  simp only [hne, if_false, hf, Nat.not_lt.mpr hc, he, bin2hex_of_isField hw]

theorem encodesAs_triple (m : String) (d : InstructionDef) (rd rs rt : Nat)
    (more : List String) (ln : Int) (raw label : String) (labels : LabelTable)
    (address : Int) (hf : findInstruction m = some d) (hp : d.pattern = .R_DST_SRC_TMP)
    (hd : rd ≤ 31) (hs : rs ≤ 31) (ht : rt ≤ 31) :
    EncodesAs labels address
      ⟨ln, raw, label, m, regName rd :: regName rs :: regName rt :: more⟩
      (opcodeOf d * 2 ^ 26 + rs * 2 ^ 21 + rt * 2 ^ 16 + rd * 2 ^ 11 + 0 * 2 ^ 6
        + functOf d) [] := by
  have fd := encodeRegister_regName rd hd ln
  have fs := encodeRegister_regName rs hs ln
  have ft := encodeRegister_regName rt ht ln
  have fo := isField_opcode hf
  have ff := isField_funct hf (Or.inl hp)
  refine encodesAs_of (d := d) hf (by simp [hp, expectedOperandCount]) ?_
    ((((((fo.append fs.2).append ft.2).append fd.2).append isField_zeros5).append ff).cast
      rfl (by ring))
  simp [encodeInstruction, hp, fd.1, fs.1, ft.1]

theorem encodesAs_shift (m : String) (d : InstructionDef) (rd rt : Nat) (shamt : String)
    (v : Int) (more : List String) (ln : Int) (raw label : String) (labels : LabelTable)
    (address : Int) (hf : findInstruction m = some d) (hp : d.pattern = .R_DST_TMP_SHAMT)
    (hd : rd ≤ 31) (ht : rt ≤ 31) (hv : parseImmediate shamt ln = (v, [])) :
    EncodesAs labels address
      ⟨ln, raw, label, m, regName rd :: regName rt :: shamt :: more⟩
      (opcodeOf d * 2 ^ 26 + 0 * 2 ^ 21 + rt * 2 ^ 16 + rd * 2 ^ 11
        + (v % 32).toNat * 2 ^ 6 + functOf d) [] := by
  have fd := encodeRegister_regName rd hd ln
  have ft := encodeRegister_regName rt ht ln
  have fo := isField_opcode hf
  have ff := isField_funct hf (Or.inr (Or.inl hp))
  have fv := isField_encodeImmediate5 v
  refine encodesAs_of (d := d) hf (by simp [hp, expectedOperandCount]) ?_
    ((((((fo.append isField_zeros5).append ft.2).append fd.2).append fv).append ff).cast
      rfl (by ring))
  simp [encodeInstruction, hp, fd.1, ft.1, hv]

theorem encode_singleton {labels : LabelTable} {line : ParsedLine} {W : Nat}
    {errs : List Diag} (h : EncodesAs labels 0 line W errs) :
    encode [line] labels = some ([⟨fmtHex8 W, line.rawText⟩], errs) := by
  have h2 := h.2 [] [] []
  simpa [encode, encodeLoop] using h2

theorem wrapInt32_emod (v : Int) : wrapInt32 v % 65536 = v % 65536 := by
  unfold wrapInt32
  simp only
  split <;> omega

theorem wrapInt32_of_range (v : Int) (h1 : -2147483648 ≤ v) (h2 : v < 2147483648) :
    wrapInt32 v = v := by
  unfold wrapInt32
  simp only
  split <;> omega

theorem branchOffset_emod (target address : Int) :
    branchOffset target address % 65536
      = (if target > address then (target - address) - 1 else -(address - target))
          % 65536 := by
  unfold branchOffset
  split
  · have h1 := wrapInt32_emod (wrapInt32 (target - address) - 1)
    have h2 := wrapInt32_emod (target - address)
    omega
  · have h1 := wrapInt32_emod (-(wrapInt32 (address - target)))
    have h2 := wrapInt32_emod (address - target)
    omega

theorem branchOffset_of_range (target address : Int) (ht : 0 ≤ target)
    (ht2 : target < 2147483648) (ha : 0 ≤ address) (ha2 : address < 2147483648) :
    branchOffset target address
      = if target > address then (target - address) - 1 else -(address - target) := by
  unfold branchOffset
  split
  · rw [wrapInt32_of_range (target - address) (by omega) (by omega),
      wrapInt32_of_range _ (by omega) (by omega)]
  · rw [wrapInt32_of_range (address - target) (by omega) (by omega),
      wrapInt32_of_range _ (by omega) (by omega)]

/-- C3. Branch format.  For a branch mnemonic (`beq`, `bne`) with numeric register
operands s, t in `[0,31]` and a label operand bound to `T` in the label table, the loop
of `encode` at address `A` emits, without diagnostic, the word
`opcode*2^26 + s*2^21 + t*2^16 + (offset mod 2^16)` with `offset = (T - A) - 1` if
`T > A` and `offset = -(A - T)` otherwise; for `T` and `A` in `[0, 2^31)` this offset is
the very value the code computes.  At `A = 2`, `T = 5` the offset is 2 (field 0x0002);
at `A = 5`, `T = 2` it is -3 (field 0xFFFD). -/
theorem C3_branch_offset :
    (∀ (m : String) (d : InstructionDef) (rs rt : Nat) (labelName : String) (T A : Int)
        (more : List String) (ln : Int) (raw label : String) (labels : LabelTable),
      findInstruction m = some d → d.pattern = .I_SRC_TMP_LABEL →
      rs ≤ 31 → rt ≤ 31 → labels labelName = some T →
      EncodesAs labels A
        ⟨ln, raw, label, m, regName rs :: regName rt :: labelName :: more⟩
        (opcodeOf d * 2 ^ 26 + rs * 2 ^ 21 + rt * 2 ^ 16
          + ((if T > A then (T - A) - 1 else -(A - T)) % 2 ^ 16).toNat) []) ∧
    (∀ T A : Int, 0 ≤ T → T < 2 ^ 31 → 0 ≤ A → A < 2 ^ 31 →
      branchOffset T A = if T > A then (T - A) - 1 else -(A - T)) ∧
    (branchOffset 5 2 = 2 ∧ IsField 16 (encodeImmediate (branchOffset 5 2) 16) 0x0002) ∧
    (branchOffset 2 5 = -3 ∧ IsField 16 (encodeImmediate (branchOffset 2 5) 16) 0xFFFD) ∧
    (INSTRUCTIONS.filter (fun p => p.2.pattern = .I_SRC_TMP_LABEL)).map (fun p => p.1)
      = ["beq", "bne"] := by
  refine ⟨?_, ?_, by decide, by decide, by decide⟩
  · intro m d rs rt labelName T A more ln raw label labels hf hp hs ht hl
    have fs := encodeRegister_regName rs hs ln
    have ft := encodeRegister_regName rt ht ln
    have fo := isField_opcode hf
    have fv := isField_encodeImmediate16 (branchOffset T A)
    rw [branchOffset_emod] at fv
    refine encodesAs_of (d := d) hf (by simp [hp, expectedOperandCount]) ?_
      ((((fo.append fs.2).append ft.2).append fv).cast rfl (by norm_num; ring))
    simp [encodeInstruction, hp, fs.1, ft.1, hl]
  · intro T A h1 h2 h3 h4
    exact branchOffset_of_range T A h1 (by simpa using h2) h3 (by simpa using h4)

/-- Witness of C3: with `L` bound to 5, `beq $1, $2, L` at address 2 is the word
0x10220002; with `L` bound to 2, at address 5 it is the word 0x1022FFFD. -/
theorem C3_branch_offset_witness :
    EncodesAs (LabelTable.empty.set "L" 5) 2
      ⟨7, "beq $1, $2, L", "", "beq", ["$1", "$2", "L"]⟩ 0x10220002 [] ∧
    EncodesAs (LabelTable.empty.set "L" 2) 5
      ⟨7, "beq $1, $2, L", "", "beq", ["$1", "$2", "L"]⟩ 0x1022FFFD [] := by
  have h1 := C3_branch_offset.1 "beq" ⟨"000100", "", .I_SRC_TMP_LABEL⟩ 1 2 "L" 5 2 []
    7 "beq $1, $2, L" "" (LabelTable.empty.set "L" 5) (by decide) (by decide) (by decide)
    (by decide) (by decide)
  have h2 := C3_branch_offset.1 "beq" ⟨"000100", "", .I_SRC_TMP_LABEL⟩ 1 2 "L" 2 5 []
    7 "beq $1, $2, L" "" (LabelTable.empty.set "L" 2) (by decide) (by decide) (by decide)
    (by decide) (by decide)
  have e1 : opcodeOf ⟨"000100", "", .I_SRC_TMP_LABEL⟩ * 2 ^ 26 + 1 * 2 ^ 21 + 2 * 2 ^ 16
      + ((if (5 : Int) > 2 then ((5 : Int) - 2) - 1 else -(2 - 5)) % 2 ^ 16).toNat
      = 0x10220002 := by decide
  have e2 : opcodeOf ⟨"000100", "", .I_SRC_TMP_LABEL⟩ * 2 ^ 26 + 1 * 2 ^ 21 + 2 * 2 ^ 16
      + ((if (2 : Int) > 5 then ((2 : Int) - 5) - 1 else -(5 - 2)) % 2 ^ 16).toNat
      = 0x1022FFFD := by decide
  rw [e1] at h1
  rw [e2] at h2
  exact ⟨h1, h2⟩

/-- C4. Jump format.  For a jump mnemonic (`j`, `jal`) whose operand is a label bound in
the label table to `a` with `0 ≤ a < 2^26`, the loop of `encode`, at whatever address,
emits without diagnostic the word `opcode*2^26 + a`: the 26-bit field is the bound
instruction index itself. -/
theorem C4_jump_target :
    (∀ (m : String) (d : InstructionDef) (labelName : String) (a address : Int)
        (more : List String) (ln : Int) (raw label : String) (labels : LabelTable),
      findInstruction m = some d → d.pattern = .J_LABEL →
      labels labelName = some a → 0 ≤ a → a < 2 ^ 26 →
      EncodesAs labels address ⟨ln, raw, label, m, labelName :: more⟩
        (opcodeOf d * 2 ^ 26 + a.toNat) []) ∧
    (INSTRUCTIONS.filter (fun p => p.2.pattern = .J_LABEL)).map (fun p => p.1)
      = ["j", "jal"] := by
  refine ⟨?_, by decide⟩
  intro m d labelName a address more ln raw label labels hf hp hl h0 h1
  have fo := isField_opcode hf
  have fv := isField_encodeImmediate26 a
  have e : (a % 67108864).toNat = a.toNat := by
    have h2 : a < 67108864 := by simpa using h1
    omega
  rw [e] at fv
  refine encodesAs_of (d := d) hf (by simp [hp, expectedOperandCount]) ?_
    ((fo.append fv).cast rfl rfl)
  simp [encodeInstruction, hp, hl]

/-- Witness of C4: with `L` bound to 3, `jal L` met at address 9 is the word
0x0C000003. -/
theorem C4_jump_target_witness :
    EncodesAs (LabelTable.empty.set "L" 3) 9 ⟨4, "jal L", "", "jal", ["L"]⟩
      0x0C000003 [] := by
  have h := C4_jump_target.1 "jal" ⟨"000011", "", .J_LABEL⟩ "L" 3 9 [] 4 "jal L" ""
    (LabelTable.empty.set "L" 3) (by decide) (by decide) (by decide) (by decide)
    (by decide)
  have e : opcodeOf ⟨"000011", "", .J_LABEL⟩ * 2 ^ 26 + (3 : Int).toNat = 0x0C000003 := by
    decide
  rw [e] at h
  exact h

/-! ## The label table -/

theorem instrCount_cons (l : ParsedLine) (rest : List ParsedLine) :
    instrCount (l :: rest) = (if l.mnemonic ≠ "" then 1 else 0) + instrCount rest := by
  unfold instrCount
  by_cases h : l.mnemonic = "" <;> simp [List.filter_cons, h]
  omega

theorem instrCount_take_succ (lines : List ParsedLine) (i : Nat) (hi : i < lines.length) :
    instrCount (lines.take (i + 1))
      = instrCount (lines.take i) + (if lines[i].mnemonic ≠ "" then 1 else 0) := by
  induction lines generalizing i with
  | nil => simp at hi
  | cons l rest ih =>
    cases i with
    | zero => by_cases h : l.mnemonic = "" <;> simp [instrCount, h]
    | succ i =>
      have hi2 : i < rest.length := by simpa using hi
      simp only [List.take_succ_cons, instrCount_cons, List.getElem_cons_succ]
      rw [ih i hi2]
      omega

theorem buildLabelTableLoop_frame (lines : List ParsedLine) (address : Int)
    (labels : LabelTable) (log : List Diag) (name : String)
    (h : ∀ l ∈ lines, l.label ≠ "" → l.label ≠ name) :
    (buildLabelTableLoop lines address labels log).1 name = labels name := by
  induction lines generalizing address labels log with
  | nil => rfl
  | cons l rest ih =>
    rw [buildLabelTableLoop]
    rw [ih _ _ _ (fun x hx => h x (List.mem_cons_of_mem _ hx))]
    by_cases hl : l.label = ""
    · simp [hl]
    · have hn : name ≠ l.label := fun e => h l (List.mem_cons_self _ _) hl e.symm
      simp [hl, LabelTable.set, hn]

theorem buildLabelTableLoop_last (lines : List ParsedLine) (address : Int)
    (labels : LabelTable) (log : List Diag) (i : Nat) (hi : i < lines.length)
    (hl : lines[i].label ≠ "")
    (hlast : ∀ j (hj : j < lines.length), i < j → lines[j].label ≠ lines[i].label) :
    (buildLabelTableLoop lines address labels log).1 lines[i].label
      = some (address + (instrCount (lines.take i) : Int)) := by
  induction lines generalizing address labels log i with
  | nil => simp at hi
  | cons l rest ih =>
    rw [buildLabelTableLoop]
    cases i with
    | zero =>
      simp only [List.getElem_cons_zero] at hl hlast ⊢
      rw [buildLabelTableLoop_frame]
      · simp [hl, LabelTable.set, instrCount]
      · intro x hx _ hxe
        obtain ⟨j, hj, rfl⟩ := List.getElem_of_mem hx
        have := hlast (j + 1) (by simpa using hj) (by omega)
        simp only [List.getElem_cons_succ] at this
        exact this hxe
    | succ i =>
      have hi2 : i < rest.length := by simpa using hi
      simp only [List.getElem_cons_succ] at hl hlast ⊢
      rw [ih _ _ _ i hi2 hl]
      · simp only [List.take_succ_cons, instrCount_cons]
        by_cases hm : l.mnemonic = "" <;> simp [hm]
        omega
      · intro j hj hij
        have := hlast (j + 1) (by simpa using hj) (by omega)
        simpa only [List.getElem_cons_succ] using this

theorem definedLabels_cons (l : ParsedLine) (rest : List ParsedLine) :
    definedLabels (l :: rest)
      = (if l.label ≠ "" then [l.label] else []) ++ definedLabels rest := by
  unfold definedLabels
  by_cases h : l.label = "" <;> simp [List.filter_cons, h]

theorem mem_definedLabels {lines : List ParsedLine} {name : String} :
    name ∈ definedLabels lines ↔ ∃ l ∈ lines, l.label ≠ "" ∧ l.label = name := by
  unfold definedLabels
  simp [List.mem_map, List.mem_filter, and_assoc]

theorem buildLabelTableLoop_nodup (lines : List ParsedLine) (address : Int)
    (labels : LabelTable) (log : List Diag) (hd : (definedLabels lines).Nodup)
    (hu : ∀ l ∈ lines, l.label ≠ "" → labels l.label = none) :
    (buildLabelTableLoop lines address labels log).2 = log := by
  induction lines generalizing address labels log with
  | nil => rfl
  | cons l rest ih =>
    rw [buildLabelTableLoop]
    rw [definedLabels_cons] at hd
    by_cases hl : l.label = ""
    · simp only [hl, ne_eq, not_true_eq_false, if_false, List.nil_append, false_and] at hd ⊢
      exact ih _ _ _ hd (fun x hx => hu x (List.mem_cons_of_mem _ hx))
    · have h0 := hu l (List.mem_cons_self _ _) hl
      simp only [ne_eq, hl, not_false_eq_true, if_true, List.singleton_append,
        List.nodup_cons] at hd
      simp only [ne_eq, hl, not_false_eq_true, h0, Option.isSome_none, Bool.false_eq_true,
        and_false, if_false, if_true]
      apply ih _ _ _ hd.2
      intro x hx hxl
      have hne : x.label ≠ l.label := by
        intro e
        exact hd.1 (mem_definedLabels.mpr ⟨x, hx, hxl, e⟩)
      simp only [LabelTable.set, hne, if_false]
      exact hu x (List.mem_cons_of_mem _ hx) hxl

theorem definedLabels_append (a b : List ParsedLine) :
    definedLabels (a ++ b) = definedLabels a ++ definedLabels b := by
  unfold definedLabels
  simp [List.filter_append]

theorem buildLabelTableLoop_diags (lines before : List ParsedLine) (address : Int)
    (labels : LabelTable) (log : List Diag)
    (hinv : ∀ name, (labels name).isSome = true ↔ name ∈ definedLabels before) :
    (buildLabelTableLoop lines address labels log).2
      = log ++ (repeatedDefs before lines).map duplicateLabelDiag := by
  induction lines generalizing before address labels log with
  | nil => simp [buildLabelTableLoop, repeatedDefs]
  | cons l rest ih =>
    rw [buildLabelTableLoop, repeatedDefs]
    have hinv2 : ∀ name,
        ((if l.label ≠ "" then labels.set l.label address else labels) name).isSome = true
          ↔ name ∈ definedLabels (before ++ [l]) := by
      intro name
      rw [definedLabels_append, definedLabels_cons, List.mem_append]
      by_cases hl : l.label = ""
      · simp [hl, hinv, definedLabels]
      · by_cases hn : name = l.label
        · simp [hl, hn, LabelTable.set]
        · simp [hl, hn, LabelTable.set, hinv, definedLabels]
    rw [ih (before ++ [l]) _ _ _ hinv2]
    by_cases hc : l.label ≠ "" ∧ (labels l.label).isSome = true
    · have hc2 : l.label ≠ "" ∧ l.label ∈ definedLabels before := ⟨hc.1, (hinv _).mp hc.2⟩
      rw [if_pos hc, if_pos hc2]
      simp [reportError, duplicateLabelDiag]
    · have hc2 : ¬ (l.label ≠ "" ∧ l.label ∈ definedLabels before) :=
        fun h => hc ⟨h.1, (hinv _).mpr h.2⟩
      rw [if_neg hc, if_neg hc2]
      simp

theorem nodup_no_later (lines : List ParsedLine) (hd : (definedLabels lines).Nodup)
    (i j : Nat) (hi : i < lines.length) (hj : j < lines.length) (hij : i < j)
    (hl : lines[i].label ≠ "") : lines[j].label ≠ lines[i].label := by
  induction lines generalizing i j with
  | nil => simp at hi
  | cons l rest ih =>
    rw [definedLabels_cons] at hd
    cases j with
    | zero => omega
    | succ j =>
      have hj2 : j < rest.length := by simpa using hj
      cases i with
      | zero =>
        simp only [List.getElem_cons_zero, List.getElem_cons_succ] at hl ⊢
        simp only [ne_eq, hl, not_false_eq_true, if_true, List.singleton_append,
          List.nodup_cons] at hd
        intro he
        exact hd.1 (mem_definedLabels.mpr ⟨rest[j], List.getElem_mem _, by rw [he]; exact hl, he⟩)
      | succ i =>
        have hi2 : i < rest.length := by simpa using hi
        simp only [List.getElem_cons_succ] at hl ⊢
        exact ih (List.Nodup.of_append_right hd) i j hi2 hj2 (by omega) hl

theorem instrCount_take_skip (lines : List ParsedLine) (i n : Nat)
    (hj : i + n ≤ lines.length)
    (h : ∀ k (hk : k < lines.length), i ≤ k → k < i + n → lines[k].mnemonic = "") :
    instrCount (lines.take (i + n)) = instrCount (lines.take i) := by
  induction n with
  | zero => rfl
  | succ n ih =>
    have hlt : i + n < lines.length := by omega
    rw [← Nat.add_assoc, instrCount_take_succ lines (i + n) hlt,
      ih (by omega) (fun k hk h1 h2 => h k hk h1 (by omega))]
    simp [h (i + n) hlt (by omega) (by omega)]

/-- C5. Label addresses.  For a line sequence whose defined labels are pairwise
distinct, `buildLabelTable` registers no diagnostic and binds the label of every
defining line to the number of mnemonic-bearing lines strictly before that line; a name
no line defines is unbound.  That number starts at 0, grows by one across a
mnemonic-bearing line and stays the same across label-only lines, so the label of a
label-only line is bound to the address of the next instruction. -/
theorem C5_label_addresses (lines : List ParsedLine)
    (hd : (definedLabels lines).Nodup) :
    (buildLabelTable lines).2 = [] ∧
    (∀ i (hi : i < lines.length), lines[i].label ≠ "" →
      (buildLabelTable lines).1 lines[i].label
        = some ((instrCount (lines.take i) : Nat) : Int)) ∧
    (∀ name, name ∉ definedLabels lines → (buildLabelTable lines).1 name = none) ∧
    instrCount (lines.take 0) = 0 ∧
    (∀ i (hi : i < lines.length), lines[i].mnemonic ≠ "" →
      instrCount (lines.take (i + 1)) = instrCount (lines.take i) + 1) ∧
    (∀ i n, i + n ≤ lines.length →
      (∀ k (hk : k < lines.length), i ≤ k → k < i + n → lines[k].mnemonic = "") →
      instrCount (lines.take (i + n)) = instrCount (lines.take i)) := by
  refine ⟨?_, ?_, ?_, rfl, ?_, ?_⟩
  · exact buildLabelTableLoop_nodup lines 0 LabelTable.empty [] hd (fun _ _ _ => rfl)
  · intro i hi hl
    have h := buildLabelTableLoop_last lines 0 LabelTable.empty [] i hi hl ?_
    · simpa [buildLabelTable] using h
    · intro j hj hij
      exact nodup_no_later lines hd i j hi hj hij hl
  · intro name hn
    have h := buildLabelTableLoop_frame lines 0 LabelTable.empty [] name ?_
    · simpa [buildLabelTable, LabelTable.empty] using h
    · intro l hl hl0 he
      exact hn (mem_definedLabels.mpr ⟨l, hl, hl0, he⟩)
  · intro i hi hm
    rw [instrCount_take_succ lines i hi]
    simp [hm]
  · intro i n hj h
    exact instrCount_take_skip lines i n hj h

/-- Witness of C5: in `labelledProgram` the labels are distinct; `start`, on a
label-only line before the first instruction, is bound to 0, `loop` to 1 and `end`,
on a label-only line after two instructions, to 2, without diagnostic. -/
theorem C5_label_addresses_witness :
    (definedLabels labelledProgram).Nodup ∧
    (buildLabelTable labelledProgram).2 = [] ∧
    (buildLabelTable labelledProgram).1 "start" = some 0 ∧
    (buildLabelTable labelledProgram).1 "loop" = some 1 ∧
    (buildLabelTable labelledProgram).1 "end" = some 2 :=
  have h := C5_label_addresses labelledProgram (by decide)
  ⟨by decide, h.1, h.2.1 0 (by decide) (by decide), h.2.1 2 (by decide) (by decide),
    h.2.1 3 (by decide) (by decide)⟩

theorem mem_repeatedDefs (lines before : List ParsedLine) (j : Nat)
    (hj : j < lines.length) (hl : lines[j].label ≠ "")
    (h : lines[j].label ∈ definedLabels before ∨
      ∃ i, ∃ (hi : i < lines.length), i < j ∧ lines[i].label = lines[j].label) :
    lines[j] ∈ repeatedDefs before lines := by
  induction lines generalizing before j with
  | nil => simp at hj
  | cons l rest ih =>
    rw [repeatedDefs]
    cases j with
    | zero =>
      simp only [List.getElem_cons_zero] at hl h ⊢
      rcases h with h | ⟨i, _, hi, _⟩
      · simp [hl, h]
      · omega
    | succ j =>
      have hj2 : j < rest.length := by simpa using hj
      simp only [List.getElem_cons_succ] at hl h ⊢
      apply List.mem_append_right
      apply ih (before ++ [l]) j hj2 hl
      rw [definedLabels_append, List.mem_append]
      rcases h with h | ⟨i, hi, hij, he⟩
      · exact Or.inl (Or.inl h)
      · cases i with
        | zero =>
          simp only [List.getElem_cons_zero] at he
          left
          right
          exact mem_definedLabels.mpr ⟨l, by simp, by rw [he]; exact hl, he⟩
        | succ i =>
          simp only [List.getElem_cons_succ] at he
          exact Or.inr ⟨i, by simpa using hi, by omega, he⟩

/-- C6, as the code has it.  For every line sequence, `buildLabelTable` registers
exactly one duplicate-label diagnostic for each line that defines a label an earlier
line already defines (every definition after the first), in line order, and the
returned table binds a label to the address of its last definition: a later
definition overwrites the earlier binding. -/
theorem C6_duplicate_labels (lines : List ParsedLine) :
    (buildLabelTable lines).2 = (repeatedDefs [] lines).map duplicateLabelDiag ∧
    (∀ i j (hi : i < lines.length) (hj : j < lines.length), i < j →
      lines[i].label ≠ "" → lines[j].label = lines[i].label →
      lines[j] ∈ repeatedDefs [] lines) ∧
    (∀ i (hi : i < lines.length), lines[i].label ≠ "" →
      (∀ j (hj : j < lines.length), i < j → lines[j].label ≠ lines[i].label) →
      (buildLabelTable lines).1 lines[i].label
        = some ((instrCount (lines.take i) : Nat) : Int)) := by
  refine ⟨?_, ?_, ?_⟩
  · have h := buildLabelTableLoop_diags lines [] 0 LabelTable.empty [] (by
      intro name
      simp [LabelTable.empty, definedLabels])
    simpa [buildLabelTable] using h
  · intro i j hi hj hij hl he
    exact mem_repeatedDefs lines [] j hj (by rw [he]; exact hl)
      (Or.inr ⟨i, hi, hij, he.symm⟩)
  · intro i hi hl hlast
    have h := buildLabelTableLoop_last lines 0 LabelTable.empty [] i hi hl hlast
    simpa [buildLabelTable] using h

/-- Witness of C6: in `twiceDefined` the second definition of `a` registers one
diagnostic and the table binds `a` to 1, the address of that second definition. -/
theorem C6_duplicate_labels_witness :
    (buildLabelTable twiceDefined).2 = [⟨2, "duplicate label \x27a\x27"⟩] ∧
    (buildLabelTable twiceDefined).1 "a" = some 1 :=
  have h := C6_duplicate_labels twiceDefined
  ⟨h.1, h.2.2 1 (by decide) (by decide) (fun j hj hij => by
    have : twiceDefined.length = 2 := rfl
    omega)⟩

/-- C6, as stated, fails on `twiceDefined`: the label `a`, first defined at address 0
and defined again at address 1, is bound to 1 in the returned table, so it is not the
case that every label is bound to the address of its first definition. -/
theorem C6_first_binding_overwritten :
    (buildLabelTable twiceDefined).1 "a" = some 1 ∧
    ¬ (∀ i (hi : i < twiceDefined.length), twiceDefined[i].label ≠ "" →
        (∀ j (hj : j < twiceDefined.length), j < i →
          twiceDefined[j].label ≠ twiceDefined[i].label) →
        (buildLabelTable twiceDefined).1 twiceDefined[i].label
          = some ((instrCount (twiceDefined.take i) : Nat) : Int)) := by
  refine ⟨by decide, ?_⟩
  intro h
  have h0 := h 0 (by decide) (by decide) (fun j hj hji => by omega)
  revert h0
  decide

/-! ## Every path of `encodeInstruction` yields a 32-bit field -/

theorem isField_regBinary (k : Nat) (hk : k ≤ 31) :
    IsField 5 (REG_BINARY.getD k "00000") k := by
  have hall : ∀ k ∈ List.range 32, IsField 5 (REG_BINARY.getD k "00000") k := by decide
  exact hall k (List.mem_range.mpr (by omega))

theorem isField_encodeRegister (operand : String) (ln : Int) :
    ∃ v, IsField 5 (encodeRegister operand ln).1 v := by
  unfold encodeRegister
  split
  · exact ⟨0, isField_zeros5⟩
  · split
    · exact ⟨0, isField_zeros5⟩
    · rename_i n _
      split
      · exact ⟨0, isField_zeros5⟩
      · exact ⟨n.toNat, isField_regBinary n.toNat (by omega)⟩

theorem operands_of_length3 {ops : List String} (h : 3 ≤ ops.length) :
    ∃ o0 o1 o2 more, ops = o0 :: o1 :: o2 :: more := by
  match ops, h with
  | o0 :: o1 :: o2 :: more, _ => exact ⟨o0, o1, o2, more, rfl⟩

theorem operands_of_length2 {ops : List String} (h : 2 ≤ ops.length) :
    ∃ o0 o1 more, ops = o0 :: o1 :: more := by
  match ops, h with
  | o0 :: o1 :: more, _ => exact ⟨o0, o1, more, rfl⟩

theorem operands_of_length1 {ops : List String} (h : 1 ≤ ops.length) :
    ∃ o0 more, ops = o0 :: more := by
  match ops, h with
  | o0 :: more, _ => exact ⟨o0, more, rfl⟩

theorem encodeInstruction_total {m : String} {d : InstructionDef}
    (hf : findInstruction m = some d) (line : ParsedLine)
    (hc : expectedOperandCount d.pattern ≤ line.operands.length) (labels : LabelTable)
    (address : Int) :
    ∃ binary errs W, encodeInstruction d line labels address = some (binary, errs) ∧
      IsField 32 binary W := by
  have fo := isField_opcode hf
  rcases hp : d.pattern
  · obtain ⟨o0, o1, o2, more, ho⟩ := operands_of_length3
      (by simpa [hp, expectedOperandCount] using hc)
    obtain ⟨v0, f0⟩ := isField_encodeRegister o0 line.lineNumber
    obtain ⟨v1, f1⟩ := isField_encodeRegister o1 line.lineNumber
    obtain ⟨v2, f2⟩ := isField_encodeRegister o2 line.lineNumber
    have ff := isField_funct hf (Or.inl hp)
    simp only [encodeInstruction, hp, ho, List.getElem?_cons_zero,
      List.getElem?_cons_succ]
    exact ⟨_, _, _, rfl,
      ((((fo.append f1).append f2).append f0).append isField_zeros5).append ff⟩
  · obtain ⟨o0, o1, o2, more, ho⟩ := operands_of_length3
      (by simpa [hp, expectedOperandCount] using hc)
    obtain ⟨v0, f0⟩ := isField_encodeRegister o0 line.lineNumber
    obtain ⟨v1, f1⟩ := isField_encodeRegister o1 line.lineNumber
    have ff := isField_funct hf (Or.inr (Or.inl hp))
    simp only [encodeInstruction, hp, ho, List.getElem?_cons_zero,
      List.getElem?_cons_succ]
    exact ⟨_, _, _, rfl,
      ((((fo.append isField_zeros5).append f1).append f0).append
        (isField_encodeImmediate5 _)).append ff⟩
  · obtain ⟨o0, more, ho⟩ := operands_of_length1
      (by simpa [hp, expectedOperandCount] using hc)
    obtain ⟨v0, f0⟩ := isField_encodeRegister o0 line.lineNumber
    have ff := isField_funct hf (Or.inr (Or.inr hp))
    simp only [encodeInstruction, hp, ho, List.getElem?_cons_zero,
      List.getElem?_cons_succ]
    exact ⟨_, _, _, rfl,
      ((fo.append f0).append isField_zeros15).append ff⟩
  · obtain ⟨o0, o1, o2, more, ho⟩ := operands_of_length3
      (by simpa [hp, expectedOperandCount] using hc)
    obtain ⟨v0, f0⟩ := isField_encodeRegister o0 line.lineNumber
    obtain ⟨v1, f1⟩ := isField_encodeRegister o1 line.lineNumber
    simp only [encodeInstruction, hp, ho, List.getElem?_cons_zero,
      List.getElem?_cons_succ]
    exact ⟨_, _, _, rfl,
      ((fo.append f1).append f0).append (isField_encodeImmediate16 _)⟩
  · obtain ⟨o0, o1, more, ho⟩ := operands_of_length2
      (by simpa [hp, expectedOperandCount] using hc)
    obtain ⟨v0, f0⟩ := isField_encodeRegister o0 line.lineNumber
    simp only [encodeInstruction, hp, ho, List.getElem?_cons_zero,
      List.getElem?_cons_succ]
    exact ⟨_, _, _, rfl,
      ((fo.append isField_zeros5).append f0).append (isField_encodeImmediate16 _)⟩
  · obtain ⟨o0, o1, o2, more, ho⟩ := operands_of_length3
      (by simpa [hp, expectedOperandCount] using hc)
    obtain ⟨v0, f0⟩ := isField_encodeRegister o0 line.lineNumber
    obtain ⟨v1, f1⟩ := isField_encodeRegister o1 line.lineNumber
    rcases hl : labels o2 with _ | target
    · simp only [encodeInstruction, hp, ho, hl, List.getElem?_cons_zero,
        List.getElem?_cons_succ]
      exact ⟨_, _, _, rfl, isField_zeroWord⟩
    · simp only [encodeInstruction, hp, ho, hl, List.getElem?_cons_zero,
        List.getElem?_cons_succ]
      exact ⟨_, _, _, rfl,
        ((fo.append f0).append f1).append (isField_encodeImmediate16 _)⟩
  · obtain ⟨o0, o1, o2, more, ho⟩ := operands_of_length3
      (by simpa [hp, expectedOperandCount] using hc)
    obtain ⟨v0, f0⟩ := isField_encodeRegister o0 line.lineNumber
    obtain ⟨v2, f2⟩ := isField_encodeRegister o2 line.lineNumber
    simp only [encodeInstruction, hp, ho, List.getElem?_cons_zero,
      List.getElem?_cons_succ]
    exact ⟨_, _, _, rfl,
      ((fo.append f2).append f0).append (isField_encodeImmediate16 _)⟩
  · obtain ⟨o0, more, ho⟩ := operands_of_length1
      (by simpa [hp, expectedOperandCount] using hc)
    rcases hl : labels o0 with _ | a
    · simp only [encodeInstruction, hp, ho, hl, List.getElem?_cons_zero,
        List.getElem?_cons_succ]
      exact ⟨_, _, _, rfl, isField_zeroWord⟩
    · simp only [encodeInstruction, hp, ho, hl, List.getElem?_cons_zero,
        List.getElem?_cons_succ]
      exact ⟨_, _, _, rfl,
        fo.append (isField_encodeImmediate26 _)⟩

/-! ## The loop of `encode` -/

theorem encodeLoop_step (labels : LabelTable) (address : Int) (line : ParsedLine)
    (rest : List ParsedLine) (encoded : List EncodedInst) (log : List Diag) :
    encodeLoop labels (line :: rest) address encoded log
      = encodeLoop labels rest (address + (if line.mnemonic ≠ "" then 1 else 0))
          (encoded ++ (lineResult labels address line).1)
          (log ++ (lineResult labels address line).2) := by
  rw [encodeLoop]
  unfold lineResult
  by_cases hm : line.mnemonic = ""
  · simp [hm]
  · rcases hf : findInstruction line.mnemonic with _ | d
    · simp [hm, reportError]
    · by_cases hc : line.operands.length < expectedOperandCount d.pattern
      · simp [hm, hc, reportError]
      · obtain ⟨binary, errs, W, he, hw⟩ :=
          encodeInstruction_total hf line (Nat.le_of_not_lt hc) labels address
        simp [hm, hc, he, bin2hex_of_isField hw, bitset32_of_isField hw]

theorem instrCount_append_singleton (pre : List ParsedLine) (l : ParsedLine) :
    instrCount (pre ++ [l]) = instrCount pre + (if l.mnemonic ≠ "" then 1 else 0) := by
  unfold instrCount
  by_cases h : l.mnemonic = "" <;> simp [List.filter_append, h]

theorem encodeLoop_eq (labels : LabelTable) (pre cur : List ParsedLine)
    (encoded : List EncodedInst) (log : List Diag) :
    encodeLoop labels cur (instrCount pre : Nat) encoded log
      = some
          (encoded ++ (List.enumFrom pre.length cur).flatMap (fun p =>
              (lineResult labels (instrCount ((pre ++ cur).take p.1) : Nat) p.2).1),
            log ++ (List.enumFrom pre.length cur).flatMap (fun p =>
              (lineResult labels (instrCount ((pre ++ cur).take p.1) : Nat) p.2).2)) := by
  induction cur generalizing pre encoded log with
  | nil => simp [encodeLoop]
  | cons l rest ih =>
    rw [encodeLoop_step]
    have ha : (instrCount pre : Int) + (if l.mnemonic ≠ "" then 1 else 0)
        = ((instrCount (pre ++ [l]) : Nat) : Int) := by
      rw [instrCount_append_singleton]
      by_cases h : l.mnemonic = "" <;> simp [h]
    rw [ha, ih (pre ++ [l])]
    simp [List.enumFrom_cons, List.flatMap_cons, List.append_assoc]

theorem encode_eq (lines : List ParsedLine) (labels : LabelTable) :
    encode lines labels = some
      (lines.enum.flatMap (fun p =>
          (lineResult labels (instrCount (lines.take p.1) : Nat) p.2).1),
        lines.enum.flatMap (fun p =>
          (lineResult labels (instrCount (lines.take p.1) : Nat) p.2).2)) := by
  have h := encodeLoop_eq labels [] lines [] []
  simpa [encode, instrCount, List.enum] using h

theorem lineResult_pass (labels : LabelTable) (a : Int) (line : ParsedLine)
    (d : InstructionDef) (hf : findInstruction line.mnemonic = some d)
    (hc : expectedOperandCount d.pattern ≤ line.operands.length) :
    ∃ binary errs W, encodeInstruction d line labels a = some (binary, errs) ∧
      bitset32 binary = some W ∧
      lineResult labels a line = ([⟨fmtHex8 W, line.rawText⟩], errs) := by
  obtain ⟨binary, errs, W, he, hw⟩ := encodeInstruction_total hf line hc labels a
  refine ⟨binary, errs, W, he, bitset32_of_isField hw, ?_⟩
  unfold lineResult
  simp [findInstruction_ne_empty hf, hf, Nat.not_lt.mpr hc, he, bitset32_of_isField hw]

/-- C8. Output of `encode`.  For every line sequence and label table, `encode` returns
the concatenation, in line order, of what each line contributes when met at the address
equal to the number of mnemonic-bearing lines before it.  A label-only line
contributes nothing.  A line whose mnemonic is in the table and whose operand count is
at least the required count of its format (3, 3, 1, 3, 2, 3, 3, 1) contributes exactly
the entry of its encoding.  A mnemonic-bearing line that fails either test contributes
no entry and exactly one diagnostic, and still advances the address by one.  With
pairwise distinct labels that address is the one `buildLabelTable` binds to the label
of the line. -/
theorem C8_encode_output (lines : List ParsedLine) (labels : LabelTable) :
    encode lines labels = some
      (lines.enum.flatMap (fun p =>
          (lineResult labels (instrCount (lines.take p.1) : Nat) p.2).1),
        lines.enum.flatMap (fun p =>
          (lineResult labels (instrCount (lines.take p.1) : Nat) p.2).2)) ∧
    (∀ (line : ParsedLine) (a : Int), line.mnemonic = "" →
      lineResult labels a line = ([], [])) ∧
    (∀ (line : ParsedLine) (a : Int) (d : InstructionDef),
      findInstruction line.mnemonic = some d →
      expectedOperandCount d.pattern ≤ line.operands.length →
      ∃ binary errs W, encodeInstruction d line labels a = some (binary, errs) ∧
        bitset32 binary = some W ∧
        lineResult labels a line = ([⟨fmtHex8 W, line.rawText⟩], errs)) ∧
    (∀ (line : ParsedLine) (a : Int), line.mnemonic ≠ "" →
      findInstruction line.mnemonic = none →
      lineResult labels a line = ([], [⟨line.lineNumber,
        "unknown instruction \x27" ++ line.mnemonic ++ "\x27"⟩])) ∧
    (∀ (line : ParsedLine) (a : Int) (d : InstructionDef),
      findInstruction line.mnemonic = some d →
      line.operands.length < expectedOperandCount d.pattern →
      lineResult labels a line = ([], [⟨line.lineNumber,
        "\x27" ++ line.mnemonic ++ "\x27 requires "
          ++ toString (expectedOperandCount d.pattern)
          ++ " operands, got " ++ toString line.operands.length⟩])) ∧
    [OperandPattern.R_DST_SRC_TMP, .R_DST_TMP_SHAMT, .R_SRC_ONLY, .I_TMP_SRC_IMM,
        .I_TMP_IMM, .I_SRC_TMP_LABEL, .I_TMP_OFF_SRC, .J_LABEL].map expectedOperandCount
      = [3, 3, 1, 3, 2, 3, 3, 1] ∧
    (∀ i (hi : i < lines.length), lines[i].mnemonic ≠ "" →
      instrCount (lines.take (i + 1)) = instrCount (lines.take i) + 1) ∧
    ((definedLabels lines).Nodup → ∀ i (hi : i < lines.length), lines[i].label ≠ "" →
      (buildLabelTable lines).1 lines[i].label
        = some ((instrCount (lines.take i) : Nat) : Int)) := by
  refine ⟨encode_eq lines labels, ?_, ?_, ?_, ?_, rfl, ?_, ?_⟩
  · intro line a hm
    simp [lineResult, hm]
  · intro line a d hf hc
    exact lineResult_pass labels a line d hf hc
  · intro line a hm hf
    simp [lineResult, hm, hf]
  · intro line a d hf hc
    simp [lineResult, findInstruction_ne_empty hf, hf, hc]
  · intro i hi hm
    rw [instrCount_take_succ lines i hi]
    simp [hm]
  · intro hd i hi hl
    have h := buildLabelTableLoop_last lines 0 LabelTable.empty [] i hi hl
      (fun j hj hij => nodup_no_later lines hd i j hi hj hij hl)
    simpa [buildLabelTable] using h

/-- Witness of C8: in `faultyProgram`, encoded with its own label table, the unknown
`foo` and the operand-less `j` register one diagnostic each and give no entry; the
output holds the `add` and the `beq`, and the `beq`, met at address 3 with `x` bound
to 2, carries the offset -1. -/
theorem C8_encode_output_witness :
    encode faultyProgram (buildLabelTable faultyProgram).1 = some
      ([⟨"00430820", "add $1, $2, $3"⟩, ⟨"1022FFFF", "beq $1, $2, x"⟩],
        [⟨2, "unknown instruction \x27foo\x27"⟩,
          ⟨3, "\x27j\x27 requires 1 operands, got 0"⟩]) ∧
    (buildLabelTable faultyProgram).1 "x" = some 2 :=
  ⟨(C8_encode_output faultyProgram (buildLabelTable faultyProgram).1).1.trans (by decide),
    (C8_encode_output faultyProgram (buildLabelTable faultyProgram).1).2.2.2.2.2.2.2
      (by decide) 2 (by decide) (by decide)⟩

/-! ## Undefined labels -/

theorem encodeLoop_eq_instr (labels : LabelTable) (cur : List ParsedLine) (a : Nat)
    (encoded : List EncodedInst) (log : List Diag) :
    encodeLoop labels cur (a : Int) encoded log
      = some
          (encoded ++ (List.enumFrom a (instrLines cur)).flatMap (fun p =>
              (lineResult labels (p.1 : Nat) p.2).1),
            log ++ (List.enumFrom a (instrLines cur)).flatMap (fun p =>
              (lineResult labels (p.1 : Nat) p.2).2)) := by
  induction cur generalizing a encoded log with
  | nil => simp [encodeLoop, instrLines]
  | cons l rest ih =>
    rw [encodeLoop_step]
    by_cases hm : l.mnemonic = ""
    · have h0 : lineResult labels (a : Int) l = ([], []) := by simp [lineResult, hm]
      have h1 : instrLines (l :: rest) = instrLines rest := by simp [instrLines, hm]
      rw [h0, h1]
      simpa [hm] using ih a encoded log
    · have h1 : instrLines (l :: rest) = l :: instrLines rest := by simp [instrLines, hm]
      have ha : (a : Int) + (if l.mnemonic ≠ "" then 1 else 0) = ((a + 1 : Nat) : Int) := by
        simp [hm]
      rw [h1, ha, ih (a + 1)]
      simp [List.enumFrom_cons, List.flatMap_cons, List.append_assoc]

theorem encode_eq_instr (lines : List ParsedLine) (labels : LabelTable) :
    encode lines labels = some
      ((instrLines lines).enum.flatMap (fun p => (lineResult labels (p.1 : Nat) p.2).1),
        (instrLines lines).enum.flatMap (fun p => (lineResult labels (p.1 : Nat) p.2).2)) := by
  have h := encodeLoop_eq_instr labels lines 0 [] []
  simpa [encode, List.enum] using h

theorem flatMap_singletons {α β : Type} (l : List α) (f : α → List β)
    (h : ∀ x ∈ l, (f x).length = 1) :
    (l.flatMap f).length = l.length ∧
      ∀ k (hk : k < l.length) (hk2 : k < (l.flatMap f).length),
        f l[k] = [(l.flatMap f)[k]] := by
  induction l with
  | nil => simp
  | cons x xs ih =>
    obtain ⟨hlen, hget⟩ := ih (fun y hy => h y (List.mem_cons_of_mem _ hy))
    have hx := h x (List.mem_cons_self _ _)
    obtain ⟨y, hy⟩ := List.length_eq_one.mp hx
    refine ⟨by simp [List.flatMap_cons, hy, hlen], ?_⟩
    intro k hk hk2
    cases k with
    | zero => simp [List.flatMap_cons, hy]
    | succ k =>
      have hk3 : k < xs.length := by simpa using hk
      have := hget k hk3 (by omega)
      simpa [List.flatMap_cons, hy] using this

theorem lineResult_undefined (labels : LabelTable) (a : Int) (line : ParsedLine)
    (L : String) (hr : refersTo line L)
    (hc : ∀ d, findInstruction line.mnemonic = some d →
      expectedOperandCount d.pattern ≤ line.operands.length)
    (hl : labels L = none) :
    (lineResult labels a line).1 = [⟨"00000000", line.rawText⟩] ∧
      (⟨line.lineNumber, "undefined label \x27" ++ L ++ "\x27"⟩ : Diag)
        ∈ (lineResult labels a line).2 := by
  obtain ⟨d, hf, hcase⟩ := hr
  have hm := findInstruction_ne_empty hf
  have hcd := hc d hf
  have hz : bitset32 zeroWord = some 0 := by decide
  have hh : fmtHex8 0 = "00000000" := by decide
  rcases hcase with ⟨hp, ho⟩ | ⟨hp, ho⟩
  · obtain ⟨o0, o1, o2, more, hops⟩ := operands_of_length3
      (by simpa [hp, expectedOperandCount] using hcd)
    have h2 : o2 = L := by simpa [hops] using ho
    subst h2
    have h3 : ¬ (more.length + 1 + 1 + 1 < 3) := by omega
    simp [lineResult, hm, hf, hp, hops, expectedOperandCount, encodeInstruction, hl, hz, hh,
      reportError, h3]
  · obtain ⟨o0, more, hops⟩ := operands_of_length1
      (by simpa [hp, expectedOperandCount] using hcd)
    have h2 : o0 = L := by simpa [hops] using ho
    subst h2
    simp [lineResult, hm, hf, hp, hops, expectedOperandCount, encodeInstruction, hl, hz, hh,
      reportError]

theorem encodeInstruction_set (labels : LabelTable) (L : String) (T : Int) (a : Int)
    (line : ParsedLine) (d : InstructionDef)
    (h : ¬ ((d.pattern = .I_SRC_TMP_LABEL ∧ line.operands[2]? = some L) ∨
      (d.pattern = .J_LABEL ∧ line.operands[0]? = some L))) :
    encodeInstruction d line (labels.set L T) a = encodeInstruction d line labels a := by
  rcases hp : d.pattern
  all_goals simp only [encodeInstruction, hp]
  · rcases h0 : line.operands[0]? with _ | o0
    · simp
    · rcases h1 : line.operands[1]? with _ | o1
      · simp
      · rcases h2 : line.operands[2]? with _ | o2
        · simp
        · have hne : o2 ≠ L := by
            intro e
            exact h (Or.inl ⟨hp, by rw [h2, e]⟩)
          simp [LabelTable.set, hne]
  · rcases h0 : line.operands[0]? with _ | o0
    · simp
    · have hne : o0 ≠ L := by
        intro e
        exact h (Or.inr ⟨hp, by rw [h0, e]⟩)
      simp [LabelTable.set, hne]

theorem lineResult_set (labels : LabelTable) (L : String) (T : Int) (a : Int)
    (line : ParsedLine) (h : ¬ refersTo line L) :
    lineResult (labels.set L T) a line = lineResult labels a line := by
  unfold lineResult
  by_cases hm : line.mnemonic = ""
  · simp [hm]
  · rcases hf : findInstruction line.mnemonic with _ | d
    · simp [hm]
    · have h2 : ¬ ((d.pattern = .I_SRC_TMP_LABEL ∧ line.operands[2]? = some L) ∨
          (d.pattern = .J_LABEL ∧ line.operands[0]? = some L)) :=
        fun hx => h ⟨d, hf, hx⟩
      simp only [hm, if_false, encodeInstruction_set labels L T a line d h2]

theorem encode_wellFormed (lines : List ParsedLine) (labels : LabelTable)
    (hwf : ∀ line ∈ lines, line.mnemonic ≠ "" →
      ∃ d, findInstruction line.mnemonic = some d ∧
        expectedOperandCount d.pattern ≤ line.operands.length) :
    ∃ out diags, encode lines labels = some (out, diags) ∧
      out.length = (instrLines lines).length ∧
      (∀ k (hk : k < (instrLines lines).length) (hk2 : k < out.length),
        (lineResult labels (k : Nat) (instrLines lines)[k]).1 = [out[k]]) ∧
      (∀ k (hk : k < (instrLines lines).length),
        ∀ e ∈ (lineResult labels (k : Nat) (instrLines lines)[k]).2, e ∈ diags) := by
  refine ⟨_, _, encode_eq_instr lines labels, ?_⟩
  have hsing : ∀ p ∈ (instrLines lines).enum,
      ((fun p : Nat × ParsedLine => (lineResult labels (p.1 : Nat) p.2).1) p).length = 1 := by
    intro p hp
    obtain ⟨i, l⟩ := p
    have hmem := List.mem_enumFrom hp
    have hl : l ∈ instrLines lines := by
      rw [hmem.2.2]
      exact List.getElem_mem _
    have hl2 := List.mem_filter.mp hl
    obtain ⟨d, hf, hc⟩ := hwf l hl2.1 (by simpa using hl2.2)
    obtain ⟨binary, errs, W, _, _, hr⟩ := lineResult_pass labels (i : Nat) l d hf hc
    simp [hr]
  obtain ⟨hlen, hget⟩ := flatMap_singletons _ _ hsing
  refine ⟨by rw [hlen, List.enum_length], ?_, ?_⟩
  · intro k hk hk2
    have := hget k (by rw [List.enum_length]; exact hk) hk2
    simpa [List.getElem_enum] using this
  · intro k hk e he
    rw [List.mem_flatMap]
    refine ⟨(k, (instrLines lines)[k]), ?_, he⟩
    have hk3 : k < (instrLines lines).enum.length := by rw [List.enum_length]; exact hk
    have := List.getElem_mem hk3
    rwa [List.getElem_enum] at this

/-- C7. Undefined labels.  For a line sequence in which every mnemonic is in the
instruction table with enough operands, `encode` returns one entry per mnemonic-bearing
line, the entry at index k being what the k-th mnemonic-bearing line contributes at
address k, with that line's rawText.  A branch or jump whose label operand is unbound
in the label table yields the entry `00000000` at its own index and registers the
undefined-label diagnostic.  Binding a label `L` leaves every entry unchanged except
those of the branches and jumps whose label operand is `L`. -/
theorem C7_undefined_label (lines : List ParsedLine) (labels : LabelTable)
    (hwf : ∀ line ∈ lines, line.mnemonic ≠ "" →
      ∃ d, findInstruction line.mnemonic = some d ∧
        expectedOperandCount d.pattern ≤ line.operands.length) :
    ∃ out diags, encode lines labels = some (out, diags) ∧
      out.length = (instrLines lines).length ∧
      (∀ k (hk : k < (instrLines lines).length) (hk2 : k < out.length),
        (lineResult labels (k : Nat) (instrLines lines)[k]).1 = [out[k]] ∧
          out[k].rawText = (instrLines lines)[k].rawText) ∧
      (∀ k (hk : k < (instrLines lines).length) (hk2 : k < out.length) (L : String),
        refersTo (instrLines lines)[k] L → labels L = none →
        out[k] = ⟨"00000000", (instrLines lines)[k].rawText⟩ ∧
          (⟨(instrLines lines)[k].lineNumber, "undefined label \x27" ++ L ++ "\x27"⟩ : Diag)
            ∈ diags) ∧
      (∀ (L : String) (T : Int), ∃ out2 diags2,
        encode lines (labels.set L T) = some (out2, diags2) ∧
        out2.length = out.length ∧
        ∀ k (hk : k < (instrLines lines).length) (hk1 : k < out.length)
          (hk2 : k < out2.length),
          ¬ refersTo (instrLines lines)[k] L → out2[k] = out[k]) := by
  obtain ⟨out, diags, he, hlen, hget, hdiag⟩ := encode_wellFormed lines labels hwf
  have hpass : ∀ k (hk : k < (instrLines lines).length),
      ∃ d, findInstruction (instrLines lines)[k].mnemonic = some d ∧
        expectedOperandCount d.pattern ≤ (instrLines lines)[k].operands.length := by
    intro k hk
    have hl2 := List.mem_filter.mp (List.getElem_mem hk)
    exact hwf _ hl2.1 (by simpa using hl2.2)
  refine ⟨out, diags, he, hlen, ?_, ?_, ?_⟩
  · intro k hk hk2
    refine ⟨hget k hk hk2, ?_⟩
    obtain ⟨d, hf, hc⟩ := hpass k hk
    obtain ⟨binary, errs, W, _, _, hr⟩ :=
      lineResult_pass labels (k : Nat) (instrLines lines)[k] d hf hc
    have h1 := hget k hk hk2
    rw [hr] at h1
    have h2 : out[k] = ⟨fmtHex8 W, (instrLines lines)[k].rawText⟩ := by
      simpa using h1.symm
    rw [h2]
  · intro k hk hk2 L hr hl
    obtain ⟨d, hf, hc⟩ := hpass k hk
    have hu := lineResult_undefined labels (k : Nat) (instrLines lines)[k] L hr
      (fun d2 hf2 => by
        have : d2 = d := by
          rw [hf] at hf2
          exact (Option.some.inj hf2).symm
        rw [this]
        exact hc) hl
    have h1 := hget k hk hk2
    rw [hu.1] at h1
    exact ⟨by simpa using h1.symm, hdiag k hk _ hu.2⟩
  · intro L T
    obtain ⟨out2, diags2, he2, hlen2, hget2, _⟩ :=
      encode_wellFormed lines (labels.set L T) hwf
    refine ⟨out2, diags2, he2, by rw [hlen2, hlen], ?_⟩
    intro k hk hk1 hk2 hnr
    have h1 := hget k hk hk1
    have h2 := hget2 k hk hk2
    rw [lineResult_set labels L T _ _ hnr, h1] at h2
    simpa using h2.symm

/-- Witness of C7: `danglingProgram`, encoded with its own label table, gives three
entries; the second, for the branch to the undefined `nowhere`, is `00000000` with the
rawText of the branch, and the undefined-label diagnostic of line 2 is registered. -/
theorem C7_undefined_label_witness :
    ∃ out diags,
      encode danglingProgram (buildLabelTable danglingProgram).1 = some (out, diags) ∧
      out.length = 3 ∧
      out[1]? = some ⟨"00000000", "beq $1, $0, nowhere"⟩ ∧
      (⟨2, "undefined label \x27nowhere\x27"⟩ : Diag) ∈ diags := by
  obtain ⟨out, diags, he, hlen, _, hundef, _⟩ :=
    C7_undefined_label danglingProgram (buildLabelTable danglingProgram).1 (by
      intro line hl _
      simp only [danglingProgram, List.mem_cons, List.mem_singleton, List.not_mem_nil,
        or_false] at hl
      rcases hl with rfl | rfl | rfl
      · exact ⟨⟨"001000", "", .I_TMP_SRC_IMM⟩, by decide, by decide⟩
      · exact ⟨⟨"000100", "", .I_SRC_TMP_LABEL⟩, by decide, by decide⟩
      · exact ⟨⟨"000010", "", .J_LABEL⟩, by decide, by decide⟩)
  have hlen3 : out.length = 3 := hlen.trans (by decide)
  have hk : 1 < (instrLines danglingProgram).length := by decide
  have h1 := hundef 1 hk (by omega) "nowhere"
    ⟨⟨"000100", "", .I_SRC_TMP_LABEL⟩, rfl, Or.inl ⟨rfl, rfl⟩⟩ (by decide)
  refine ⟨out, diags, he, hlen3, ?_, h1.2⟩
  rw [List.getElem?_eq_getElem (by omega), h1.1]
  rfl

/-! ## Reading back what `std::hex` prints -/

theorem hexChar_facts (d : Nat) (hd : d < 16) :
    hexDigit (hexChar d) = some d ∧ isSpace (hexChar d) = false ∧ hexChar d ≠ '-' ∧
      hexChar d ≠ '+' ∧ hexChar d ≠ 'x' ∧ hexChar d ≠ 'X' := by
  have hall : ∀ k ∈ List.range 16,
      hexDigit (hexChar k) = some k ∧ isSpace (hexChar k) = false ∧ hexChar k ≠ '-' ∧
        hexChar k ≠ '+' ∧ hexChar k ≠ 'x' ∧ hexChar k ≠ 'X' := by decide
  exact hall d (List.mem_range.mpr hd)

theorem hexDigitsFuel_chars (f n : Nat) :
    ∀ c ∈ hexDigitsFuel f n, ∃ d, d < 16 ∧ c = hexChar d := by
  induction f generalizing n with
  | zero => simp [hexDigitsFuel]
  | succ f ih =>
    intro c hc
    rw [hexDigitsFuel] at hc
    split at hc
    · rename_i h
      exact ⟨n, h, by simpa using hc⟩
    · rcases List.mem_append.mp hc with h | h
      · exact ih _ c h
      · exact ⟨n % 16, Nat.mod_lt _ (by decide), by simpa using h⟩

theorem hexDigitsFuel_ne_nil (f n : Nat) : hexDigitsFuel (f + 1) n ≠ [] := by
  rw [hexDigitsFuel]
  split <;> simp

theorem takeDigits_append (dv : Char → Option Nat) (a b : List Char)
    (h : ∀ c ∈ a, ∃ d, dv c = some d) :
    takeDigits dv (a ++ b) = takeDigits dv a ++ takeDigits dv b := by
  induction a with
  | nil => simp [takeDigits]
  | cons c cs ih =>
    obtain ⟨d, hd⟩ := h c (List.mem_cons_self _ _)
    have ih2 := ih (fun x hx => h x (List.mem_cons_of_mem _ hx))
    simp only [List.cons_append, takeDigits, hd]
    exact congrArg (fun t => d :: t) ih2

theorem digitsValue_snoc (base : Nat) (ds : List Nat) (d : Nat) :
    digitsValue base (ds ++ [d]) = digitsValue base ds * base + d := by
  simp [digitsValue, List.foldl_append]

theorem digitsValue_hexDigitsFuel (f n : Nat) (h : n < 16 ^ f) :
    digitsValue 16 (takeDigits hexDigit (hexDigitsFuel f n)) = n := by
  induction f generalizing n with
  | zero =>
    have : n = 0 := by simpa using h
    subst this
    rfl
  | succ f ih =>
    rw [hexDigitsFuel]
    split
    · rename_i hlt
      simp [takeDigits, (hexChar_facts n hlt).1, digitsValue]
    · have hdiv : n / 16 < 16 ^ f := by
        rw [Nat.div_lt_iff_lt_mul (by decide)]
        rw [pow_succ] at h
        exact h
      rw [takeDigits_append _ _ _ (fun c hc => by
        obtain ⟨d, hd, rfl⟩ := hexDigitsFuel_chars f (n / 16) c hc
        exact ⟨d, (hexChar_facts d hd).1⟩)]
      have hlast : takeDigits hexDigit [hexChar (n % 16)] = [n % 16] := by
        simp [takeDigits, (hexChar_facts (n % 16) (Nat.mod_lt _ (by decide))).1]
      rw [hlast, digitsValue_snoc, ih _ hdiv]
      omega

theorem stoul16_hexLower (n : Nat) (hn : n < 18446744073709551616) :
    stoul16 (String.mk (hexLower n)) = some n := by
  have hne := hexDigitsFuel_ne_nil n n
  have hchars := hexDigitsFuel_chars (n + 1) n
  have hval := digitsValue_hexDigitsFuel (n + 1) n
    (lt_of_lt_of_le (Nat.lt_pow_self (by decide) n) (Nat.pow_le_pow_right (by decide) (by omega)))
  unfold hexLower
  rcases hcs : hexDigitsFuel (n + 1) n with _ | ⟨c, r⟩
  · exact absurd hcs hne
  · rw [hcs] at hchars hval
    obtain ⟨d, hd, hc⟩ := hchars c (List.mem_cons_self _ _)
    have hf := hexChar_facts d hd
    rw [← hc] at hf
    have h1 : List.dropWhile isSpace (c :: r) = c :: r := by
      simp [List.dropWhile, hf.2.1]
    have h2 : takeSign (c :: r) = (false, c :: r) := by
      unfold takeSign
      split
      · rename_i heq
        exact absurd (List.cons.inj heq).1 hf.2.2.1
      · rename_i heq
        exact absurd (List.cons.inj heq).1 hf.2.2.2.1
      · rfl
    have h3 : skipHexMark (c :: r) = c :: r := by
      unfold skipHexMark
      split
      · rename_i x h t heq
        have hx : x ∈ c :: r := by rw [heq]; simp
        obtain ⟨dx, hdx, hxc⟩ := hchars x hx
        have hfx := hexChar_facts dx hdx
        rw [← hxc] at hfx
        simp [hfx.2.2.2.2.1, hfx.2.2.2.2.2, heq]
      · rfl
    have h4 : takeDigits hexDigit (c :: r) ≠ [] := by
      simp [takeDigits, hf.1]
    have h5 : (takeDigits hexDigit (c :: r)).isEmpty = false := by
      cases hh : takeDigits hexDigit (c :: r) with
      | nil => exact absurd hh h4
      | cons _ _ => rfl
    simp only [stoul16, h1, h2, h3, h5, hval]
    simp [Nat.not_le.mpr hn]

theorem hexLiteral_data (n : Nat) :
    ∃ c r, (hexLiteral n).data = '0' :: 'x' :: c :: r ∧ hexLower n = c :: r := by
  have hne := hexDigitsFuel_ne_nil n n
  rcases hcs : hexLower n with _ | ⟨c, r⟩
  · exact absurd hcs hne
  · exact ⟨c, r, by simp [hexLiteral, String.data_append, hcs], rfl⟩

theorem substrFrom_hexLiteral (n : Nat) :
    substrFrom (hexLiteral n) 2 = String.mk (hexLower n) := by
  simp [substrFrom, hexLiteral, String.data_append]

theorem parsePseudoImmediate_hexLiteral (n : Nat) (hn : n < 2147483648) :
    parsePseudoImmediate (hexLiteral n) = some (n : Int) := by
  obtain ⟨c, r, hd, _⟩ := hexLiteral_data n
  have hlen : (hexLiteral n).length > 2 := by
    show (hexLiteral n).data.length > 2
    rw [hd]
    simp
  have hw : wrapInt32 (n : Int) = n := wrapInt32_of_range _ (by omega) (by omega)
  unfold parsePseudoImmediate
  simp [hlen, hd, substrFrom_hexLiteral, stoul16_hexLower n (by omega), hw]

/-- C10. Single-instruction pseudos.  A `nop` line, whatever its operands, expands to
exactly `sll $0, $0, 0` on the same label, lineNumber and rawText, and expanding then
encoding it gives what encoding that `sll` gives: the entry `00000000`, no diagnostic.
A `move` line with operands d, s (and any further ones) expands to exactly
`add d, s, $0` on the same label, lineNumber and rawText, and expanding then encoding
it gives what encoding that `add` gives; for numeric registers d, s in `[0,31]` this is
the word `s*2^21 + 0*2^16 + d*2^11 + 0x20`, no diagnostic. -/
theorem C10_pseudo_refinement :
    (∀ (ln : Int) (raw label : String) (ops : List String) (labels : LabelTable),
      expandPseudos [⟨ln, raw, label, "nop", ops⟩] = some ([realNop ln raw label], []) ∧
      expandThenEncode [⟨ln, raw, label, "nop", ops⟩] labels
        = encode [realNop ln raw label] labels ∧
      encode [realNop ln raw label] labels = some ([⟨"00000000", raw⟩], [])) ∧
    (∀ (ln : Int) (raw label d s : String) (more : List String),
      expandPseudos [⟨ln, raw, label, "move", d :: s :: more⟩]
        = some ([realMove ln raw label d s], [])) ∧
    (∀ (ln : Int) (raw label : String) (rd rs : Nat) (more : List String)
        (labels : LabelTable), rd ≤ 31 → rs ≤ 31 →
      expandThenEncode [⟨ln, raw, label, "move", regName rd :: regName rs :: more⟩] labels
        = encode [realMove ln raw label (regName rd) (regName rs)] labels ∧
      encode [realMove ln raw label (regName rd) (regName rs)] labels
        = some ([⟨fmtHex8 (rs * 2 ^ 21 + 0 * 2 ^ 16 + rd * 2 ^ 11 + 0x20), raw⟩], [])) := by
  have hnop : ∀ (ln : Int) (raw label : String) (ops : List String),
      expandPseudos [⟨ln, raw, label, "nop", ops⟩] = some ([realNop ln raw label], []) := by
    intro ln raw label ops
    simp [expandPseudos, expandLoop, realNop]
  have hmove : ∀ (ln : Int) (raw label d s : String) (more : List String),
      expandPseudos [⟨ln, raw, label, "move", d :: s :: more⟩]
        = some ([realMove ln raw label d s], []) := by
    intro ln raw label d s more
    simp [expandPseudos, expandLoop, realMove]
  have hsll : ∀ (ln : Int) (raw label : String) (labels : LabelTable),
      encode [realNop ln raw label] labels = some ([⟨"00000000", raw⟩], []) := by
    intro ln raw label labels
    have h := encodesAs_shift "sll" ⟨"000000", "000000", .R_DST_TMP_SHAMT⟩ 0 0 "0" 0 [] ln
      raw label labels 0 (by decide) rfl (by decide) (by decide) (by
        simp only [parseImmediate]
        rfl)
    have h2 := encode_singleton h
    have e : fmtHex8 (opcodeOf ⟨"000000", "000000", .R_DST_TMP_SHAMT⟩ * 2 ^ 26 + 0 * 2 ^ 21
        + 0 * 2 ^ 16 + 0 * 2 ^ 11 + ((0 : Int) % 32).toNat * 2 ^ 6
        + functOf ⟨"000000", "000000", .R_DST_TMP_SHAMT⟩) = "00000000" := by decide
    rw [e] at h2
    exact h2
  have hadd : ∀ (ln : Int) (raw label : String) (rd rs : Nat) (labels : LabelTable),
      rd ≤ 31 → rs ≤ 31 →
      encode [realMove ln raw label (regName rd) (regName rs)] labels
        = some ([⟨fmtHex8 (rs * 2 ^ 21 + 0 * 2 ^ 16 + rd * 2 ^ 11 + 0x20), raw⟩], []) := by
    intro ln raw label rd rs labels hd hs
    have h := encodesAs_triple "add" ⟨"000000", "100000", .R_DST_SRC_TMP⟩ rd rs 0 [] ln
      raw label labels 0 (by decide) rfl hd hs (by decide)
    have h2 := encode_singleton h
    have e : opcodeOf ⟨"000000", "100000", .R_DST_SRC_TMP⟩ * 2 ^ 26 + rs * 2 ^ 21 + 0 * 2 ^ 16
        + rd * 2 ^ 11 + 0 * 2 ^ 6 + functOf ⟨"000000", "100000", .R_DST_SRC_TMP⟩
        = rs * 2 ^ 21 + 0 * 2 ^ 16 + rd * 2 ^ 11 + 0x20 := by
      have e1 : opcodeOf ⟨"000000", "100000", .R_DST_SRC_TMP⟩ = 0 := by decide
      have e2 : functOf ⟨"000000", "100000", .R_DST_SRC_TMP⟩ = 0x20 := by decide
      rw [e1, e2]
      ring
    rw [e] at h2
    exact h2
  refine ⟨?_, ?_, ?_⟩
  · intro ln raw label ops labels
    refine ⟨hnop ln raw label ops, ?_, hsll ln raw label labels⟩
    simp [expandThenEncode, hnop, hsll]
  · intro ln raw label d s more
    exact hmove ln raw label d s more
  · intro ln raw label rd rs more labels hd hs
    refine ⟨?_, hadd ln raw label rd rs labels hd hs⟩
    simp [expandThenEncode, hmove, hadd ln raw label rd rs labels hd hs]

/-- Witness of C10: `move $4, $9, junk` expanded and encoded is the entry `01202020`,
the encoding of `add $4, $9, $0`. -/
theorem C10_pseudo_refinement_witness :
    expandThenEncode [⟨3, "move $4, $9", "m", "move", ["$4", "$9", "junk"]⟩]
        LabelTable.empty
      = encode [⟨3, "move $4, $9", "m", "add", ["$4", "$9", "$0"]⟩] LabelTable.empty ∧
    encode [⟨3, "move $4, $9", "m", "add", ["$4", "$9", "$0"]⟩] LabelTable.empty
      = some ([⟨"01202020", "move $4, $9"⟩], []) :=
  ⟨(C10_pseudo_refinement.2.2 3 "move $4, $9" "m" 4 9 ["junk"] LabelTable.empty
      (by decide) (by decide)).1,
    (C10_pseudo_refinement.2.2 3 "move $4, $9" "m" 4 9 ["junk"] LabelTable.empty
      (by decide) (by decide)).2.trans (by decide)⟩

/-! ## The loop of `expandPseudos` -/

theorem expandLoop_step (line : ParsedLine) (rest expanded : List ParsedLine)
    (log : List Diag) :
    expandLoop (line :: rest) expanded log
      = match expandLine line with
        | none => none
        | some (outs, errs) => expandLoop rest (expanded ++ outs) (log ++ errs) := by
  obtain ⟨ln, raw, label, m, ops⟩ := line
  rw [expandLoop]
  unfold expandLine
  by_cases h1 : m = "nop"
  · simp [h1]
  · by_cases h2 : m = "move"
    · rcases ops with _ | ⟨o0, _ | ⟨o1, more⟩⟩ <;> simp [h2, reportError]
    · by_cases h3 : m = "li"
      · rcases ops with _ | ⟨o0, _ | ⟨o1, more⟩⟩
        · simp [h3, reportError]
        · simp [h3, reportError]
        · rcases hv : parsePseudoImmediate o1 with _ | v
          · simp [h3, hv]
          · by_cases hle : liValue v ≤ 0xFFFF
            · have hle2 : (v % 4294967296).toNat ≤ 65535 := hle
              simp [h3, hv, hle2, liValue]
            · have hle2 : ¬ (v % 4294967296).toNat ≤ 65535 := hle
              simp [h3, hv, hle2, liValue, hexLiteral]
      · simp [h1, h2, h3]

theorem expandLoop_acc (lines expanded : List ParsedLine) (log : List Diag) :
    expandLoop lines expanded log
      = (expandLoop lines [] []).map (fun r => (expanded ++ r.1, log ++ r.2)) := by
  induction lines generalizing expanded log with
  | nil => simp [expandLoop]
  | cons l rest ih =>
    rw [expandLoop_step, expandLoop_step l rest [] []]
    rcases expandLine l with _ | ⟨o, d⟩
    · rfl
    · simp only
      rw [ih (expanded ++ o) (log ++ d), ih ([] ++ o) ([] ++ d)]
      rcases expandLoop rest [] [] with _ | ⟨o2, d2⟩
      · rfl
      · simp [List.append_assoc]

theorem expandPseudos_cons (line : ParsedLine) (rest : List ParsedLine) :
    expandPseudos (line :: rest)
      = match expandLine line with
        | none => none
        | some (outs, errs) =>
          (expandPseudos rest).map (fun r => (outs ++ r.1, errs ++ r.2)) := by
  unfold expandPseudos
  rw [expandLoop_step]
  rcases expandLine line with _ | ⟨o, d⟩
  · rfl
  · simp only
    rw [expandLoop_acc]
    simp

theorem expandPseudos_append (a b : List ParsedLine) :
    expandPseudos (a ++ b)
      = match expandPseudos a with
        | none => none
        | some (o1, d1) => (expandPseudos b).map (fun r => (o1 ++ r.1, d1 ++ r.2)) := by
  induction a with
  | nil =>
    have h : expandPseudos [] = some ([], []) := rfl
    rw [List.nil_append, h]
    rcases hb : expandPseudos b with _ | ⟨o, d⟩ <;> simp
  | cons l rest ih =>
    rw [List.cons_append, expandPseudos_cons, expandPseudos_cons, ih]
    rcases expandLine l with _ | ⟨o, d⟩
    · rfl
    · rcases expandPseudos rest with _ | ⟨o1, d1⟩
      · rfl
      · rcases expandPseudos b with _ | ⟨o2, d2⟩
        · rfl
        · simp [List.append_assoc]

/-- C12. Too few operands.  A line whose mnemonic is `move` or `li` and which has fewer
than 2 operands makes the loop of `expandPseudos` register exactly one diagnostic for
that line and emit the line unchanged, after which the loop goes on with the remaining
lines: between a prefix and a suffix that expand on their own, the line stands
unchanged at its position and its diagnostic at its position. -/
theorem C12_short_pseudo (line : ParsedLine)
    (hm : line.mnemonic = "move" ∨ line.mnemonic = "li")
    (hc : line.operands.length < 2) :
    (∀ (rest expanded : List ParsedLine) (log : List Diag),
      expandLoop (line :: rest) expanded log
        = expandLoop rest (expanded ++ [line])
            (log ++ [⟨line.lineNumber,
              "\x27" ++ line.mnemonic ++ "\x27 requires 2 operands"⟩])) ∧
    (∀ (pre post o1 o2 : List ParsedLine) (d1 d2 : List Diag),
      expandPseudos pre = some (o1, d1) → expandPseudos post = some (o2, d2) →
      expandPseudos (pre ++ line :: post)
        = some (o1 ++ line :: o2,
            d1 ++ ⟨line.lineNumber,
              "\x27" ++ line.mnemonic ++ "\x27 requires 2 operands"⟩ :: d2)) := by
  have hl : expandLine line = some ([line],
      [⟨line.lineNumber, "\x27" ++ line.mnemonic ++ "\x27 requires 2 operands"⟩]) := by
    have hops : line.operands = [] ∨ ∃ o, line.operands = [o] := by
      rcases hops : line.operands with _ | ⟨o, _ | ⟨o2, r⟩⟩
      · exact Or.inl rfl
      · exact Or.inr ⟨o, rfl⟩
      · rw [hops] at hc
        simp at hc
        omega
    unfold expandLine
    rcases hm with hm | hm
    · have e : "\x27" ++ "move" ++ "\x27 requires 2 operands"
          = "\x27move\x27 requires 2 operands" := by decide
      rcases hops with h | ⟨o, h⟩ <;> simp [hm, h, e]
    · have e : "\x27" ++ "li" ++ "\x27 requires 2 operands"
          = "\x27li\x27 requires 2 operands" := by decide
      rcases hops with h | ⟨o, h⟩ <;> simp [hm, h, e]
  refine ⟨?_, ?_⟩
  · intro rest expanded log
    rw [expandLoop_step, hl]
  · intro pre post o1 o2 d1 d2 h1 h2
    rw [expandPseudos_append, h1, expandPseudos_cons, hl]
    simp [h2]

/-- Witness of C12: `move $4` between an `add` and a `nop` stays as it is, with one
diagnostic, and the `nop` after it is still expanded. -/
theorem C12_short_pseudo_witness :
    expandPseudos [⟨1, "add $1, $2, $3", "", "add", ["$1", "$2", "$3"]⟩,
        ⟨2, "m: move $4", "m", "move", ["$4"]⟩, ⟨3, "nop", "", "nop", []⟩]
      = some ([⟨1, "add $1, $2, $3", "", "add", ["$1", "$2", "$3"]⟩,
          ⟨2, "m: move $4", "m", "move", ["$4"]⟩,
          ⟨3, "nop", "", "sll", ["$0", "$0", "0"]⟩],
        [⟨2, "\x27move\x27 requires 2 operands"⟩]) :=
  (C12_short_pseudo ⟨2, "m: move $4", "m", "move", ["$4"]⟩ (Or.inl rfl) (by decide)).2
    [⟨1, "add $1, $2, $3", "", "add", ["$1", "$2", "$3"]⟩] [⟨3, "nop", "", "nop", []⟩]
    [⟨1, "add $1, $2, $3", "", "add", ["$1", "$2", "$3"]⟩]
    [⟨3, "nop", "", "sll", ["$0", "$0", "0"]⟩] [] [] (by decide) (by decide)

theorem expandLine_isExpansionOf (l : ParsedLine) (p : List ParsedLine) (errs : List Diag)
    (h : expandLine l = some (p, errs)) : IsExpansionOf p l := by
  obtain ⟨ln, raw, label, m, ops⟩ := l
  unfold expandLine at h
  unfold IsExpansionOf isWideLi
  by_cases h1 : m = "nop"
  · subst h1
    simp at h
    refine ⟨_, [], h.1.symm, rfl, rfl, rfl, by simp, ?_, by simp⟩
    rw [← h.1]
    simp
  · by_cases h2 : m = "move"
    · subst h2
      rcases ops with _ | ⟨o0, _ | ⟨o1, more⟩⟩ <;> simp at h <;>
        refine ⟨_, [], h.1.symm, rfl, rfl, rfl, by simp, ?_, by simp⟩ <;>
        rw [← h.1] <;> simp
    · by_cases h3 : m = "li"
      · subst h3
        rcases ops with _ | ⟨o0, _ | ⟨o1, more⟩⟩
        · simp at h
          refine ⟨_, [], h.1.symm, rfl, rfl, rfl, by simp, ?_, by simp⟩
          rw [← h.1]
          simp
        · simp at h
          refine ⟨_, [], h.1.symm, rfl, rfl, rfl, by simp, ?_, by simp⟩
          rw [← h.1]
          simp
        · rcases hv : parsePseudoImmediate o1 with _ | v
          · simp [hv] at h
          · by_cases hle : liValue v ≤ 0xFFFF
            · simp [hv, hle] at h
              refine ⟨_, [], h.1.symm, rfl, rfl, rfl, by simp, ?_, by simp⟩
              rw [← h.1]
              have : ¬ 65535 < liValue v := by omega
              simp [hv, this]
            · simp [hv, hle] at h
              refine ⟨_, _, h.1.symm, rfl, rfl, rfl, by simp, ?_, by simp⟩
              rw [← h.1]
              have : 65535 < liValue v := by omega
              simp [hv, this]
      · simp [h1, h2, h3] at h
        refine ⟨_, [], h.1.symm, rfl, rfl, rfl, by simp, ?_, fun _ _ _ => h.1.symm⟩
        rw [← h.1]
        simp [h3]

theorem expandPseudos_parts (lines out : List ParsedLine) (diags : List Diag)
    (h : expandPseudos lines = some (out, diags)) :
    ∃ parts : List (List ParsedLine),
      List.Forall₂ (fun l p => IsExpansionOf p l) lines parts ∧ out = parts.flatten := by
  induction lines generalizing out diags with
  | nil =>
    have h0 : expandPseudos [] = some ([], []) := rfl
    rw [h0] at h
    have : out = [] := by
      have := (Option.some.inj h)
      exact (Prod.mk.inj this).1.symm
    exact ⟨[], List.Forall₂.nil, by simp [this]⟩
  | cons l rest ih =>
    rw [expandPseudos_cons] at h
    rcases hl : expandLine l with _ | ⟨p, errs⟩
    · simp [hl] at h
    · rcases hr : expandPseudos rest with _ | ⟨o2, d2⟩
      · simp [hl, hr] at h
      · simp [hl, hr] at h
        obtain ⟨parts, hf, ho⟩ := ih o2 d2 hr
        refine ⟨p :: parts, List.Forall₂.cons (expandLine_isExpansionOf l p errs hl) hf, ?_⟩
        rw [← h.1, ho]
        rfl

theorem definedLabels_of_isExpansionOf (p : List ParsedLine) (l : ParsedLine)
    (h : IsExpansionOf p l) :
    definedLabels p = if l.label ≠ "" then [l.label] else [] := by
  obtain ⟨first, others, hp, hl, _, _, ho, _, _⟩ := h
  have hnone : definedLabels others = [] := by
    unfold definedLabels
    rw [List.map_eq_nil_iff, List.filter_eq_nil_iff]
    intro q hq
    simp [(ho q hq).1]
  rw [hp, definedLabels_cons, hnone, hl]
  simp

theorem definedLabels_flatten (lines : List ParsedLine) (parts : List (List ParsedLine))
    (h : List.Forall₂ (fun l p => IsExpansionOf p l) lines parts) :
    definedLabels parts.flatten = definedLabels lines := by
  induction h with
  | nil => rfl
  | cons hp _ ih =>
    rw [List.flatten_cons, definedLabels_append, ih, definedLabels_cons,
      definedLabels_of_isExpansionOf _ _ hp]

theorem flatten_split (parts : List (List ParsedLine)) (i : Nat) (hi : i < parts.length) :
    parts.flatten = (parts.take i).flatten ++ (parts[i] ++ (parts.drop (i + 1)).flatten) := by
  have h := List.take_append_drop i parts
  rw [List.drop_eq_getElem_cons hi] at h
  have h2 := congrArg List.flatten h
  rw [List.flatten_append, List.flatten_cons] at h2
  exact h2.symm

/-- C11. Invariants of the expansion.  When `expandPseudos` completes on a line
sequence, its output is the concatenation, in line order, of one group of lines per
input line.  The group of a line whose mnemonic is not `nop`, `move` or `li` is that
line unchanged; every group has one line, or two for an `li` with a value above
`0xFFFF`; the first line of a group carries the label, lineNumber and rawText of its
input line and no other line of it carries a label.  Hence, when the labels of the
input are pairwise distinct, `buildLabelTable` on the output binds the label of every
input line to the address of the first line emitted for it: the number of
mnemonic-bearing lines in the groups before its own. -/
theorem C11_expansion_invariants (lines out : List ParsedLine) (diags : List Diag)
    (h : expandPseudos lines = some (out, diags)) :
    ∃ parts : List (List ParsedLine),
      parts.length = lines.length ∧ out = parts.flatten ∧
      (∀ i (hi : i < lines.length) (hp : i < parts.length),
        IsExpansionOf parts[i] lines[i]) ∧
      ((definedLabels lines).Nodup → ∀ i (hi : i < lines.length), lines[i].label ≠ "" →
        (buildLabelTable out).1 lines[i].label
          = some ((instrCount ((parts.take i).flatten) : Nat) : Int)) := by
  obtain ⟨parts, hf, ho⟩ := expandPseudos_parts lines out diags h
  have hlen := hf.length_eq
  have hget : ∀ i (hi : i < lines.length) (hp : i < parts.length),
      IsExpansionOf parts[i] lines[i] := fun i hi hp => hf.get hi hp
  refine ⟨parts, hlen.symm, ho, hget, ?_⟩
  intro hd i hi hl
  have hp : i < parts.length := by omega
  obtain ⟨first, others, hpi, hfl, _, _, _, _, _⟩ := hget i hi hp
  have hsplit := flatten_split parts i hp
  rw [hpi] at hsplit
  have hdo : (definedLabels out).Nodup := by
    rw [ho, definedLabels_flatten lines parts hf]
    exact hd
  have hk : (parts.take i).flatten.length < out.length := by
    rw [ho, hsplit]
    simp
  have hok : out[(parts.take i).flatten.length] = first := by
    simp only [ho, hsplit]
    rw [List.getElem_append_right (Nat.le_refl _)]
    simp
  have htake : out.take (parts.take i).flatten.length = (parts.take i).flatten := by
    rw [ho]
    conv_lhs => rw [hsplit]
    exact List.take_left' rfl
  have hl2 : out[(parts.take i).flatten.length].label ≠ "" := by
    rw [hok, hfl]
    exact hl
  have hb := buildLabelTableLoop_last out 0 LabelTable.empty [] _ hk hl2
    (fun j hj hij => nodup_no_later out hdo _ j hk hj hij hl2)
  rw [htake, hok, hfl] at hb
  simpa [buildLabelTable] using hb

/-- Witness of C11: `wideProgram` expands to four lines, the `li` giving `lui` with the
label `big` and `ori` without label; in the label table of the output `big` is bound
to 1 and `end`, which follows the two lines of the `li`, to 3. -/
theorem C11_expansion_invariants_witness :
    ∃ out diags, expandPseudos wideProgram = some (out, diags) ∧
      out.length = 4 ∧
      (buildLabelTable out).1 "big" = some 1 ∧
      (buildLabelTable out).1 "end" = some 3 := by
  have he : expandPseudos wideProgram = some (
      [⟨1, "add $1, $2, $3", "", "add", ["$1", "$2", "$3"]⟩,
        ⟨2, "big: li $8, 0x12345678", "big", "lui", ["$8", "0x1234"]⟩,
        ⟨2, "big: li $8, 0x12345678", "", "ori", ["$8", "$8", "0x5678"]⟩,
        ⟨3, "end: j big", "end", "j", ["big"]⟩], []) := by decide
  obtain ⟨parts, hlen, ho, _, hb⟩ := C11_expansion_invariants wideProgram _ _ he
  refine ⟨_, _, he, rfl, by decide, by decide⟩

/-! ## The alias resolver -/

theorem lookup_eq_none {β : Type} (l : List (String × β)) (k : String) :
    l.lookup k = none ↔ k ∉ l.map (fun p => p.1) := by
  induction l with
  | nil => simp
  | cons p l ih =>
    obtain ⟨k1, v1⟩ := p
    by_cases hk : k = k1
    · subst hk
      simp [List.lookup]
    · have hb : (k == k1) = false := by simpa using hk
      rw [List.lookup, hb]
      simp [ih, hk]

theorem resolveAliases_length (lines : List ParsedLine) :
    (resolveAliases lines).length = lines.length := by
  simp [resolveAliases]

theorem resolveAliases_getElem (lines : List ParsedLine) (i : Nat) (hi : i < lines.length)
    (hr : i < (resolveAliases lines).length) :
    (resolveAliases lines)[i]
      = { lines[i] with operands := lines[i].operands.map resolveOperand } := by
  simp [resolveAliases, resolveOperand]

theorem resolveOperand_alias (op : String) (n : Nat) (hn : n ≤ 31)
    (h : toLower op = aliasOf n) : resolveOperand op = regName n := by
  have hall : ∀ k ∈ List.range 32, REGISTER_ALIASES.lookup (aliasOf k) = some (regName k) := by
    decide
  unfold resolveOperand
  rw [h, hall n (List.mem_range.mpr (by omega))]

theorem resolveOperand_other (op : String) (h : toLower op ∉ aliasNames) :
    resolveOperand op = op := by
  unfold resolveOperand
  rw [(lookup_eq_none REGISTER_ALIASES (toLower op)).mpr h]

theorem resolveOperand_regName (n : Nat) (hn : n ≤ 31) :
    resolveOperand (regName n) = regName n := by
  have hall : ∀ k ∈ List.range 32, resolveOperand (regName k) = regName k := by decide
  exact hall n (List.mem_range.mpr (by omega))

/-- C14. Frame of `resolveAliases`.  The number and order of lines are kept; every line
keeps its label, mnemonic, lineNumber, rawText and its number of operands; an operand
whose lowercased text is not one of the 32 alias names is unchanged, so an operand
changes only when its lowercased text is an alias name. -/
theorem C14_resolve_frame (lines : List ParsedLine) :
    (resolveAliases lines).length = lines.length ∧
    aliasNames.length = 32 ∧
    ∀ i (hi : i < lines.length) (hr : i < (resolveAliases lines).length),
      (resolveAliases lines)[i].label = lines[i].label ∧
      (resolveAliases lines)[i].mnemonic = lines[i].mnemonic ∧
      (resolveAliases lines)[i].lineNumber = lines[i].lineNumber ∧
      (resolveAliases lines)[i].rawText = lines[i].rawText ∧
      (resolveAliases lines)[i].operands.length = lines[i].operands.length ∧
      ∀ k (hk : k < lines[i].operands.length)
        (hk2 : k < (resolveAliases lines)[i].operands.length),
        (toLower lines[i].operands[k] ∉ aliasNames →
          (resolveAliases lines)[i].operands[k] = lines[i].operands[k]) ∧
        ((resolveAliases lines)[i].operands[k] ≠ lines[i].operands[k] →
          toLower lines[i].operands[k] ∈ aliasNames) := by
  refine ⟨resolveAliases_length lines, rfl, ?_⟩
  intro i hi hr
  have hg := resolveAliases_getElem lines i hi hr
  refine ⟨by rw [hg], by rw [hg], by rw [hg], by rw [hg], by rw [hg]; simp, ?_⟩
  intro k hk hk2
  have hop : (resolveAliases lines)[i].operands[k] = resolveOperand lines[i].operands[k] := by
    simp [hg]
  refine ⟨fun h => ?_, fun h => ?_⟩
  · rw [hop, resolveOperand_other _ h]
  · by_contra hc
    exact h (by rw [hop, resolveOperand_other _ hc])

/-- Witness of C14: in `lw $T0, 4($Sp)` the operands `$T0` and `$Sp` are aliases in
another letter case and are replaced, the offset `4` is not an alias and is kept, and
the label-only line before it is kept whole. -/
theorem C14_resolve_frame_witness :
    resolveAliases [⟨1, "x:", "x", "", []⟩, ⟨2, "lw $T0, 4($Sp)", "", "lw", ["$T0", "4", "$Sp"]⟩]
      = [⟨1, "x:", "x", "", []⟩, ⟨2, "lw $T0, 4($Sp)", "", "lw", ["$8", "4", "$29"]⟩] ∧
    (resolveAliases [⟨1, "x:", "x", "", []⟩,
      ⟨2, "lw $T0, 4($Sp)", "", "lw", ["$T0", "4", "$Sp"]⟩]).length = 2 :=
  ⟨by decide, (C14_resolve_frame [⟨1, "x:", "x", "", []⟩,
    ⟨2, "lw $T0, 4($Sp)", "", "lw", ["$T0", "4", "$Sp"]⟩]).1⟩

/-- C13. Aliases.  For each register number `n` in `[0,31]` and every operand whose
lowercased text is the alias name of `n` (the alias in any mix of letter case),
`resolveAliases` puts the numeric form of `n` in its place, which `encodeRegister`
turns, without diagnostic, into the 5-bit field of `n`, the same field as for the
numeric operand.  The 32 alias names are the conventional ones, pairwise distinct, and
the table maps them, in order, onto the numeric forms of 0 to 31.  A numeric operand of
a register in `[0,31]` passes through `resolveAliases` unchanged.  The fields of
`$zero`, `$sp` and `$ra` are 00000, 11101 and 11111. -/
theorem C13_alias_encoding :
    (∀ (lines : List ParsedLine) (i k n : Nat) (hi : i < lines.length)
        (hr : i < (resolveAliases lines).length) (hk : k < lines[i].operands.length)
        (hk2 : k < (resolveAliases lines)[i].operands.length) (ln : Int),
      n ≤ 31 → toLower lines[i].operands[k] = aliasOf n →
      (resolveAliases lines)[i].operands[k] = regName n ∧
      encodeRegister (resolveAliases lines)[i].operands[k] ln
        = encodeRegister (regName n) ln ∧
      (encodeRegister (regName n) ln).2 = [] ∧
      IsField 5 (encodeRegister (regName n) ln).1 n) ∧
    (List.range 32).map aliasOf
      = ["$zero", "$at", "$v0", "$v1", "$a0", "$a1", "$a2", "$a3",
        "$t0", "$t1", "$t2", "$t3", "$t4", "$t5", "$t6", "$t7",
        "$s0", "$s1", "$s2", "$s3", "$s4", "$s5", "$s6", "$s7",
        "$t8", "$t9", "$k0", "$k1", "$gp", "$sp", "$fp", "$ra"] ∧
    aliasNames = (List.range 32).map aliasOf ∧ aliasNames.Nodup ∧
    REGISTER_ALIASES.map (fun p => p.2) = (List.range 32).map regName ∧
    ((List.range 32).map regName).Nodup ∧
    (∀ (lines : List ParsedLine) (i k n : Nat) (hi : i < lines.length)
        (hr : i < (resolveAliases lines).length) (hk : k < lines[i].operands.length)
        (hk2 : k < (resolveAliases lines)[i].operands.length),
      n ≤ 31 → lines[i].operands[k] = regName n →
      (resolveAliases lines)[i].operands[k] = regName n) ∧
    (encodeRegister (resolveOperand "$zero") 1 = ("00000", []) ∧
      encodeRegister (resolveOperand "$sp") 1 = ("11101", []) ∧
      encodeRegister (resolveOperand "$ra") 1 = ("11111", [])) := by
  refine ⟨?_, by decide, by decide, by decide, by decide, by decide, ?_, by decide⟩
  · intro lines i k n hi hr hk hk2 ln hn ha
    have hg := resolveAliases_getElem lines i hi hr
    have hop : (resolveAliases lines)[i].operands[k] = regName n := by
      simp only [hg, List.getElem_map]
      exact resolveOperand_alias _ n hn ha
    have hf := encodeRegister_regName n hn ln
    exact ⟨hop, by rw [hop], hf.1, hf.2⟩
  · intro lines i k n hi hr hk hk2 hn hop
    have hg := resolveAliases_getElem lines i hi hr
    simp only [hg, List.getElem_map, hop]
    exact resolveOperand_regName n hn

/-- Witness of C13: in `add $ZERO, $Sp, $ra` the three operands become `$0`, `$29` and
`$31`; `$Sp` lowercases to the alias of register 29, whose field `encodeRegister`
produces without diagnostic. -/
theorem C13_alias_encoding_witness :
    resolveAliases [⟨1, "add $ZERO, $Sp, $ra", "", "add", ["$ZERO", "$Sp", "$ra"]⟩]
      = [⟨1, "add $ZERO, $Sp, $ra", "", "add", ["$0", "$29", "$31"]⟩] ∧
    toLower "$Sp" = aliasOf 29 ∧
    (encodeRegister (regName 29) 1).2 = [] ∧
    IsField 5 (encodeRegister (regName 29) 1).1 29 :=
  ⟨by decide, by decide,
    (C13_alias_encoding.1 [⟨1, "add $ZERO, $Sp, $ra", "", "add", ["$ZERO", "$Sp", "$ra"]⟩]
      0 1 29 (by decide) (by decide) (by decide) (by decide) 1 (by decide)
      (by decide)).2.2⟩

/-! ## Acceptance of register and immediate operands -/

theorem takeDigits_of_head (dv : Char → Option Nat) (t : List Char)
    (h : ∀ c, t.head? = some c → dv c = none) : takeDigits dv t = [] := by
  rcases t with _ | ⟨c, r⟩
  · rfl
  · simp [takeDigits, h c rfl]

theorem decDigit_eq_none (c : Char) (h : ¬ (48 ≤ c.toNat ∧ c.toNat ≤ 57)) :
    decDigit c = none := by
  simp [decDigit, h]

theorem stoi_digits_tail (cs t : List Char) (h : IsDecDigits cs)
    (ht : ∀ c, t.head? = some c → ¬ (48 ≤ c.toNat ∧ c.toNat ≤ 57)) :
    stoi (String.mk (cs ++ t))
      = if decValue cs ≤ 2147483647 then some ((decValue cs : Nat) : Int) else none := by
  obtain ⟨hne, hall⟩ := h
  rcases cs with _ | ⟨c, r⟩
  · exact absurd rfl hne
  · have hc := digit_not_special c (hall c (List.mem_cons_self _ _))
    have h1 : List.dropWhile isSpace (c :: r ++ t) = c :: r ++ t := by
      simp [List.dropWhile, hc.1]
    have h2 : takeSign (c :: r ++ t) = (false, c :: r ++ t) :=
      takeSign_of_not_sign c (r ++ t) hc.2.1 hc.2.2.1
    have h3 : takeDigits decDigit (c :: r ++ t) = (c :: r).map (fun c => c.toNat - 48) := by
      rw [takeDigits_append decDigit (c :: r) t (fun x hx =>
        ⟨_, decDigit_of_digit x (hall x hx)⟩),
        takeDigits_map decDigit _ (c :: r) (fun x hx => decDigit_of_digit x (hall x hx)),
        takeDigits_of_head decDigit t (fun x hx => decDigit_eq_none x (ht x hx))]
      simp
    have h5 : ¬ ((decValue (c :: r) : Nat) : Int) < -2147483648 := by omega
    simp only [stoi, h1, h2, h3]
    simp only [List.map_cons, List.isEmpty_cons, Bool.false_eq_true, if_false]
    simp only [decValue, List.map_cons] at h5 ⊢
    by_cases hr : digitsValue 10 ((c.toNat - 48) :: List.map (fun c => c.toNat - 48) r)
        ≤ 2147483647
    · have h4 : ¬ (2147483647 : Int)
          < (digitsValue 10 ((c.toNat - 48) :: List.map (fun c => c.toNat - 48) r) : Nat) := by
        omega
      simp [h4, h5, hr]
    · have h4 : (2147483647 : Int)
          < (digitsValue 10 ((c.toNat - 48) :: List.map (fun c => c.toNat - 48) r) : Nat) := by
        omega
      simp [h4, hr]

theorem encodeRegister_digits_tail (cs t : List Char) (ln : Int) (h : IsDecDigits cs)
    (ht : ∀ c, t.head? = some c → ¬ (48 ≤ c.toNat ∧ c.toNat ≤ 57)) :
    encodeRegister (String.mk ('$' :: (cs ++ t))) ln
      = if decValue cs ≤ 31 then (REG_BINARY.getD (decValue cs) "00000", [])
        else if decValue cs ≤ 2147483647 then
          ("00000", [⟨ln, "register number out of range: " ++ String.mk ('$' :: (cs ++ t))⟩])
        else
          ("00000", [⟨ln, "invalid register \x27" ++ String.mk ('$' :: (cs ++ t)) ++ "\x27"⟩])
    := by
  have hs := stoi_digits_tail cs t h ht
  obtain ⟨c, r, rfl⟩ : ∃ c r, cs = c :: r := by
    rcases cs with _ | ⟨c, r⟩
    · exact absurd rfl h.1
    · exact ⟨c, r, rfl⟩
  have hlen : ¬ ((String.mk ('$' :: (c :: r ++ t))).length < 2) := by
    show ¬ (('$' :: (c :: r ++ t)).length < 2)
    simp
  have hsub : substrFrom (String.mk ('$' :: (c :: r ++ t))) 1 = String.mk (c :: r ++ t) := rfl
  unfold encodeRegister
  simp only [hlen, List.head?_cons, ne_eq, not_true_eq_false, or_self, if_false, hsub, hs]
  by_cases h31 : decValue (c :: r) ≤ 31
  · have h2 : decValue (c :: r) ≤ 2147483647 := by omega
    have h3 : ¬ (((decValue (c :: r) : Nat) : Int) < 0 ∨ ((decValue (c :: r) : Nat) : Int) > 31) := by
      omega
    simp [h31, h2, h3]
  · by_cases h2 : decValue (c :: r) ≤ 2147483647
    · have h3 : (((decValue (c :: r) : Nat) : Int) < 0 ∨ ((decValue (c :: r) : Nat) : Int) > 31) := by
        omega
      simp [h31, h2, h3, reportError]
    · simp [h31, h2, reportError]

/-- C19, as the code has it.  `encodeRegister` returns the 5-bit binary of `n` without
diagnostic when the operand is the sigil followed by decimal digits of a number `n` in
`[0,31]`, whether or not other characters follow the digits: `std::stoi` ignores what
comes after the digits.  It registers exactly one diagnostic and returns `00000` when
the digits denote a number above 31, when the operand is shorter than two characters
or does not begin with the sigil, and when `std::stoi` finds no number after the sigil.
Every operand falls in one of the two cases: accepted as the number `std::stoi` reads
after the sigil, or rejected with one diagnostic and the field `00000`. -/
theorem C19_register_operands :
    (∀ (cs t : List Char) (ln : Int), IsDecDigits cs →
      (∀ c, t.head? = some c → ¬ (48 ≤ c.toNat ∧ c.toNat ≤ 57)) → decValue cs ≤ 31 →
      encodeRegister (String.mk ('$' :: (cs ++ t))) ln
        = (REG_BINARY.getD (decValue cs) "00000", []) ∧
      IsField 5 (REG_BINARY.getD (decValue cs) "00000") (decValue cs)) ∧
    (∀ (cs t : List Char) (ln : Int), IsDecDigits cs →
      (∀ c, t.head? = some c → ¬ (48 ≤ c.toNat ∧ c.toNat ≤ 57)) → 31 < decValue cs →
      ∃ msg, encodeRegister (String.mk ('$' :: (cs ++ t))) ln = ("00000", [⟨ln, msg⟩])) ∧
    (∀ (operand : String) (ln : Int),
      operand.length < 2 ∨ operand.data.head? ≠ some '$' →
      encodeRegister operand ln
        = ("00000", [⟨ln, "invalid register \x27" ++ operand ++ "\x27"⟩])) ∧
    (∀ (operand : String) (ln : Int), stoi (substrFrom operand 1) = none →
      encodeRegister operand ln
        = ("00000", [⟨ln, "invalid register \x27" ++ operand ++ "\x27"⟩])) ∧
    (∀ (operand : String) (ln : Int),
      (∃ n : Int, 0 ≤ n ∧ n ≤ 31 ∧ operand.data.head? = some '$' ∧
        stoi (substrFrom operand 1) = some n ∧
        encodeRegister operand ln = (REG_BINARY.getD n.toNat "00000", []) ∧
        IsField 5 (REG_BINARY.getD n.toNat "00000") n.toNat) ∨
      (∃ msg, encodeRegister operand ln = ("00000", [⟨ln, msg⟩]))) ∧
    (encodeRegister "5" 1).2.length = 1 ∧ (encodeRegister "$" 1).2.length = 1 ∧
    (encodeRegister "$abc" 1).2.length = 1 ∧ (encodeRegister "$32" 1).2.length = 1 ∧
    (encodeRegister "$-1" 1).2.length = 1 := by
  refine ⟨?_, ?_, ?_, ?_, ?_, by decide, by decide, by decide, by decide, by decide⟩
  · intro cs t ln h ht h31
    rw [encodeRegister_digits_tail cs t ln h ht]
    simp only [h31, if_true]
    exact ⟨trivial, isField_regBinary _ h31⟩
  · intro cs t ln h ht h31
    rw [encodeRegister_digits_tail cs t ln h ht]
    have : ¬ decValue cs ≤ 31 := by omega
    by_cases h2 : decValue cs ≤ 2147483647
    · simp only [this, h2, if_false, if_true]
      exact ⟨_, rfl⟩
    · simp only [this, h2, if_false]
      exact ⟨_, rfl⟩
  · intro operand ln h
    unfold encodeRegister
    simp [h, reportError]
  · intro operand ln h
    unfold encodeRegister
    split
    · rfl
    · simp [h, reportError]
  · intro operand ln
    unfold encodeRegister
    split
    · exact Or.inr ⟨_, rfl⟩
    · rename_i hcond
      rcases hs : stoi (substrFrom operand 1) with _ | n
      · exact Or.inr ⟨_, rfl⟩
      · simp only
        split
        · exact Or.inr ⟨_, rfl⟩
        · rename_i hr
          have hh : operand.data.head? = some '$' := by
            by_contra hc
            exact hcond (Or.inr hc)
          exact Or.inl ⟨n, by omega, by omega, hh, rfl, rfl,
            isField_regBinary _ (by omega)⟩

/-- Witness of C19: `$17` and `$5abc` are both accepted, as registers 17 and 5. -/
theorem C19_register_operands_witness :
    encodeRegister "$17" 3 = ("10001", []) ∧ encodeRegister "$5abc" 3 = ("00101", []) :=
  ⟨(C19_register_operands.1 ['1', '7'] [] 3 (by decide) (by decide) (by decide)).1,
    (C19_register_operands.1 ['5'] ['a', 'b', 'c'] 3 (by decide) (by decide)
      (by decide)).1⟩

/-- C19, as stated, fails on `$5abc`: the operand is not the sigil followed by digits
only, yet `encodeRegister` registers no diagnostic and returns the field 00101 of
register 5, not 00000. -/
theorem C19_trailing_characters_accepted :
    encodeRegister "$5abc" 1 = ("00101", []) ∧
    ¬ (∃ cs, IsDecDigits cs ∧ "$5abc".data = '$' :: cs) ∧
    ¬ ((encodeRegister "$5abc" 1).1 = "00000" ∧ (encodeRegister "$5abc" 1).2 ≠ []) := by
  refine ⟨by decide, ?_, by decide⟩
  rintro ⟨cs, ⟨_, hall⟩, he⟩
  have hcs : cs = ['5', 'a', 'b', 'c'] := by
    have := List.cons.inj he
    exact this.2.symm
  have := hall 'a' (by rw [hcs]; simp)
  revert this
  decide

theorem stoi_sign_digits_tail (neg : Bool) (cs t : List Char) (h : IsDecDigits cs)
    (ht : ∀ c, t.head? = some c → ¬ (48 ≤ c.toNat ∧ c.toNat ≤ 57)) :
    stoi (String.mk ((if neg then '-' else '+') :: (cs ++ t)))
      = if neg then
          (if decValue cs ≤ 2147483648 then some (-((decValue cs : Nat) : Int)) else none)
        else (if decValue cs ≤ 2147483647 then some ((decValue cs : Nat) : Int) else none)
    := by
  obtain ⟨hne, hall⟩ := h
  rcases cs with _ | ⟨c, r⟩
  · exact absurd rfl hne
  · have h1 : List.dropWhile isSpace ((if neg then '-' else '+') :: (c :: r ++ t))
        = (if neg then '-' else '+') :: (c :: r ++ t) := by
      cases neg <;> simp [List.dropWhile, isSpace]
    have h2 : takeSign ((if neg then '-' else '+') :: (c :: r ++ t))
        = (neg, c :: r ++ t) := by
      cases neg <;> rfl
    have h3 : takeDigits decDigit (c :: r ++ t) = (c :: r).map (fun c => c.toNat - 48) := by
      rw [takeDigits_append decDigit (c :: r) t (fun x hx =>
        ⟨_, decDigit_of_digit x (hall x hx)⟩),
        takeDigits_map decDigit _ (c :: r) (fun x hx => decDigit_of_digit x (hall x hx)),
        takeDigits_of_head decDigit t (fun x hx => decDigit_eq_none x (ht x hx))]
      simp
    simp only [stoi, h1, h2, h3]
    simp only [List.map_cons, List.isEmpty_cons, Bool.false_eq_true, if_false]
    simp only [decValue, List.map_cons]
    generalize digitsValue 10 ((c.toNat - 48) :: List.map (fun c => c.toNat - 48) r) = m
    cases neg
    · by_cases hr : m ≤ 2147483647
      · have h4 : ¬ (2147483647 : Int) < (m : Nat) := by omega
        have h5 : ¬ ((m : Nat) : Int) < -2147483648 := by omega
        simp [h4, h5, hr]
      · have h4 : (2147483647 : Int) < (m : Nat) := by omega
        simp [h4, hr]
    · by_cases hr : m ≤ 2147483648
      · have h4 : ¬ (2147483647 : Int) < -((m : Nat) : Int) := by omega
        have h5 : ¬ -((m : Nat) : Int) < -2147483648 := by omega
        simp [h4, h5, hr]
      · have h5 : -((m : Nat) : Int) < -2147483648 := by omega
        simp [h5, hr]

theorem stoul16_hexDigits_tail (hs t : List Char) (h : IsHexDigits hs)
    (ht : ∀ c, t.head? = some c → ¬ isHexChar c ∧ c ≠ 'x' ∧ c ≠ 'X') :
    stoul16 (String.mk (hs ++ t))
      = if hexValue hs < 18446744073709551616 then some (hexValue hs) else none := by
  obtain ⟨hne, hall⟩ := h
  rcases hs with _ | ⟨c, r⟩
  · exact absurd rfl hne
  · have hc := hex_not_special c (hall c (List.mem_cons_self _ _))
    have h1 : List.dropWhile isSpace (c :: r ++ t) = c :: r ++ t := by
      simp [List.dropWhile, hc.1]
    have h2 : takeSign (c :: r ++ t) = (false, c :: r ++ t) :=
      takeSign_of_not_sign c (r ++ t) hc.2.1 hc.2.2.1
    have h3 : skipHexMark (c :: r ++ t) = c :: r ++ t := by
      unfold skipHexMark
      split
      · rename_i x d u heq
        have hx : x ≠ 'x' ∧ x ≠ 'X' := by
          have h0 := (List.cons.inj heq).2
          rcases r with _ | ⟨c2, r2⟩
          · have hh : t.head? = some x := by
              have h00 : t = x :: d :: u := h0
              rw [h00]
              rfl
            exact (ht x hh).2
          · have hxe : c2 = x := (List.cons.inj h0).1
            have hm : x ∈ c :: c2 :: r2 := by rw [← hxe]; simp
            have := hex_not_special x (hall x hm)
            exact ⟨this.2.2.2.1, this.2.2.2.2⟩
        simp [hx.1, hx.2, heq]
      · rfl
    have h4 : takeDigits hexDigit (c :: r ++ t)
        = (c :: r).map (fun c => if c.toNat ≤ 57 then c.toNat - 48
            else if 97 ≤ c.toNat then c.toNat - 87 else c.toNat - 55) := by
      rw [takeDigits_append hexDigit (c :: r) t (fun x hx =>
        ⟨_, hexDigit_of_hex x (hall x hx)⟩),
        takeDigits_map hexDigit _ (c :: r) (fun x hx => hexDigit_of_hex x (hall x hx)),
        takeDigits_of_head hexDigit t (fun x hx => by
          have hn := (ht x hx).1
          unfold isHexChar at hn
          unfold hexDigit
          have a1 : ¬ (48 ≤ x.toNat ∧ x.toNat ≤ 57) := fun a => hn (Or.inl a)
          have a2 : ¬ (97 ≤ x.toNat ∧ x.toNat ≤ 102) := fun a => hn (Or.inr (Or.inl a))
          have a3 : ¬ (65 ≤ x.toNat ∧ x.toNat ≤ 70) := fun a => hn (Or.inr (Or.inr a))
          simp [a1, a2, a3])]
      simp
    simp only [stoul16, h1, h2, h3, h4]
    simp only [List.map_cons, List.isEmpty_cons, Bool.false_eq_true, if_false]
    simp only [hexValue, List.map_cons]
    generalize digitsValue 16 ((if c.toNat ≤ 57 then c.toNat - 48
      else if 97 ≤ c.toNat then c.toNat - 87 else c.toNat - 55) ::
      List.map (fun c => if c.toNat ≤ 57 then c.toNat - 48
        else if 97 ≤ c.toNat then c.toNat - 87 else c.toNat - 55) r) = m
    by_cases hlt : m < 18446744073709551616
    · simp [hlt, Nat.not_le.mpr hlt]
    · simp [hlt, Nat.le_of_not_lt hlt]

theorem parsePseudoImmediate_branch (op : String) :
    parsePseudoImmediate op
      = if takesHexBranch op then
          (stoul16 (substrFrom op 2)).map (fun (n : Nat) => wrapInt32 (n : Int))
        else stoi op := by
  unfold parsePseudoImmediate
  by_cases h : takesHexBranch op
  · rw [if_pos h]
    exact if_pos h
  · rw [if_neg h]
    exact if_neg h

theorem digits_not_hexBranch (cs : List Char) (h : IsDecDigits cs) :
    ¬ takesHexBranch (String.mk cs) := by
  rintro ⟨_, _, e | e⟩
  · exact (digit_not_special _ (h.2 _ (List.getElem?_mem e))).2.2.2.1 rfl
  · exact (digit_not_special _ (h.2 _ (List.getElem?_mem e))).2.2.2.2 rfl

theorem parseImmediate_digits_tail (cs t : List Char) (ln : Int) (h : IsDecDigits cs)
    (ht : ∀ c, t.head? = some c → ¬ (48 ≤ c.toNat ∧ c.toNat ≤ 57))
    (hb : ¬ takesHexBranch (String.mk (cs ++ t))) :
    parseImmediate (String.mk (cs ++ t)) ln
      = if decValue cs ≤ 2147483647 then (((decValue cs : Nat) : Int), [])
        else (0, [⟨ln, "invalid immediate value \x27" ++ String.mk (cs ++ t) ++ "\x27"⟩]) := by
  rw [parseImmediate_eq, parsePseudoImmediate_branch, if_neg hb, stoi_digits_tail cs t h ht]
  by_cases hr : decValue cs ≤ 2147483647 <;> simp [hr, reportError]

theorem parseImmediate_sign_digits (neg : Bool) (cs t : List Char) (ln : Int)
    (h : IsDecDigits cs) (ht : ∀ c, t.head? = some c → ¬ (48 ≤ c.toNat ∧ c.toNat ≤ 57)) :
    parseImmediate (String.mk ((if neg then '-' else '+') :: (cs ++ t))) ln
      = if (if neg then decValue cs ≤ 2147483648 else decValue cs ≤ 2147483647) then
          ((if neg then -((decValue cs : Nat) : Int) else ((decValue cs : Nat) : Int)), [])
        else (0, [⟨ln, "invalid immediate value \x27"
          ++ String.mk ((if neg then '-' else '+') :: (cs ++ t)) ++ "\x27"⟩]) := by
  have hb : ¬ takesHexBranch (String.mk ((if neg then '-' else '+') :: (cs ++ t))) := by
    rintro ⟨_, h0, _⟩
    cases neg <;> simp at h0
  rw [parseImmediate_eq, parsePseudoImmediate_branch, if_neg hb,
    stoi_sign_digits_tail neg cs t h ht]
  cases neg
  · by_cases hr : decValue cs ≤ 2147483647 <;> simp [hr, reportError]
  · by_cases hr : decValue cs ≤ 2147483648 <;> simp [hr, reportError]

theorem parseImmediate_hex_tail (x : Char) (hx : x = 'x' ∨ x = 'X') (hs t : List Char)
    (ln : Int) (h : IsHexDigits hs)
    (ht : ∀ c, t.head? = some c → ¬ isHexChar c ∧ c ≠ 'x' ∧ c ≠ 'X') :
    parseImmediate (String.mk ('0' :: x :: (hs ++ t))) ln
      = if hexValue hs < 18446744073709551616 then
          (wrapInt32 ((hexValue hs : Nat) : Int), [])
        else (0, [⟨ln, "invalid immediate value \x27"
          ++ String.mk ('0' :: x :: (hs ++ t)) ++ "\x27"⟩]) := by
  obtain ⟨c, r, rfl⟩ : ∃ c r, hs = c :: r := by
    rcases hs with _ | ⟨c, r⟩
    · exact absurd rfl h.1
    · exact ⟨c, r, rfl⟩
  have hb : takesHexBranch (String.mk ('0' :: x :: (c :: r ++ t))) := by
    refine ⟨?_, rfl, ?_⟩
    · show ('0' :: x :: (c :: r ++ t)).length > 2
      simp
    · rcases hx with rfl | rfl <;> simp
  have hsub : substrFrom (String.mk ('0' :: x :: (c :: r ++ t))) 2 = String.mk (c :: r ++ t) :=
    rfl
  rw [parseImmediate_eq, parsePseudoImmediate_branch, if_pos hb, hsub,
    stoul16_hexDigits_tail (c :: r) t h ht]
  by_cases hr : hexValue (c :: r) < 18446744073709551616 <;> simp [hr, reportError]

/-- C20, as the code has it.  `parseImmediate` returns the value, without diagnostic,
of a decimal literal (digits, with or without a sign before them) that fits an `int`
and of a `0x`/`0X` literal of hexadecimal digits below `2^64`, this one reduced to
32 bits.  It returns the same when other characters follow the number, since
`std::stoi` and `std::stoul` ignore them, as long as the characters after the digits do
not begin with a digit (for a `0x` literal: with a hexadecimal digit or an `x`) and an
unsigned decimal does not pass for a `0x` literal.  It registers one invalid-immediate
diagnostic and returns 0 for a decimal literal outside `int` and a `0x` literal of
`2^64` or more, and for `abc`, `0xZZ` and the empty string.  Every operand falls in one
of the two cases: a value without diagnostic, or 0 with the diagnostic. -/
theorem C20_immediate_operands :
    (∀ (cs t : List Char) (ln : Int), IsDecDigits cs →
      (∀ c, t.head? = some c → ¬ (48 ≤ c.toNat ∧ c.toNat ≤ 57)) →
      ¬ takesHexBranch (String.mk (cs ++ t)) → decValue cs ≤ 2147483647 →
      parseImmediate (String.mk (cs ++ t)) ln = (((decValue cs : Nat) : Int), [])) ∧
    (∀ (cs : List Char), IsDecDigits cs → ¬ takesHexBranch (String.mk (cs ++ []))) ∧
    (∀ (cs t : List Char) (ln : Int), IsDecDigits cs →
      (∀ c, t.head? = some c → ¬ (48 ≤ c.toNat ∧ c.toNat ≤ 57)) →
      decValue cs ≤ 2147483648 →
      parseImmediate (String.mk ('-' :: (cs ++ t))) ln = (-((decValue cs : Nat) : Int), [])) ∧
    (∀ (cs t : List Char) (ln : Int), IsDecDigits cs →
      (∀ c, t.head? = some c → ¬ (48 ≤ c.toNat ∧ c.toNat ≤ 57)) →
      decValue cs ≤ 2147483647 →
      parseImmediate (String.mk ('+' :: (cs ++ t))) ln = (((decValue cs : Nat) : Int), [])) ∧
    (∀ (x : Char) (hs t : List Char) (ln : Int), x = 'x' ∨ x = 'X' → IsHexDigits hs →
      (∀ c, t.head? = some c → ¬ isHexChar c ∧ c ≠ 'x' ∧ c ≠ 'X') →
      hexValue hs < 2 ^ 64 →
      parseImmediate (String.mk ('0' :: x :: (hs ++ t))) ln
        = (wrapInt32 ((hexValue hs : Nat) : Int), [])) ∧
    (∀ (cs : List Char) (ln : Int), IsDecDigits cs → 2147483647 < decValue cs →
      parseImmediate (String.mk cs) ln
        = (0, [⟨ln, "invalid immediate value \x27" ++ String.mk cs ++ "\x27"⟩])) ∧
    (∀ (x : Char) (hs : List Char) (ln : Int), x = 'x' ∨ x = 'X' → IsHexDigits hs →
      2 ^ 64 ≤ hexValue hs →
      parseImmediate (String.mk ('0' :: x :: hs)) ln
        = (0, [⟨ln, "invalid immediate value \x27" ++ String.mk ('0' :: x :: hs)
            ++ "\x27"⟩])) ∧
    (∀ (operand : String) (ln : Int),
      (∃ v, parsePseudoImmediate operand = some v ∧ parseImmediate operand ln = (v, [])) ∨
      (parsePseudoImmediate operand = none ∧
        parseImmediate operand ln
          = (0, [⟨ln, "invalid immediate value \x27" ++ operand ++ "\x27"⟩]))) ∧
    parseImmediate "abc" 1 = (0, [⟨1, "invalid immediate value \x27abc\x27"⟩]) ∧
    parseImmediate "0xZZ" 1 = (0, [⟨1, "invalid immediate value \x270xZZ\x27"⟩]) ∧
    parseImmediate "" 1 = (0, [⟨1, "invalid immediate value \x27\x27"⟩]) := by
  refine ⟨?_, ?_, ?_, ?_, ?_, ?_, ?_, ?_, by decide, by decide, by decide⟩
  · intro cs t ln h ht hb hr
    rw [parseImmediate_digits_tail cs t ln h ht hb, if_pos hr]
  · intro cs h
    rw [List.append_nil]
    exact digits_not_hexBranch cs h
  · intro cs t ln h ht hr
    have := parseImmediate_sign_digits true cs t ln h ht
    simpa [hr] using this
  · intro cs t ln h ht hr
    have := parseImmediate_sign_digits false cs t ln h ht
    simpa [hr] using this
  · intro x hs t ln hx h ht hr
    have hr2 : hexValue hs < 18446744073709551616 := by simpa using hr
    rw [parseImmediate_hex_tail x hx hs t ln h ht, if_pos hr2]
  · intro cs ln h hr
    have h0 := parseImmediate_digits_tail cs [] ln h (by simp)
      (by rw [List.append_nil]; exact digits_not_hexBranch cs h)
    rw [List.append_nil] at h0
    rw [h0, if_neg (by omega)]
  · intro x hs ln hx h hr
    have hr2 : ¬ hexValue hs < 18446744073709551616 := by
      have : (2 : Nat) ^ 64 = 18446744073709551616 := by norm_num
      omega
    have h0 := parseImmediate_hex_tail x hx hs [] ln h (by simp)
    rw [List.append_nil] at h0
    rw [h0, if_neg hr2]
  · intro operand ln
    rw [parseImmediate_eq]
    rcases parsePseudoImmediate operand with _ | v
    · exact Or.inr ⟨rfl, rfl⟩
    · exact Or.inl ⟨v, rfl, rfl⟩

/-- Witness of C20: `-42` is read as -42, `0x1F` as 31, and `12abc` as 12, each
without diagnostic. -/
theorem C20_immediate_operands_witness :
    parseImmediate "-42" 2 = (-42, []) ∧ parseImmediate "0x1F" 2 = (31, []) ∧
    parseImmediate "12abc" 2 = (12, []) := by
  have h1 := C20_immediate_operands.2.2.1 ['4', '2'] [] 2 (by decide) (by decide)
    (by decide)
  have h2 := C20_immediate_operands.2.2.2.2.1 'x' ['1', 'F'] [] 2 (by decide) (by decide)
    (by decide) (by decide)
  have h3 := C20_immediate_operands.1 ['1', '2'] ['a', 'b', 'c'] 2 (by decide) (by decide)
    (by decide) (by decide)
  exact ⟨h1.trans (by decide), h2.trans (by decide), h3.trans (by decide)⟩

/-- C20, as stated, fails on `12abc` and on `0x`: neither is a decimal literal or a
`0x` literal with digits, yet `parseImmediate` registers no diagnostic on them; on
`12abc` it returns 12, not 0. -/
theorem C20_trailing_characters_accepted :
    parseImmediate "12abc" 1 = (12, []) ∧ parseImmediate "0x" 1 = (0, []) ∧
    ¬ IsDecDigits "12abc".data ∧ ¬ IsDecDigits "0x".data ∧
    ¬ (∃ x hs, IsHexDigits hs ∧ "0x".data = '0' :: x :: hs) ∧
    ¬ ((parseImmediate "12abc" 1).1 = 0 ∧ (parseImmediate "12abc" 1).2 ≠ []) := by
  refine ⟨by decide, by decide, by decide, by decide, ?_, by decide⟩
  rintro ⟨x, hs, ⟨hne, _⟩, he⟩
  have h1 := (List.cons.inj he).2
  have h2 := (List.cons.inj h1).2
  exact hne h2.symm

/-! ## The memory-initialization text -/

theorem mifContentLoop_eq (encoded : List EncodedInst) (i : Nat) :
    mifContentLoop encoded i
      = concatAll ((List.enumFrom i (encoded.take (256 - i))).map
          (fun p => mifContentLine p.1 p.2)) := by
  induction encoded generalizing i with
  | nil => simp [mifContentLoop, concatAll]
  | cons e rest ih =>
    rw [mifContentLoop]
    by_cases h : i < 256
    · have hk : 256 - i = (256 - (i + 1)) + 1 := by omega
      rw [if_pos h, ih (i + 1), hk, List.take_succ_cons, List.enumFrom_cons, List.map_cons,
        concatAll]
    · have hk : 256 - i = 0 := by omega
      rw [if_neg h, hk]
      simp [concatAll]

set_option maxRecDepth 100000 in
theorem hexPad3_facts (i : Nat) (hi : i ≤ 255) :
    (hexPad3 i).data.length = 3 ∧ hexValue (hexPad3 i).data = i ∧
      IsHexDigits (hexPad3 i).data := by
  have hall : ∀ k ∈ List.range 256,
      (hexPad3 k).data.length = 3 ∧ hexValue (hexPad3 k).data = k ∧
        IsHexDigits (hexPad3 k).data := by decide
  exact hall i (List.mem_range.mpr (by omega))

/-- C18. The text of `writeMIF`.  For every sequence of encoded instructions the text
is the header, then one content line for each of the first 256 instructions, in order,
the line of index `i` made of the address `i` and the hex value of the instruction of
index `i` (and its rawText as a comment when not empty), then, when there are fewer
than 256 instructions, one compressed line from the number of instructions to `0ff`
with the value 00000000, then the terminator.  There are `min(n, 256)` content lines;
an address up to 255 is printed as 3 hexadecimal digits that read back as the
address. -/
theorem C18_mif_text (encoded : List EncodedInst) :
    writeMIF encoded
      = mifHeader
        ++ concatAll ((encoded.take 256).enum.map (fun p => mifContentLine p.1 p.2))
        ++ (if encoded.length < 256 then mifFillLine encoded.length else "")
        ++ "\nEND;" ∧
    ((encoded.take 256).enum.map (fun p => mifContentLine p.1 p.2)).length
      = min encoded.length 256 ∧
    (∀ (i : Nat) (e : EncodedInst),
      mifContentLine i e
        = "   " ++ hexPad3 i ++ "  :   " ++ e.hex ++ ";"
          ++ (if e.rawText ≠ "" then "  -- " ++ e.rawText else "") ++ "\n") ∧
    (∀ i, i ≤ 255 → (hexPad3 i).data.length = 3 ∧ hexValue (hexPad3 i).data = i ∧
      IsHexDigits (hexPad3 i).data) ∧
    (∀ n, mifFillLine n = "   [" ++ hexPad3 n ++ "..0ff]  :   00000000;\n") ∧
    (256 ≤ encoded.length →
      writeMIF encoded
        = mifHeader
          ++ concatAll ((encoded.take 256).enum.map (fun p => mifContentLine p.1 p.2))
          ++ "" ++ "\nEND;") := by
  have hmain : writeMIF encoded
      = mifHeader
        ++ concatAll ((encoded.take 256).enum.map (fun p => mifContentLine p.1 p.2))
        ++ (if encoded.length < 256 then mifFillLine encoded.length else "")
        ++ "\nEND;" := by
    have h := mifContentLoop_eq encoded 0
    unfold writeMIF
    rw [h]
    have e255 : hexPad3 255 = "0ff" := by decide
    simp only [mifHeader, mifFillLine, e255, List.enum, Nat.sub_zero]
    by_cases hn : encoded.length < 256
    · simp only [hn, if_true]
      simp only [String.append_assoc]
      rfl
    · simp only [hn, if_false]
      simp only [String.append_assoc]
      rfl
  refine ⟨hmain, ?_, fun _ _ => rfl, hexPad3_facts, fun _ => rfl, ?_⟩
  · simp [List.enum_length, Nat.min_comm]
  · intro hge
    rw [hmain, if_neg (by omega)]

/-- Witness of C18: one instruction gives one content line, for address 000, and one
compressed line covering 001 to 0ff. -/
theorem C18_mif_text_witness :
    writeMIF [⟨"00430820", "add $1, $2, $3"⟩]
      = "WIDTH=32;\nDEPTH=256;\n\nADDRESS_RADIX=HEX;\nDATA_RADIX=HEX;\n\nCONTENT BEGIN\n"
        ++ "   000  :   00430820;  -- add $1, $2, $3\n"
        ++ "   [001..0ff]  :   00000000;\n" ++ "\nEND;" :=
  (C18_mif_text [⟨"00430820", "add $1, $2, $3"⟩]).1.trans (by decide)

/-! ## Reading the encoded word back -/

theorem digitsValue_zeros (k : Nat) (ds : List Nat) :
    digitsValue 16 (List.replicate k 0 ++ ds) = digitsValue 16 ds := by
  induction k with
  | zero => rfl
  | succ k ih =>
    rw [List.replicate_succ, List.cons_append]
    unfold digitsValue at ih ⊢
    rw [List.foldl_cons]
    exact ih

theorem hexDigitsFuel_length_le (f n k : Nat) (hk : 1 ≤ k) (hn : n < 16 ^ k) :
    (hexDigitsFuel f n).length ≤ k := by
  induction f generalizing n k with
  | zero => simp [hexDigitsFuel]
  | succ f ih =>
    rw [hexDigitsFuel]
    split
    · simpa using hk
    · rename_i hge
      have hk2 : 2 ≤ k := by
        by_contra hc
        have : k = 1 := by omega
        subst this
        simp at hn
        omega
      obtain ⟨j, rfl⟩ : ∃ j, k = j + 1 := ⟨k - 1, by omega⟩
      have hdiv : n / 16 < 16 ^ j := by
        rw [Nat.div_lt_iff_lt_mul (by decide)]
        rw [pow_succ] at hn
        exact hn
      have := ih (n / 16) j (by omega) hdiv
      simp
      omega

theorem upper_hexChar (d : Nat) (hd : d < 16) :
    (if (toUpperC (hexChar d)).toNat ≤ 57 then (toUpperC (hexChar d)).toNat - 48
      else if 97 ≤ (toUpperC (hexChar d)).toNat then (toUpperC (hexChar d)).toNat - 87
      else (toUpperC (hexChar d)).toNat - 55) = d := by
  have hall : ∀ k ∈ List.range 16,
      (if (toUpperC (hexChar k)).toNat ≤ 57 then (toUpperC (hexChar k)).toNat - 48
        else if 97 ≤ (toUpperC (hexChar k)).toNat then (toUpperC (hexChar k)).toNat - 87
        else (toUpperC (hexChar k)).toNat - 55) = k := by decide
  exact hall d (List.mem_range.mpr hd)

theorem fmtHex8_readback (W : Nat) (hW : W < 4294967296) :
    (fmtHex8 W).data.length = 8 ∧ hexValue (fmtHex8 W).data = W := by
  have hlen : (hexLower W).length ≤ 8 :=
    hexDigitsFuel_length_le (W + 1) W 8 (by decide) (by norm_num; omega)
  have hval := digitsValue_hexDigitsFuel (W + 1) W
    (lt_of_lt_of_le (Nat.lt_pow_self (by decide) W)
      (Nat.pow_le_pow_right (by decide) (by omega)))
  have hchars := hexDigitsFuel_chars (W + 1) W
  have hmap : (hexLower W).map (fun c =>
      if (toUpperC c).toNat ≤ 57 then (toUpperC c).toNat - 48
      else if 97 ≤ (toUpperC c).toNat then (toUpperC c).toNat - 87
      else (toUpperC c).toNat - 55) = takeDigits hexDigit (hexLower W) := by
    rw [takeDigits_map hexDigit (fun c =>
      if (toUpperC c).toNat ≤ 57 then (toUpperC c).toNat - 48
      else if 97 ≤ (toUpperC c).toNat then (toUpperC c).toNat - 87
      else (toUpperC c).toNat - 55) (hexLower W)]
    intro c hc
    obtain ⟨d, hd, rfl⟩ := hchars c hc
    rw [(hexChar_facts d hd).1, upper_hexChar d hd]
  refine ⟨?_, ?_⟩
  · simp [fmtHex8]
    omega
  · have hz : (if (toUpperC '0').toNat ≤ 57 then (toUpperC '0').toNat - 48
        else if 97 ≤ (toUpperC '0').toNat then (toUpperC '0').toNat - 87
        else (toUpperC '0').toNat - 55) = 0 := by decide
    simp only [fmtHex8, hexValue, List.map_append, List.map_map, List.map_replicate,
      Function.comp_def, hz]
    rw [digitsValue_zeros]
    have hmap2 := hmap
    unfold hexLower at hmap2 ⊢
    rw [hmap2]
    exact hval

theorem binVal_lt (cs : List Char) : binVal cs < 2 ^ cs.length := by
  induction cs using List.reverseRecOn with
  | nil => simp [binVal]
  | append_singleton cs c ih =>
    rw [binVal_append]
    have h1 : binVal [c] ≤ 1 := by
      unfold binVal
      simp only [List.foldl_cons, List.foldl_nil]
      split <;> omega
    simp only [List.length_append, List.length_singleton, pow_succ, pow_one]
    omega

theorem opcodeOf_lt {m : String} {d : InstructionDef} (h : findInstruction m = some d) :
    opcodeOf d < 64 := by
  have hf := isField_opcode h
  have := binVal_lt d.opcode.data
  rw [hf.1] at this
  exact this

theorem functOf_lt {m : String} {d : InstructionDef} (h : findInstruction m = some d)
    (hp : d.pattern = .R_DST_SRC_TMP ∨ d.pattern = .R_DST_TMP_SHAMT ∨
      d.pattern = .R_SRC_ONLY) : functOf d < 64 := by
  have hf := isField_funct h hp
  have := binVal_lt d.funct.data
  rw [hf.1] at this
  exact this

theorem readsBack_of {labels : LabelTable} {address : Int} {line : ParsedLine} {W : Nat}
    (h : EncodesAs labels address line W []) (hW : W < 4294967296) :
    ReadsBack labels address line W :=
  ⟨h, fmtHex8_readback W hW⟩

theorem encodesAs_only (m : String) (d : InstructionDef) (rs : Nat) (more : List String)
    (ln : Int) (raw label : String) (labels : LabelTable) (address : Int)
    (hf : findInstruction m = some d) (hp : d.pattern = .R_SRC_ONLY) (hs : rs ≤ 31) :
    EncodesAs labels address ⟨ln, raw, label, m, regName rs :: more⟩
      (opcodeOf d * 2 ^ 26 + rs * 2 ^ 21 + functOf d) [] := by
  have fs := encodeRegister_regName rs hs ln
  have fo := isField_opcode hf
  have ff := isField_funct hf (Or.inr (Or.inr hp))
  refine encodesAs_of (d := d) hf (by simp [hp, expectedOperandCount]) ?_
    ((((fo.append fs.2).append isField_zeros15).append ff).cast rfl (by ring))
  simp [encodeInstruction, hp, fs.1]

theorem encodesAs_immTriple (m : String) (d : InstructionDef) (rt rs : Nat) (imm : String)
    (v : Int) (more : List String) (ln : Int) (raw label : String) (labels : LabelTable)
    (address : Int) (hf : findInstruction m = some d) (hp : d.pattern = .I_TMP_SRC_IMM)
    (ht : rt ≤ 31) (hs : rs ≤ 31) (hv : parseImmediate imm ln = (v, [])) :
    EncodesAs labels address ⟨ln, raw, label, m, regName rt :: regName rs :: imm :: more⟩
      (opcodeOf d * 2 ^ 26 + rs * 2 ^ 21 + rt * 2 ^ 16 + (v % 2 ^ 16).toNat) [] := by
  have ft := encodeRegister_regName rt ht ln
  have fs := encodeRegister_regName rs hs ln
  have fo := isField_opcode hf
  have fv := isField_encodeImmediate16 v
  refine encodesAs_of (d := d) hf (by simp [hp, expectedOperandCount]) ?_
    ((((fo.append fs.2).append ft.2).append fv).cast rfl (by norm_num; ring))
  simp [encodeInstruction, hp, fs.1, ft.1, hv]

theorem encodesAs_immPair (m : String) (d : InstructionDef) (rt : Nat) (imm : String)
    (v : Int) (more : List String) (ln : Int) (raw label : String) (labels : LabelTable)
    (address : Int) (hf : findInstruction m = some d) (hp : d.pattern = .I_TMP_IMM)
    (ht : rt ≤ 31) (hv : parseImmediate imm ln = (v, [])) :
    EncodesAs labels address ⟨ln, raw, label, m, regName rt :: imm :: more⟩
      (opcodeOf d * 2 ^ 26 + 0 * 2 ^ 21 + rt * 2 ^ 16 + (v % 2 ^ 16).toNat) [] := by
  have ft := encodeRegister_regName rt ht ln
  have fo := isField_opcode hf
  have fv := isField_encodeImmediate16 v
  refine encodesAs_of (d := d) hf (by simp [hp, expectedOperandCount]) ?_
    ((((fo.append isField_zeros5).append ft.2).append fv).cast rfl (by norm_num; ring))
  simp [encodeInstruction, hp, ft.1, hv]

theorem encodesAs_offset (m : String) (d : InstructionDef) (rt rs : Nat) (off : String)
    (v : Int) (more : List String) (ln : Int) (raw label : String) (labels : LabelTable)
    (address : Int) (hf : findInstruction m = some d) (hp : d.pattern = .I_TMP_OFF_SRC)
    (ht : rt ≤ 31) (hs : rs ≤ 31) (hv : parseImmediate off ln = (v, [])) :
    EncodesAs labels address ⟨ln, raw, label, m, regName rt :: off :: regName rs :: more⟩
      (opcodeOf d * 2 ^ 26 + rs * 2 ^ 21 + rt * 2 ^ 16 + (v % 2 ^ 16).toNat) [] := by
  have ft := encodeRegister_regName rt ht ln
  have fs := encodeRegister_regName rs hs ln
  have fo := isField_opcode hf
  have fv := isField_encodeImmediate16 v
  refine encodesAs_of (d := d) hf (by simp [hp, expectedOperandCount]) ?_
    ((((fo.append fs.2).append ft.2).append fv).cast rfl (by norm_num; ring))
  simp [encodeInstruction, hp, fs.1, ft.1, hv]

theorem encodesAs_branch (m : String) (d : InstructionDef) (rs rt : Nat)
    (labelName : String) (T A : Int) (more : List String) (ln : Int) (raw label : String)
    (labels : LabelTable) (hf : findInstruction m = some d)
    (hp : d.pattern = .I_SRC_TMP_LABEL) (hs : rs ≤ 31) (ht : rt ≤ 31)
    (hl : labels labelName = some T) :
    EncodesAs labels A ⟨ln, raw, label, m, regName rs :: regName rt :: labelName :: more⟩
      (opcodeOf d * 2 ^ 26 + rs * 2 ^ 21 + rt * 2 ^ 16
        + ((if T > A then (T - A) - 1 else -(A - T)) % 2 ^ 16).toNat) [] := by
  have fs := encodeRegister_regName rs hs ln
  have ft := encodeRegister_regName rt ht ln
  have fo := isField_opcode hf
  have fv := isField_encodeImmediate16 (branchOffset T A)
  rw [branchOffset_emod] at fv
  refine encodesAs_of (d := d) hf (by simp [hp, expectedOperandCount]) ?_
    ((((fo.append fs.2).append ft.2).append fv).cast rfl (by norm_num; ring))
  simp [encodeInstruction, hp, fs.1, ft.1, hl]

theorem encodesAs_jump (m : String) (d : InstructionDef) (labelName : String)
    (a address : Int) (more : List String) (ln : Int) (raw label : String)
    (labels : LabelTable) (hf : findInstruction m = some d) (hp : d.pattern = .J_LABEL)
    (hl : labels labelName = some a) (h0 : 0 ≤ a) (h1 : a < 67108864) :
    EncodesAs labels address ⟨ln, raw, label, m, labelName :: more⟩
      (opcodeOf d * 2 ^ 26 + a.toNat) [] := by
  have fo := isField_opcode hf
  have fv := isField_encodeImmediate26 a
  have e : (a % 67108864).toNat = a.toNat := by omega
  rw [e] at fv
  refine encodesAs_of (d := d) hf (by simp [hp, expectedOperandCount]) ?_
    ((fo.append fv).cast rfl rfl)
  simp [encodeInstruction, hp, hl]

theorem fields_register {op rs rt rd sh f : Nat} (ho : op < 64) (hs : rs ≤ 31)
    (ht : rt ≤ 31) (hd : rd ≤ 31) (hh : sh ≤ 31) (hf : f < 64) :
    op * 2 ^ 26 + rs * 2 ^ 21 + rt * 2 ^ 16 + rd * 2 ^ 11 + sh * 2 ^ 6 + f < 4294967296 ∧
    (op * 2 ^ 26 + rs * 2 ^ 21 + rt * 2 ^ 16 + rd * 2 ^ 11 + sh * 2 ^ 6 + f) / 2 ^ 26
      = op ∧
    (op * 2 ^ 26 + rs * 2 ^ 21 + rt * 2 ^ 16 + rd * 2 ^ 11 + sh * 2 ^ 6 + f) / 2 ^ 21 % 32
      = rs ∧
    (op * 2 ^ 26 + rs * 2 ^ 21 + rt * 2 ^ 16 + rd * 2 ^ 11 + sh * 2 ^ 6 + f) / 2 ^ 16 % 32
      = rt ∧
    (op * 2 ^ 26 + rs * 2 ^ 21 + rt * 2 ^ 16 + rd * 2 ^ 11 + sh * 2 ^ 6 + f) / 2 ^ 11 % 32
      = rd ∧
    (op * 2 ^ 26 + rs * 2 ^ 21 + rt * 2 ^ 16 + rd * 2 ^ 11 + sh * 2 ^ 6 + f) / 2 ^ 6 % 32
      = sh ∧
    (op * 2 ^ 26 + rs * 2 ^ 21 + rt * 2 ^ 16 + rd * 2 ^ 11 + sh * 2 ^ 6 + f) % 64 = f := by
  norm_num
  omega

theorem fields_immediate {op rs rt : Nat} {v : Int} (ho : op < 64) (hs : rs ≤ 31)
    (ht : rt ≤ 31) (h1 : -32768 ≤ v) (h2 : v ≤ 32767) :
    op * 2 ^ 26 + rs * 2 ^ 21 + rt * 2 ^ 16 + (v % 2 ^ 16).toNat < 4294967296 ∧
    (op * 2 ^ 26 + rs * 2 ^ 21 + rt * 2 ^ 16 + (v % 2 ^ 16).toNat) / 2 ^ 26 = op ∧
    (op * 2 ^ 26 + rs * 2 ^ 21 + rt * 2 ^ 16 + (v % 2 ^ 16).toNat) / 2 ^ 21 % 32 = rs ∧
    (op * 2 ^ 26 + rs * 2 ^ 21 + rt * 2 ^ 16 + (v % 2 ^ 16).toNat) / 2 ^ 16 % 32 = rt ∧
    signed16 ((op * 2 ^ 26 + rs * 2 ^ 21 + rt * 2 ^ 16 + (v % 2 ^ 16).toNat) % 65536)
      = v := by
  unfold signed16
  norm_num
  refine ⟨by omega, by omega, by omega, by omega, ?_⟩
  split <;> omega

/-- C15. Round trip.  For every mnemonic of the instruction table, whatever its operand
pattern, and every tuple of in-range operand values (register numbers in `[0,31]`, a
shift amount in `[0,31]`, an immediate or offset in `[-32768,32767]`, a branch offset in
that range, a jump address in `[0,2^26)`), the loop of `encode` emits without diagnostic
the 8-digit hex text of a word `W`, that text read back as a hexadecimal numeral is `W`,
and the fields of `W` at the positions and widths of the format are the opcode
(`W / 2^26`), the function code (`W % 64`), the registers (`W / 2^21 % 32`,
`W / 2^16 % 32`, `W / 2^11 % 32`), the shift amount (`W / 2^6 % 32`), the immediate,
offset or branch offset (`W % 2^16` read as 16-bit two's complement) and the jump address
(`W % 2^26`); fields the format leaves unused are zero. -/
theorem C15_round_trip (m : String) (d : InstructionDef) (ln : Int) (raw label : String)
    (labels : LabelTable) (A : Int) (more : List String)
    (hf : findInstruction m = some d) :
    (d.pattern = .R_DST_SRC_TMP → ∀ rd rs rt : Nat, rd ≤ 31 → rs ≤ 31 → rt ≤ 31 →
      ∃ W, ReadsBack labels A
          ⟨ln, raw, label, m, regName rd :: regName rs :: regName rt :: more⟩ W ∧
        W / 2 ^ 26 = opcodeOf d ∧ W / 2 ^ 21 % 32 = rs ∧ W / 2 ^ 16 % 32 = rt ∧
        W / 2 ^ 11 % 32 = rd ∧ W / 2 ^ 6 % 32 = 0 ∧ W % 64 = functOf d) ∧
    (d.pattern = .R_DST_TMP_SHAMT → ∀ (rd rt : Nat) (shamt : String) (v : Int),
      rd ≤ 31 → rt ≤ 31 → parseImmediate shamt ln = (v, []) → 0 ≤ v → v ≤ 31 →
      ∃ W, ReadsBack labels A
          ⟨ln, raw, label, m, regName rd :: regName rt :: shamt :: more⟩ W ∧
        W / 2 ^ 26 = opcodeOf d ∧ W / 2 ^ 21 % 32 = 0 ∧ W / 2 ^ 16 % 32 = rt ∧
        W / 2 ^ 11 % 32 = rd ∧ ((W / 2 ^ 6 % 32 : Nat) : Int) = v ∧ W % 64 = functOf d) ∧
    (d.pattern = .R_SRC_ONLY → ∀ rs : Nat, rs ≤ 31 →
      ∃ W, ReadsBack labels A ⟨ln, raw, label, m, regName rs :: more⟩ W ∧
        W / 2 ^ 26 = opcodeOf d ∧ W / 2 ^ 21 % 32 = rs ∧ W / 2 ^ 16 % 32 = 0 ∧
        W / 2 ^ 11 % 32 = 0 ∧ W / 2 ^ 6 % 32 = 0 ∧ W % 64 = functOf d) ∧
    (d.pattern = .I_TMP_SRC_IMM → ∀ (rt rs : Nat) (imm : String) (v : Int),
      rt ≤ 31 → rs ≤ 31 → parseImmediate imm ln = (v, []) → -32768 ≤ v → v ≤ 32767 →
      ∃ W, ReadsBack labels A
          ⟨ln, raw, label, m, regName rt :: regName rs :: imm :: more⟩ W ∧
        W / 2 ^ 26 = opcodeOf d ∧ W / 2 ^ 21 % 32 = rs ∧ W / 2 ^ 16 % 32 = rt ∧
        signed16 (W % 65536) = v) ∧
    (d.pattern = .I_TMP_IMM → ∀ (rt : Nat) (imm : String) (v : Int),
      rt ≤ 31 → parseImmediate imm ln = (v, []) → -32768 ≤ v → v ≤ 32767 →
      ∃ W, ReadsBack labels A ⟨ln, raw, label, m, regName rt :: imm :: more⟩ W ∧
        W / 2 ^ 26 = opcodeOf d ∧ W / 2 ^ 21 % 32 = 0 ∧ W / 2 ^ 16 % 32 = rt ∧
        signed16 (W % 65536) = v) ∧
    (d.pattern = .I_SRC_TMP_LABEL → ∀ (rs rt : Nat) (labelName : String) (T : Int),
      rs ≤ 31 → rt ≤ 31 → labels labelName = some T →
      -32768 ≤ (if T > A then (T - A) - 1 else -(A - T)) →
      (if T > A then (T - A) - 1 else -(A - T)) ≤ 32767 →
      ∃ W, ReadsBack labels A
          ⟨ln, raw, label, m, regName rs :: regName rt :: labelName :: more⟩ W ∧
        W / 2 ^ 26 = opcodeOf d ∧ W / 2 ^ 21 % 32 = rs ∧ W / 2 ^ 16 % 32 = rt ∧
        signed16 (W % 65536) = (if T > A then (T - A) - 1 else -(A - T))) ∧
    (d.pattern = .I_TMP_OFF_SRC → ∀ (rt rs : Nat) (off : String) (v : Int),
      rt ≤ 31 → rs ≤ 31 → parseImmediate off ln = (v, []) → -32768 ≤ v → v ≤ 32767 →
      ∃ W, ReadsBack labels A
          ⟨ln, raw, label, m, regName rt :: off :: regName rs :: more⟩ W ∧
        W / 2 ^ 26 = opcodeOf d ∧ W / 2 ^ 21 % 32 = rs ∧ W / 2 ^ 16 % 32 = rt ∧
        signed16 (W % 65536) = v) ∧
    (d.pattern = .J_LABEL → ∀ (labelName : String) (a : Int),
      labels labelName = some a → 0 ≤ a → a < 2 ^ 26 →
      ∃ W, ReadsBack labels A ⟨ln, raw, label, m, labelName :: more⟩ W ∧
        W / 2 ^ 26 = opcodeOf d ∧ ((W % 2 ^ 26 : Nat) : Int) = a) := by
  have ho := opcodeOf_lt hf
  refine ⟨?_, ?_, ?_, ?_, ?_, ?_, ?_, ?_⟩
  · intro hp rd rs rt hd hs ht
    have hfu := functOf_lt hf (Or.inl hp)
    have hx := fields_register ho hs ht hd (Nat.zero_le 31) hfu
    exact ⟨_, readsBack_of (encodesAs_triple m d rd rs rt more ln raw label labels A hf hp
      hd hs ht) hx.1, hx.2⟩
  · intro hp rd rt shamt v hd ht hv h0 h1
    have hfu := functOf_lt hf (Or.inr (Or.inl hp))
    have hsh : (v % 32).toNat ≤ 31 := by omega
    have hx := fields_register ho (Nat.zero_le 31) ht hd hsh hfu
    refine ⟨_, readsBack_of (encodesAs_shift m d rd rt shamt v more ln raw label labels A
      hf hp hd ht hv) hx.1, hx.2.1, hx.2.2.1, hx.2.2.2.1, hx.2.2.2.2.1, ?_, hx.2.2.2.2.2.2⟩
    rw [hx.2.2.2.2.2.1]
    omega
  · intro hp rs hs
    have hfu := functOf_lt hf (Or.inr (Or.inr hp))
    have hx := fields_register ho hs (Nat.zero_le 31) (Nat.zero_le 31) (Nat.zero_le 31) hfu
    have hE := encodesAs_only m d rs more ln raw label labels A hf hp hs
    have e : opcodeOf d * 2 ^ 26 + rs * 2 ^ 21 + functOf d
        = opcodeOf d * 2 ^ 26 + rs * 2 ^ 21 + 0 * 2 ^ 16 + 0 * 2 ^ 11 + 0 * 2 ^ 6
          + functOf d := by ring
    rw [e] at hE
    exact ⟨_, readsBack_of hE hx.1, hx.2⟩
  · intro hp rt rs imm v ht hs hv h1 h2
    have hx := fields_immediate ho hs ht h1 h2
    exact ⟨_, readsBack_of (encodesAs_immTriple m d rt rs imm v more ln raw label labels A
      hf hp ht hs hv) hx.1, hx.2⟩
  · intro hp rt imm v ht hv h1 h2
    have hx := fields_immediate ho (Nat.zero_le 31) ht h1 h2
    exact ⟨_, readsBack_of (encodesAs_immPair m d rt imm v more ln raw label labels A
      hf hp ht hv) hx.1, hx.2⟩
  · intro hp rs rt labelName T hs ht hl h1 h2
    have hx := fields_immediate ho hs ht h1 h2
    exact ⟨_, readsBack_of (encodesAs_branch m d rs rt labelName T A more ln raw label
      labels hf hp hs ht hl) hx.1, hx.2⟩
  · intro hp rt rs off v ht hs hv h1 h2
    have hx := fields_immediate ho hs ht h1 h2
    exact ⟨_, readsBack_of (encodesAs_offset m d rt rs off v more ln raw label labels A
      hf hp ht hs hv) hx.1, hx.2⟩
  · intro hp labelName a hl h0 h1
    have h1n : a < 67108864 := by simpa using h1
    have hE := encodesAs_jump m d labelName a A more ln raw label labels hf hp hl h0 h1n
    have hlt : opcodeOf d * 2 ^ 26 + a.toNat < 4294967296 := by norm_num; omega
    refine ⟨_, readsBack_of hE hlt, ?_, ?_⟩
    · norm_num; omega
    · norm_num; omega

/-- Witness of C15: `lw $8, -4($29)`, tokenized as operands `$8`, `-4`, `$29`, is emitted
at address 3 as `8FA8FFFC`; that text reads back as a word whose opcode field is 35, whose
register fields are 29 and 8 and whose low half is -4 in two's complement. -/
theorem C15_round_trip_witness :
    ∃ W, ReadsBack LabelTable.empty 3 ⟨5, "lw $8, -4($29)", "", "lw", ["$8", "-4", "$29"]⟩ W ∧
      fmtHex8 W = "8FA8FFFC" ∧
      W / 2 ^ 26 = 35 ∧ W / 2 ^ 21 % 32 = 29 ∧ W / 2 ^ 16 % 32 = 8 ∧
      signed16 (W % 65536) = -4 := by
  obtain ⟨W, h, h1, h2, h3, h4⟩ :=
    (C15_round_trip "lw" ⟨"100011", "", .I_TMP_OFF_SRC⟩ 5 "lw $8, -4($29)" ""
      LabelTable.empty 3 [] (by decide)).2.2.2.2.2.2.1 rfl 8 29 "-4" (-4) (by decide)
      (by decide) (by decide) (by decide) (by decide)
  have e : opcodeOf ⟨"100011", "", .I_TMP_OFF_SRC⟩ = 35 := by decide
  rw [e] at h1
  refine ⟨W, h, ?_, h1, h2, h3, h4⟩
  have hW : W = 0x8FA8FFFC := by
    unfold signed16 at h4
    split at h4 <;> omega
  rw [hW]
  decide

/-! ## The tokenizer, line by line -/

theorem findFirst_none {p : Char → Bool} {cs : List Char} (h : findFirst p cs = none) :
    cs.takeWhile (fun c => !p c) = cs ∧ ∀ c ∈ cs, p c = false := by
  induction cs with
  | nil => simp
  | cons x xs ih =>
    unfold findFirst at h
    by_cases hx : p x = true
    · simp [hx] at h
    · simp only [hx, Bool.false_eq_true, if_false, Option.map_eq_none'] at h
      have := ih h
      simp only [Bool.not_eq_true] at hx
      simp [List.takeWhile, hx, this.1]
      exact this.2

theorem findFirst_some {p : Char → Bool} {cs : List Char} {k : Nat}
    (h : findFirst p cs = some k) :
    cs.take k = cs.takeWhile (fun c => !p c) ∧ cs.drop k = cs.dropWhile (fun c => !p c) ∧
      ∃ c ∈ cs, p c = true := by
  induction cs generalizing k with
  | nil => simp [findFirst] at h
  | cons x xs ih =>
    unfold findFirst at h
    by_cases hx : p x = true
    · simp only [hx, if_true, Option.some.injEq] at h
      subst h
      simp [List.takeWhile, List.dropWhile, hx]
    · simp only [hx, Bool.false_eq_true, if_false, Option.map_eq_some'] at h
      obtain ⟨j, hj, rfl⟩ := h
      obtain ⟨h1, h2, c, hc, hpc⟩ := ih hj
      simp only [Bool.not_eq_true] at hx
      refine ⟨?_, ?_, c, List.mem_cons_of_mem _ hc, hpc⟩
      · simp [List.takeWhile, hx, h1]
      · simp [List.dropWhile, hx, h2]

theorem findFirst_isSome_iff {p : Char → Bool} {cs : List Char} :
    (∃ c ∈ cs, p c = true) ↔ ∃ k, findFirst p cs = some k := by
  constructor
  · rintro ⟨c, hc, hp⟩
    rcases h : findFirst p cs with _ | k
    · have := (findFirst_none h).2 c hc
      simp [hp] at this
    · exact ⟨k, rfl⟩
  · rintro ⟨k, h⟩
    exact (findFirst_some h).2.2

theorem dropWhile_head_not {p : Char → Bool} {l : List Char} {y : Char} {ys : List Char}
    (h : l.dropWhile p = y :: ys) : p y = false := by
  induction l with
  | nil => simp at h
  | cons a l ih =>
    by_cases ha : p a = true
    · simp only [List.dropWhile, ha] at h
      exact ih h
    · simp only [Bool.not_eq_true] at ha
      simp only [List.dropWhile, ha, List.cons.injEq] at h
      rw [← h.1]
      exact ha

theorem dropWhile_append_keep (p : Char → Bool) (l : List Char) (y : Char)
    (h : p y = false) : (l ++ [y]).dropWhile p = l.dropWhile p ++ [y] := by
  induction l with
  | nil => simp [List.dropWhile, h]
  | cons a l ih =>
    by_cases ha : p a = true
    · simp only [List.cons_append, List.dropWhile, ha]
      exact ih
    · simp only [Bool.not_eq_true] at ha
      simp only [List.cons_append, List.dropWhile, ha]
      rfl

theorem trimChars_head {cs : List Char} {x : Char} {xs : List Char}
    (h : trimChars cs = x :: xs) : isTrimChar x = false := by
  unfold trimChars at h
  rcases hd : cs.dropWhile isTrimChar with _ | ⟨y, ys⟩
  · rw [hd] at h
    simp at h
  · have hy := dropWhile_head_not hd
    rw [hd, List.reverse_cons, dropWhile_append_keep _ _ _ hy, List.reverse_append] at h
    simp only [List.reverse_cons, List.reverse_nil, List.nil_append, List.singleton_append,
      List.cons.injEq] at h
    rw [← h.1]
    exact hy

theorem firstToken_ne_nil {cs : List Char} (h : trimChars cs ≠ []) :
    toLower (String.mk (firstToken (trimChars cs))) ≠ "" := by
  rcases hc : trimChars cs with _ | ⟨x, xs⟩
  · exact absurd hc h
  · have hx := trimChars_head hc
    have hx2 : (x == ' ' || x == '\t') = false := by
      unfold isTrimChar at hx
      simp only [Bool.or_eq_false_iff] at hx ⊢
      exact ⟨hx.1.1.1, hx.1.1.2⟩
    intro he
    have := congrArg String.data he
    simp [toLower, firstToken, List.takeWhile, hx2] at this

theorem parseInstruction_facts (n : Int) (rawText label : String) (line : List Char) :
    (parseInstruction n rawText label line).lineNumber = n ∧
    (parseInstruction n rawText label line).rawText = rawText ∧
    (parseInstruction n rawText label line).label = label ∧
    (parseInstruction n rawText label line).mnemonic
      = toLower (String.mk (firstToken line)) := by
  unfold parseInstruction
  rcases h : findFirst (fun c => c == ' ' || c == '\t') line with _ | k
  · have := (findFirst_none h).1
    simp only [firstToken]
    rw [this]
    simp
  · have := (findFirst_some h).1
    simp only [firstToken, substr, List.drop_zero]
    rw [this]
    simp

theorem commentStripped (raw : List Char) :
    (match findFirst (fun c => c == '#') raw with
      | some commentPos => substr raw 0 commentPos
      | none => raw) = stripComment raw := by
  rcases h : findFirst (fun c => c == '#') raw with _ | k
  · exact (findFirst_none h).1.symm
  · simp only [substr, List.drop_zero]
    exact (findFirst_some h).1

theorem mem_colon_iff (cs : List Char) :
    ':' ∈ cs ↔ ∃ k, findFirst (fun c => c == ':') cs = some k := by
  rw [← findFirst_isSome_iff]
  constructor
  · intro h
    exact ⟨':', h, by simp⟩
  · rintro ⟨c, hc, hp⟩
    have : c = ':' := by simpa using hp
    rw [← this]
    exact hc

theorem tokenizeLine_none (n : Int) (raw : List Char) (h : strippedLine raw = []) :
    tokenizeLine n raw = none := by
  unfold tokenizeLine
  simp only [commentStripped]
  unfold strippedLine at h
  simp [h]

theorem tokenizeLine_some (n : Nat) (raw : List Char) (h : strippedLine raw ≠ []) :
    ∃ rec, tokenizeLine (n : Int) raw = some rec ∧ IsRecordOf n raw rec := by
  unfold tokenizeLine
  simp only [commentStripped]
  have hl : trimChars (stripComment raw) = strippedLine raw := rfl
  simp only [hl, h, if_false]
  rcases hc : findFirst (fun c => c == ':') (strippedLine raw) with _ | k
  · have hno : ':' ∉ strippedLine raw := by
      rw [mem_colon_iff]
      rintro ⟨k, hk⟩
      rw [hc] at hk
      exact Option.noConfusion hk
    have hp := parseInstruction_facts n (String.mk (trimChars raw)) "" (strippedLine raw)
    refine ⟨_, rfl, hp.1, hp.2.1, fun hm => absurd hm hno, fun _ => ⟨hp.2.2.1, hp.2.2.2, ?_⟩⟩
    rw [hp.2.2.2]
    exact firstToken_ne_nil h
  · have hyes : ':' ∈ strippedLine raw := (mem_colon_iff _).2 ⟨k, hc⟩
    have hs := findFirst_some hc
    have hb : substr (strippedLine raw) 0 k = beforeColon (strippedLine raw) := by
      simp only [substr, List.drop_zero]
      exact hs.1
    have ha : trimChars ((strippedLine raw).drop (k + 1)) = afterColon (strippedLine raw) := by
      unfold afterColon
      rw [← hs.2.1, List.drop_drop]
    simp only [hb, ha]
    by_cases he : afterColon (strippedLine raw) = []
    · simp only [he, if_true]
      exact ⟨_, rfl, rfl, rfl, fun _ => ⟨rfl, fun _ => ⟨rfl, rfl⟩, fun hne => absurd he hne⟩,
        fun hno => absurd hyes hno⟩
    · simp only [he, if_false]
      have hp := parseInstruction_facts n (String.mk (trimChars raw))
        (String.mk (trimChars (beforeColon (strippedLine raw)))) (afterColon (strippedLine raw))
      refine ⟨_, rfl, hp.1, hp.2.1, fun _ => ⟨hp.2.2.1, fun h0 => absurd h0 he,
        fun _ => ⟨hp.2.2.2, ?_⟩⟩, fun hno => absurd hyes hno⟩
      rw [hp.2.2.2]
      exact firstToken_ne_nil he

theorem tokenizeLoop_acc (ls : List (List Char)) (k : Int) (acc : List ParsedLine) :
    tokenizeLoop ls k acc = acc ++ tokenizeLoop ls k [] := by
  induction ls generalizing k acc with
  | nil => simp [tokenizeLoop]
  | cons raw rest ih =>
    unfold tokenizeLoop
    rcases tokenizeLine (k + 1) raw with _ | parsed
    · exact ih (k + 1) acc
    · simp only [List.nil_append]
      rw [ih (k + 1) (acc ++ [parsed]), ih (k + 1) [parsed], List.append_assoc]

theorem tokenizeLoop_cons (raw : List Char) (rest : List (List Char)) (j : Nat) :
    (strippedLine raw = [] →
      tokenizeLoop (raw :: rest) (j : Int) [] = tokenizeLoop rest ((j + 1 : Nat) : Int) []) ∧
    (strippedLine raw ≠ [] → ∃ rec, IsRecordOf (j + 1) raw rec ∧
      tokenizeLoop (raw :: rest) (j : Int) []
        = rec :: tokenizeLoop rest ((j + 1 : Nat) : Int) []) := by
  have hc : ((j : Int) + 1) = ((j + 1 : Nat) : Int) := by push_cast; rfl
  constructor
  · intro h
    rw [tokenizeLoop, hc, tokenizeLine_none _ raw h]
  · intro h
    obtain ⟨rec, h1, h2⟩ := tokenizeLine_some (j + 1) raw h
    refine ⟨rec, h2, ?_⟩
    rw [tokenizeLoop, hc, h1]
    simp only [List.nil_append]
    rw [tokenizeLoop_acc]
    rfl

theorem tokenizeLoop_records (ls : List (List Char)) (j : Nat) :
    List.Forall₂ (fun (p : Nat × List Char) rec => IsRecordOf (p.1 + 1) p.2 rec)
      ((ls.enumFrom j).filter (fun p => strippedLine p.2 != []))
      (tokenizeLoop ls (j : Int) []) := by
  induction ls generalizing j with
  | nil => simp [tokenizeLoop]
  | cons raw rest ih =>
    have hc := tokenizeLoop_cons raw rest j
    by_cases h : strippedLine raw = []
    · rw [hc.1 h, List.enumFrom_cons, List.filter_cons]
      simp only [h, bne_self_eq_false, Bool.false_eq_true, if_false]
      exact ih (j + 1)
    · obtain ⟨rec, h1, h2⟩ := hc.2 h
      have hb : (strippedLine raw != []) = true := by simpa using h
      rw [h2, List.enumFrom_cons, List.filter_cons]
      simp only [hb, if_true]
      exact List.Forall₂.cons h1 (ih (j + 1))

theorem tokenizeLoop_numbers (ls : List (List Char)) (j : Nat) :
    (∀ rec ∈ tokenizeLoop ls (j : Int) [], (j : Int) < rec.lineNumber) ∧
    List.Pairwise (fun a b : Int => a < b)
      ((tokenizeLoop ls (j : Int) []).map (fun rec => rec.lineNumber)) := by
  induction ls generalizing j with
  | nil => simp [tokenizeLoop]
  | cons raw rest ih =>
    have hc := tokenizeLoop_cons raw rest j
    obtain ⟨ih1, ih2⟩ := ih (j + 1)
    by_cases h : strippedLine raw = []
    · rw [hc.1 h]
      refine ⟨fun rec hr => ?_, ih2⟩
      have := ih1 rec hr
      push_cast at this
      omega
    · obtain ⟨rec, h1, h2⟩ := hc.2 h
      rw [h2]
      have hn : rec.lineNumber = ((j + 1 : Nat) : Int) := h1.1
      constructor
      · intro r hr
        rcases List.mem_cons.1 hr with rfl | hr
        · rw [hn]; push_cast; omega
        · have := ih1 r hr
          push_cast at this
          omega
      · rw [List.map_cons, List.pairwise_cons]
        refine ⟨fun b hb => ?_, ih2⟩
        obtain ⟨r, hr, rfl⟩ := List.mem_map.1 hb
        rw [hn]
        exact ih1 r hr

/-- C17. Physical lines, labels and mnemonics.  For every input text, `tokenize` registers
no diagnostic and its records stand, one for one and in order, for the physical lines
(the segments `std::getline` reads) that are not empty once everything from the first `#`
on is removed and the rest trimmed of spaces, tabs, carriage returns and newlines; the
other lines give no record.  The record of the line of 1-based index n has lineNumber n,
so the lineNumbers are strictly increasing.  When the stripped line has a colon, the label
is the trimmed text before the first colon, and with nothing but trimmed characters after
that colon the mnemonic and the operands are empty; otherwise the mnemonic is the
lowercased first token (up to the first space or tab) of what follows the colon, or of the
stripped line when it has no colon, and it is not empty. -/
theorem C17_tokenize_lines (filename text : String) :
    (tokenize filename (some text)).2 = [] ∧
    List.Forall₂ (fun (p : Nat × List Char) rec => IsRecordOf (p.1 + 1) p.2 rec)
      ((getLines text.data []).enum.filter (fun p => strippedLine p.2 != []))
      (tokenize filename (some text)).1 ∧
    List.Pairwise (fun a b : Int => a < b)
      ((tokenize filename (some text)).1.map (fun rec => rec.lineNumber)) := by
  refine ⟨rfl, ?_, ?_⟩
  · exact tokenizeLoop_records (getLines text.data []) 0
  · exact (tokenizeLoop_numbers (getLines text.data []) 0).2

/-- Witness of C17: a text of five physical lines, of which a comment line and a line of
blanks give no record; the records carry the line numbers 2, 3 and 5, the label-only line
has an empty mnemonic, and `ADD` is lowercased. -/
theorem C17_tokenize_lines_witness :
    (tokenize "p.s" (some "# demo\nloop:\n  x: ADD $1, $2, $3 # sum\n \t\r\nnop")).1
      = [⟨2, "loop:", "loop", "", []⟩,
         ⟨3, "x: ADD $1, $2, $3 # sum", "x", "add", ["$1", "$2", "$3"]⟩,
         ⟨5, "nop", "", "nop", []⟩] ∧
    List.Pairwise (fun a b : Int => a < b)
      ((tokenize "p.s" (some "# demo\nloop:\n  x: ADD $1, $2, $3 # sum\n \t\r\nnop")).1.map
        (fun rec => rec.lineNumber)) :=
  ⟨by decide,
    (C17_tokenize_lines "p.s" "# demo\nloop:\n  x: ADD $1, $2, $3 # sum\n \t\r\nnop").2.2⟩

/-! ## The operand list -/

theorem balance_snoc (cur : List Char) (c : Char) :
    (if c = ')' then (if c = '(' then balance cur + 1 else balance cur) - 1
      else (if c = '(' then balance cur + 1 else balance cur)) = balance (cur ++ [c]) := by
  unfold balance
  simp only [List.count_append, List.count_singleton]
  by_cases h1 : c = '('
  · subst h1
    simp
    omega
  · by_cases h2 : c = ')'
    · subst h2
      simp
      omega
    · simp [h1, h2]

theorem balance_comma (cur : List Char) : balance (cur ++ [',']) = balance cur := by
  rw [← balance_snoc]
  simp

theorem joinCommas_cons (p : List Char) (ps : List (List Char)) (h : ps ≠ []) :
    joinCommas (p :: ps) = p ++ ',' :: joinCommas ps := by
  rcases ps with _ | ⟨q, qs⟩
  · exact absurd rfl h
  · rfl

theorem noTopComma_nil : NoTopComma [] := by
  intro a b h
  simp at h

theorem noTopComma_snoc {cur : List Char} {c : Char} (h : NoTopComma cur)
    (hc : c = ',' → balance cur ≠ 0) : NoTopComma (cur ++ [c]) := by
  intro a b hab
  rcases List.eq_nil_or_concat b with rfl | ⟨b1, x, rfl⟩
  · have e : cur ++ [c] = a ++ [','] := hab
    have := List.append_inj' e rfl
    rw [← this.1]
    exact hc (by simpa using this.2)
  · have e : cur ++ [c] = (a ++ ',' :: b1) ++ [x] := by
      rw [hab]
      simp
    have := List.append_inj' e rfl
    exact h a b1 this.1

theorem splitStep_cut (ops : List String) (cur : List Char) (h : balance cur = 0) :
    splitStep ⟨ops, cur, balance cur⟩ ','
      = ⟨ops ++ [String.mk (trimChars cur)], [], balance []⟩ := by
  have hb := balance_snoc cur ','
  rw [balance_comma] at hb
  simp only [splitStep, hb, h]
  simp [balance]

theorem splitStep_keep (ops : List String) (cur : List Char) (c : Char)
    (h : c = ',' → balance cur ≠ 0) :
    splitStep ⟨ops, cur, balance cur⟩ c = ⟨ops, cur ++ [c], balance (cur ++ [c])⟩ := by
  have hb := balance_snoc cur c
  simp only [splitStep, hb]
  have hn : ¬ (c = ',' ∧ balance (cur ++ [c]) = 0) := by
    rintro ⟨h1, h2⟩
    subst h1
    rw [balance_comma] at h2
    exact h rfl h2
  simp only [hn, if_false]

theorem splitLoop_spec (cs : List Char) :
    ∀ (ops : List String) (cur : List Char), NoTopComma cur →
      ∃ (pieces : List (List Char)) (last : List Char),
        cs.foldl splitStep ⟨ops, cur, balance cur⟩
          = ⟨ops ++ pieces.map (fun p => String.mk (trimChars p)), last, balance last⟩ ∧
        IsTopSplit (cur ++ cs) pieces last := by
  induction cs with
  | nil =>
    intro ops cur hcur
    refine ⟨[], cur, by simp, by simp [joinCommas], by simp, ?_⟩
    intro p hp
    have : p = cur := by simpa using hp
    rw [this]
    exact hcur
  | cons c cs ih =>
    intro ops cur hcur
    by_cases hc : c = ',' ∧ balance cur = 0
    · obtain ⟨rfl, hb⟩ := hc
      obtain ⟨pieces, last, h1, h2, h3, h4⟩ :=
        ih (ops ++ [String.mk (trimChars cur)]) [] noTopComma_nil
      refine ⟨cur :: pieces, last, ?_, ?_, ?_, ?_⟩
      · rw [List.foldl_cons, splitStep_cut ops cur hb, h1]
        simp
      · rw [List.cons_append, joinCommas_cons _ _ (by simp), h2]
        simp
      · intro p hp
        rcases List.mem_cons.1 hp with rfl | hp
        · exact hb
        · exact h3 p hp
      · intro p hp
        rw [List.cons_append] at hp
        rcases List.mem_cons.1 hp with rfl | hp
        · exact hcur
        · exact h4 p hp
    · have hk : c = ',' → balance cur ≠ 0 := fun h1 h2 => hc ⟨h1, h2⟩
      obtain ⟨pieces, last, h1, h2, h3, h4⟩ := ih ops (cur ++ [c]) (noTopComma_snoc hcur hk)
      refine ⟨pieces, last, ?_, ?_, h3, h4⟩
      · rw [List.foldl_cons, splitStep_keep ops cur c hk, h1]
      · rw [h2]
        simp

theorem splitOperands_spec (rest : List Char) :
    ∃ (pieces : List (List Char)) (last : List Char), IsTopSplit rest pieces last ∧
      splitOperands rest
        = (pieces ++ (if last = [] then [] else [last])).map
            (fun p => String.mk (trimChars p)) := by
  obtain ⟨pieces, last, h1, h2⟩ := splitLoop_spec rest [] [] noTopComma_nil
  have hb : (0 : Int) = balance [] := by simp [balance]
  refine ⟨pieces, last, by simpa using h2, ?_⟩
  unfold splitOperands
  rw [hb, h1]
  by_cases hl : last = []
  · simp [hl]
  · simp [hl]

theorem findFirst_append {p : Char → Bool} (a : List Char) (x : Char) (t : List Char)
    (ha : ∀ y ∈ a, p y = false) (hx : p x = true) :
    findFirst p (a ++ x :: t) = some a.length := by
  induction a with
  | nil => simp [findFirst, hx]
  | cons y a ih =>
    have hy : p y = false := ha y (List.mem_cons_self _ _)
    have e := ih (fun z hz => ha z (List.mem_cons_of_mem _ hz))
    rw [List.cons_append, findFirst]
    simp only [hy, Bool.false_eq_true, if_false, e, Option.map_some', List.length_cons]

theorem findFirst_split {p : Char → Bool} {cs : List Char} {k : Nat}
    (h : findFirst p cs = some k) :
    ∃ (a : List Char) (x : Char) (t : List Char), cs = a ++ x :: t ∧ a.length = k ∧
      p x = true ∧ ∀ y ∈ a, p y = false := by
  induction cs generalizing k with
  | nil => simp [findFirst] at h
  | cons y ys ih =>
    unfold findFirst at h
    by_cases hy : p y = true
    · simp only [hy, if_true, Option.some.injEq] at h
      exact ⟨[], y, ys, rfl, by simpa using h, hy, by simp⟩
    · simp only [hy, Bool.false_eq_true, if_false, Option.map_eq_some'] at h
      obtain ⟨j, hj, rfl⟩ := h
      obtain ⟨a, x, t, h1, h2, h3, h4⟩ := ih hj
      refine ⟨y :: a, x, t, by rw [h1]; rfl, by simp [h2], h3, ?_⟩
      intro z hz
      rcases List.mem_cons.1 hz with rfl | hz
      · simpa using hy
      · exact h4 z hz

theorem splitParen_split (op : String) (a b r : List Char)
    (h : op.data = a ++ '(' :: b ++ ')' :: r) (ha1 : '(' ∉ a) (ha2 : ')' ∉ a)
    (hb : ')' ∉ b) :
    splitParen op = [String.mk (trimChars a), String.mk (trimChars b)] := by
  have ho : findFirst (fun c => c == '(') op.data = some a.length := by
    rw [h, List.append_assoc]
    exact findFirst_append a '(' _ (fun y hy => by
      simp only [beq_eq_false_iff_ne, ne_eq]
      rintro rfl
      exact ha1 hy) (by simp)
  have hc : findFirst (fun c => c == ')') op.data = some (a ++ '(' :: b).length := by
    have e : op.data = (a ++ '(' :: b) ++ ')' :: r := by rw [h]
    rw [e]
    refine findFirst_append (a ++ '(' :: b) ')' r (fun y hy => ?_) (by simp)
    simp only [beq_eq_false_iff_ne, ne_eq]
    rintro rfl
    rcases List.mem_append.1 hy with hy | hy
    · exact ha2 hy
    · rcases List.mem_cons.1 hy with hy | hy
      · exact absurd hy (by decide)
      · exact hb hy
  unfold splitParen
  rw [ho, hc]
  have hlt : (a ++ '(' :: b).length > a.length := by simp
  simp only [hlt, if_true]
  have e1 : substr op.data 0 a.length = a := by
    rw [h, List.append_assoc]
    simp [substr]
  have e2 : substr op.data (a.length + 1) ((a ++ '(' :: b).length - a.length - 1) = b := by
    have e : op.data = (a ++ ['(']) ++ (b ++ ')' :: r) := by rw [h]; simp
    have hl : a.length + 1 = (a ++ ['(']).length := by simp
    have hn : (a ++ '(' :: b).length - a.length - 1 = b.length := by simp
    rw [e, hn, hl]
    unfold substr
    rw [List.drop_left]
    simp
  rw [e1, e2]

theorem splitParen_pass (op : String)
    (h : ∀ a b r : List Char, op.data = a ++ '(' :: b ++ ')' :: r → ')' ∈ a) :
    splitParen op = [op] := by
  unfold splitParen
  rcases ho : findFirst (fun c => c == '(') op.data with _ | o
  · rfl
  · rcases hc : findFirst (fun c => c == ')') op.data with _ | c
    · rfl
    · simp only
      by_cases hlt : c > o
      · exfalso
        obtain ⟨A, x, T, e1, l1, px, _⟩ := findFirst_split ho
        obtain ⟨B, y, R, e2, l2, py, hB⟩ := findFirst_split hc
        have hx : x = '(' := by simpa using px
        have hy : y = ')' := by simpa using py
        subst hx hy
        have e : A ++ '(' :: T = B ++ ')' :: R := by rw [← e1, e2]
        rcases List.append_eq_append_iff.1 e with ⟨a1, hB1, hT⟩ | ⟨c1, hA1, hR⟩
        · rcases a1 with _ | ⟨z, b⟩
          · simp at hT
          · have hz : z = '(' := by
              have := congrArg List.head? hT
              simpa using this.symm
            subst hz
            have hmem := h A b R (by rw [e2, hB1])
            have := hB ')' (by rw [hB1]; exact List.mem_append_left _ hmem)
            simp at this
        · have : A.length = B.length + c1.length := by rw [hA1]; simp
          omega
      · simp only [hlt, if_false]

theorem parseInstruction_operands (n : Int) (rawText label : String) (line : List Char) :
    ((∀ c ∈ line, c ≠ ' ' ∧ c ≠ '\t') →
      (parseInstruction n rawText label line).operands = []) ∧
    ((∃ c ∈ line, c = ' ' ∨ c = '\t') →
      (parseInstruction n rawText label line).operands
        = (splitOperands (trimChars (line.dropWhile (fun c => !(c == ' ' || c == '\t'))))).flatMap
            splitParen) := by
  unfold parseInstruction
  rcases h : findFirst (fun c => c == ' ' || c == '\t') line with _ | k
  · refine ⟨fun _ => rfl, ?_⟩
    rintro ⟨c, hc, hp⟩
    have := (findFirst_none h).2 c hc
    rcases hp with rfl | rfl <;> simp at this
  · have hs := findFirst_some h
    constructor
    · intro hall
      obtain ⟨c, hc, hp⟩ := hs.2.2
      have := hall c hc
      simp only [Bool.or_eq_true, beq_iff_eq] at hp
      rcases hp with hp | hp
      · exact absurd hp this.1
      · exact absurd hp this.2
    · intro _
      simp only
      rw [hs.2.1]

theorem tokenizeLine_operands (n : Int) (raw : List Char) (rec : ParsedLine)
    (h : tokenizeLine n raw = some rec) :
    ((∀ c ∈ instructionText raw, c ≠ ' ' ∧ c ≠ '\t') → rec.operands = []) ∧
    ((∃ c ∈ instructionText raw, c = ' ' ∨ c = '\t') →
      rec.operands = (splitOperands (operandText raw)).flatMap splitParen) := by
  unfold tokenizeLine at h
  simp only [commentStripped] at h
  have hl : trimChars (stripComment raw) = strippedLine raw := rfl
  simp only [hl] at h
  by_cases h0 : strippedLine raw = []
  · simp [h0] at h
  · simp only [h0, if_false] at h
    rcases hc : findFirst (fun c => c == ':') (strippedLine raw) with _ | k
    · have hno : ':' ∉ strippedLine raw := by
        rw [mem_colon_iff]
        rintro ⟨k, hk⟩
        rw [hc] at hk
        exact Option.noConfusion hk
      rw [hc] at h
      simp only [Option.some.injEq] at h
      have hi : instructionText raw = strippedLine raw := by simp [instructionText, hno]
      unfold operandText
      rw [hi, ← h]
      exact parseInstruction_operands _ _ _ _
    · have hyes : ':' ∈ strippedLine raw := (mem_colon_iff _).2 ⟨k, hc⟩
      have hs := findFirst_some hc
      have ha : trimChars ((strippedLine raw).drop (k + 1))
          = afterColon (strippedLine raw) := by
        unfold afterColon
        rw [← hs.2.1, List.drop_drop]
      have hi : instructionText raw = afterColon (strippedLine raw) := by
        simp [instructionText, hyes]
      rw [hc] at h
      simp only [ha] at h
      unfold operandText
      rw [hi]
      by_cases he : afterColon (strippedLine raw) = []
      · simp only [he, if_true, Option.some.injEq] at h
        rw [← h, he]
        refine ⟨fun _ => rfl, ?_⟩
        rintro ⟨c, hc2, _⟩
        simp at hc2
      · simp only [he, if_false, Option.some.injEq] at h
        rw [← h]
        exact parseInstruction_operands _ _ _ _

theorem tokenizeLoop_mem (ls : List (List Char)) (j : Int) (rec : ParsedLine)
    (h : rec ∈ tokenizeLoop ls j []) :
    ∃ (i : Nat) (raw : List Char), ls[i]? = some raw ∧
      tokenizeLine (j + i + 1) raw = some rec := by
  induction ls generalizing j with
  | nil => simp [tokenizeLoop] at h
  | cons raw rest ih =>
    unfold tokenizeLoop at h
    rcases ht : tokenizeLine (j + 1) raw with _ | parsed
    · rw [ht] at h
      obtain ⟨i, r, h1, h2⟩ := ih (j + 1) h
      refine ⟨i + 1, r, by simpa using h1, ?_⟩
      rw [← h2]
      congr 1
      push_cast
      ring
    · rw [ht] at h
      simp only [List.nil_append] at h
      rw [tokenizeLoop_acc] at h
      rcases List.mem_append.1 h with h | h
      · have : rec = parsed := by simpa using h
        subst this
        exact ⟨0, raw, by simp, by simpa using ht⟩
      · obtain ⟨i, r, h1, h2⟩ := ih (j + 1) h
        refine ⟨i + 1, r, by simpa using h1, ?_⟩
        rw [← h2]
        congr 1
        push_cast
        ring

/-- C16, as the code has it.  Every record of `tokenize` comes from a physical line;
when the instruction part of that line has no space or tab there is no operand list and
the record has no operand; otherwise the operand list (the trimmed text after the first
token) is cut at exactly its commas of running parenthesis count 0 (number of `(` minus
number of `)` so far), each piece is trimmed, the final piece is dropped when it is empty,
and each trimmed piece is handed to `splitParen`.  A piece `a ( b ) r` in which `a` has
neither `(` nor `)` and `b` has no `)`, that is, a piece whose first `)` comes after its
first `(`, gives two operands: `a` trimmed and `b` trimmed.  A piece in which every `(`
that is followed by a `)` has a `)` before it (no parenthesis, one kind only, or the first
`)` before the first `(`) passes through unchanged. -/
theorem C16_operand_split :
    (∀ (filename text : String) (rec : ParsedLine),
      rec ∈ (tokenize filename (some text)).1 →
      ∃ (i : Nat) (raw : List Char), (getLines text.data [])[i]? = some raw ∧
        tokenizeLine ((i : Int) + 1) raw = some rec ∧
        ((∀ c ∈ instructionText raw, c ≠ ' ' ∧ c ≠ '\t') → rec.operands = []) ∧
        ((∃ c ∈ instructionText raw, c = ' ' ∨ c = '\t') →
          ∃ (pieces : List (List Char)) (last : List Char),
            IsTopSplit (operandText raw) pieces last ∧
            rec.operands
              = ((pieces ++ (if last = [] then [] else [last])).map
                  (fun p => String.mk (trimChars p))).flatMap splitParen)) ∧
    (∀ (op : String) (a b r : List Char), op.data = a ++ '(' :: b ++ ')' :: r →
      '(' ∉ a → ')' ∉ a → ')' ∉ b →
      splitParen op = [String.mk (trimChars a), String.mk (trimChars b)]) ∧
    (∀ op : String,
      (∀ a b r : List Char, op.data = a ++ '(' :: b ++ ')' :: r → ')' ∈ a) →
      splitParen op = [op]) := by
  refine ⟨?_, splitParen_split, splitParen_pass⟩
  intro filename text rec hrec
  obtain ⟨i, raw, h1, h2⟩ := tokenizeLoop_mem (getLines text.data []) 0 rec hrec
  have h3 : tokenizeLine ((i : Int) + 1) raw = some rec := by simpa using h2
  have h4 := tokenizeLine_operands _ raw rec h3
  refine ⟨i, raw, h1, h3, h4.1, fun hsp => ?_⟩
  obtain ⟨pieces, last, h5, h6⟩ := splitOperands_spec (operandText raw)
  exact ⟨pieces, last, h5, by rw [h4.2 hsp, h6]⟩

/-- Witness of C16: `lw $t0, 4($sp)` is tokenized with mnemonic `lw` and the operands
`$t0`, `4`, `$sp`, as many as the load/store pattern expects; the piece `4($sp)` gives the
two operands `4` and `$sp`, and the piece `$t0` passes through. -/
theorem C16_operand_split_witness :
    (tokenize "p.s" (some "lw $t0, 4($sp)")).1
      = [⟨1, "lw $t0, 4($sp)", "", "lw", ["$t0", "4", "$sp"]⟩] ∧
    expectedOperandCount .I_TMP_OFF_SRC = 3 ∧
    splitParen "4($sp)" = ["4", "$sp"] ∧ splitParen "$t0" = ["$t0"] := by
  refine ⟨by decide, by decide, ?_, ?_⟩
  · exact C16_operand_split.2.1 "4($sp)" ['4'] ['$', 's', 'p'] [] (by decide) (by decide)
      (by decide) (by decide)
  · refine C16_operand_split.2.2 "$t0" (fun a b r h => ?_)
    have hm : '(' ∈ "$t0".data := by
      rw [h]
      simp
    exact absurd hm (by decide)

/-- C16, as stated, fails on `lw $t0, )4($sp)` and on `add $1, $2,`: the piece `)4($sp)`
contains a `(` followed later by a `)`, yet it is one operand, unchanged, because its
first `)` comes before its first `(`; and `add $1, $2,` is cut at two commas of count 0,
yet the record has two operands, the empty final piece being dropped, while the empty
piece of `add $1,, $2` is kept. -/
theorem C16_close_before_open_not_split :
    (tokenize "p.s" (some "lw $t0, )4($sp)")).1
      = [⟨1, "lw $t0, )4($sp)", "", "lw", ["$t0", ")4($sp)"]⟩] ∧
    ")4($sp)".data = [')', '4'] ++ '(' :: ['$', 's', 'p'] ++ ')' :: [] ∧
    (tokenize "p.s" (some "add $1, $2,")).1
      = [⟨1, "add $1, $2,", "", "add", ["$1", "$2"]⟩] ∧
    (tokenize "p.s" (some "add $1,, $2")).1
      = [⟨1, "add $1,, $2", "", "add", ["$1", "", "$2"]⟩] := by
  decide

/-! ## Exceptions of the expansion -/

theorem expandLine_eq_none (line : ParsedLine) :
    expandLine line = none ↔
      line.mnemonic = "li" ∧ ∃ o0 o1 more, line.operands = o0 :: o1 :: more ∧
        parsePseudoImmediate o1 = none := by
  obtain ⟨ln, raw, label, m, ops⟩ := line
  unfold expandLine
  by_cases h1 : m = "nop"
  · subst h1
    simp
  · by_cases h2 : m = "move"
    · subst h2
      rcases ops with _ | ⟨o0, _ | ⟨o1, more⟩⟩ <;> simp
    · by_cases h3 : m = "li"
      · subst h3
        rcases ops with _ | ⟨o0, _ | ⟨o1, more⟩⟩
        · simp
        · simp
        · rcases hp : parsePseudoImmediate o1 with _ | v
          · simp only [hp]
            simp
            exact ⟨o0, o1, ⟨rfl, rfl⟩, hp⟩
          · simp only [h1, h2, if_false, if_true, hp]
            split <;> simp [hp]
      · simp [h1, h2, h3]

theorem expandPseudos_eq_none (lines : List ParsedLine) :
    expandPseudos lines = none ↔ ∃ line ∈ lines, expandLine line = none := by
  induction lines with
  | nil =>
    have h : expandPseudos [] = some ([], []) := rfl
    simp [h]
  | cons l rest ih =>
    rw [expandPseudos_cons]
    rcases hl : expandLine l with _ | ⟨o, d⟩
    · simp [hl]
    · simp only [Option.map_eq_none', ih, List.mem_cons, exists_eq_or_imp, hl, false_or]
      simp

/-- C21, as the code has it.  `expandPseudos` ends with an exception, returning no
sequence and registering nothing, exactly when some line is an `li` with at least two
operands whose second operand `parsePseudoImmediate` cannot read: `std::stoi` and
`std::stoul` throw there and nothing catches.  It is so for `foo` (no number) and for
`99999999999` (outside `int`), and the lines after the `li` are not processed.  The
encoder's `parseImmediate`, which reads the same literals, catches the exception,
registers an invalid-immediate diagnostic and returns 0. -/
theorem C21_invalid_li_raises :
    (∀ lines : List ParsedLine, expandPseudos lines = none ↔
      ∃ line ∈ lines, line.mnemonic = "li" ∧ ∃ o0 o1 more,
        line.operands = o0 :: o1 :: more ∧ parsePseudoImmediate o1 = none) ∧
    parsePseudoImmediate "foo" = none ∧ parsePseudoImmediate "99999999999" = none ∧
    parseImmediate "foo" 1 = (0, [⟨1, "invalid immediate value \x27foo\x27"⟩]) ∧
    parseImmediate "99999999999" 1
      = (0, [⟨1, "invalid immediate value \x2799999999999\x27"⟩]) := by
  refine ⟨fun lines => ?_, by decide, by decide, by decide, by decide⟩
  rw [expandPseudos_eq_none]
  constructor
  · rintro ⟨line, hm, hn⟩
    exact ⟨line, hm, (expandLine_eq_none line).1 hn⟩
  · rintro ⟨line, hm, hn⟩
    exact ⟨line, hm, (expandLine_eq_none line).2 hn⟩

/-- C21, as stated, fails on the text `li $t0, foo` followed by `move $t1` and `nop`:
tokenized and with aliases resolved, it makes `expandPseudos` end with an exception, so
that neither the invalid immediate nor the missing operand of the `move` after it is
registered as a diagnostic; without the `li` line the run completes and registers the
diagnostic of the `move`. -/
theorem C21_li_foo_stops_the_run :
    expandPseudos (resolveAliases
      (tokenize "p.s" (some "li $t0, foo\nmove $t1\nnop")).1) = none ∧
    expandPseudos (resolveAliases (tokenize "p.s" (some "move $t1\nnop")).1)
      = some ([⟨1, "move $t1", "", "move", ["$9"]⟩,
          ⟨2, "nop", "", "sll", ["$0", "$0", "0"]⟩],
        [⟨1, "\x27move\x27 requires 2 operands"⟩]) := by
  decide

/-! ## Shape of the encoded entries -/

theorem fmtHex8_chars (W : Nat) : ∀ c ∈ (fmtHex8 W).data, isUpperHexChar c := by
  intro c hc
  have hall : ∀ k ∈ List.range 16, isUpperHexChar (toUpperC (hexChar k)) := by decide
  simp only [fmtHex8, List.mem_map, List.mem_append, List.mem_replicate] at hc
  obtain ⟨x, hx, rfl⟩ := hc
  rcases hx with ⟨_, rfl⟩ | hx
  · decide
  · obtain ⟨d, hd, rfl⟩ := hexDigitsFuel_chars _ _ x hx
    exact hall d (List.mem_range.mpr hd)

theorem isField32_lt {s : String} {W : Nat} (h : IsField 32 s W) : W < 4294967296 := by
  have := binVal_lt s.data
  rw [h.1, h.2.2] at this
  simpa using this

theorem isField_chars {w : Nat} {s : String} {W : Nat} (h : IsField w s W) :
    ∀ c ∈ s.data, c = '0' ∨ c = '1' := by
  intro c hc
  have := List.all_eq_true.1 h.2.1 c hc
  simpa using this

theorem lineResult_entry (labels : LabelTable) (a : Int) (line : ParsedLine) :
    (reachesEncoder line = true →
      ∃ W, W < 4294967296 ∧ (lineResult labels a line).1 = [⟨fmtHex8 W, line.rawText⟩]) ∧
    (reachesEncoder line = false → (lineResult labels a line).1 = []) := by
  unfold reachesEncoder
  rcases hf : findInstruction line.mnemonic with _ | d
  · refine ⟨fun h => by simp at h, fun _ => ?_⟩
    unfold lineResult
    by_cases hm : line.mnemonic = "" <;> simp [hm, hf]
  · constructor
    · intro h
      have hc : expectedOperandCount d.pattern ≤ line.operands.length := by simpa using h
      obtain ⟨binary, errs, W, he, hw⟩ := encodeInstruction_total hf line hc labels a
      refine ⟨W, isField32_lt hw, ?_⟩
      unfold lineResult
      simp [findInstruction_ne_empty hf, hf, Nat.not_lt.mpr hc, he, bitset32_of_isField hw]
    · intro h
      have hc : line.operands.length < expectedOperandCount d.pattern := by simpa using h
      unfold lineResult
      simp [findInstruction_ne_empty hf, hf, hc]

theorem encodeLoop_entries (labels : LabelTable) (lines : List ParsedLine) :
    ∀ (address : Int) (encoded : List EncodedInst) (log : List Diag),
      ∃ out diags, encodeLoop labels lines address encoded log = some (encoded ++ out, diags) ∧
        out.map (fun e => e.rawText)
          = (lines.filter reachesEncoder).map (fun l => l.rawText) ∧
        ∀ e ∈ out, WellFormedEntry e := by
  induction lines with
  | nil =>
    intro address encoded log
    exact ⟨[], log, by simp [encodeLoop], rfl, by simp⟩
  | cons l rest ih =>
    intro address encoded log
    rw [encodeLoop_step]
    obtain ⟨out, diags, h1, h2, h3⟩ :=
      ih (address + (if l.mnemonic ≠ "" then 1 else 0))
        (encoded ++ (lineResult labels address l).1) (log ++ (lineResult labels address l).2)
    have hl := lineResult_entry labels address l
    by_cases hr : reachesEncoder l = true
    · obtain ⟨W, hW, hres⟩ := hl.1 hr
      refine ⟨⟨fmtHex8 W, l.rawText⟩ :: out, diags, ?_, ?_, ?_⟩
      · rw [h1, hres]
        simp
      · rw [List.filter_cons]
        simp [hr, h2]
      · intro e he
        rcases List.mem_cons.1 he with rfl | he
        · exact ⟨(fmtHex8_readback W hW).1, fmtHex8_chars W⟩
        · exact h3 e he
    · have hr2 : reachesEncoder l = false := by simpa using hr
      refine ⟨out, diags, ?_, ?_, h3⟩
      · rw [h1, hl.2 hr2]
        simp
      · rw [List.filter_cons]
        simp [hr2, h2]

/-- C22. Shape of the entries.  For every line sequence and every label table, `encode`
returns; its entries stand, one for one and in order, for the lines whose mnemonic is in
the instruction table and which have the operands their pattern expects, each entry
carrying the rawText of its line; and every entry has a hex text of exactly 8 characters,
each one of `0`-`9`, `A`-`F`.  It is so whatever the operand strings, because for a
table entry and a line with enough operands `encodeInstruction` returns a text of exactly
32 characters `0`/`1`, made of a 6-bit opcode, 6-bit function code, 5-bit register fields
and 5-, 16- or 26-bit numeric fields, which `bin2hex` turns into the 8-digit text of a
word below `2^32`. -/
theorem C22_entry_shape :
    (∀ (lines : List ParsedLine) (labels : LabelTable),
      ∃ encoded diags, encode lines labels = some (encoded, diags) ∧
        encoded.map (fun e => e.rawText)
          = (lines.filter reachesEncoder).map (fun l => l.rawText) ∧
        ∀ e ∈ encoded, WellFormedEntry e) ∧
    (∀ (m : String) (d : InstructionDef) (line : ParsedLine) (labels : LabelTable)
        (address : Int), findInstruction m = some d →
      expectedOperandCount d.pattern ≤ line.operands.length →
      ∃ binary errs W, encodeInstruction d line labels address = some (binary, errs) ∧
        binary.data.length = 32 ∧ (∀ c ∈ binary.data, c = '0' ∨ c = '1') ∧
        bin2hex binary = some (fmtHex8 W) ∧ W < 2 ^ 32 ∧
        WellFormedEntry ⟨fmtHex8 W, line.rawText⟩) ∧
    (∀ (m : String) (d : InstructionDef), findInstruction m = some d →
      d.opcode.data.length = 6 ∧
      (d.pattern = .R_DST_SRC_TMP ∨ d.pattern = .R_DST_TMP_SHAMT ∨ d.pattern = .R_SRC_ONLY →
        d.funct.data.length = 6)) ∧
    (∀ (operand : String) (ln : Int), (encodeRegister operand ln).1.data.length = 5) ∧
    (∀ value : Int, (encodeImmediate value 5).data.length = 5 ∧
      (encodeImmediate value 16).data.length = 16 ∧
      (encodeImmediate value 26).data.length = 26) := by
  refine ⟨?_, ?_, ?_, ?_, ?_⟩
  · intro lines labels
    obtain ⟨out, diags, h1, h2, h3⟩ := encodeLoop_entries labels lines 0 [] []
    exact ⟨out, diags, by simpa [encode] using h1, h2, h3⟩
  · intro m d line labels address hf hc
    obtain ⟨binary, errs, W, he, hw⟩ := encodeInstruction_total hf line hc labels address
    have hlt := isField32_lt hw
    exact ⟨binary, errs, W, he, hw.1, isField_chars hw, bin2hex_of_isField hw,
      by simpa using hlt, (fmtHex8_readback W hlt).1, fmtHex8_chars W⟩
  · intro m d hf
    exact ⟨(isField_opcode hf).1, fun hp => (isField_funct hf hp).1⟩
  · intro operand ln
    obtain ⟨v, hv⟩ := isField_encodeRegister operand ln
    exact hv.1
  · intro value
    exact ⟨(isField_encodeImmediate5 value).1, (isField_encodeImmediate16 value).1,
      (isField_encodeImmediate26 value).1⟩

/-- Witness of C22: `faultyProgram`, whose lines include an unknown mnemonic and a line
short of operands, and a line with unreadable operands both give well-formed entries: the
line `add foo, $99, ` is encoded, with three diagnostics, as `00000020`, its binary text
having 32 characters. -/
theorem C22_entry_shape_witness :
    (∃ encoded diags, encode faultyProgram (buildLabelTable faultyProgram).1
        = some (encoded, diags) ∧
      encoded.map (fun e => e.rawText)
        = (faultyProgram.filter reachesEncoder).map (fun l => l.rawText) ∧
      ∀ e ∈ encoded, WellFormedEntry e) ∧
    (∃ binary errs W,
      encodeInstruction ⟨"000000", "100000", .R_DST_SRC_TMP⟩
          ⟨1, "add foo, $99, ", "", "add", ["foo", "$99", ""]⟩ LabelTable.empty 0
        = some (binary, errs) ∧
      binary.data.length = 32 ∧ (∀ c ∈ binary.data, c = '0' ∨ c = '1') ∧
      bin2hex binary = some (fmtHex8 W) ∧ W < 2 ^ 32 ∧
      WellFormedEntry ⟨fmtHex8 W, "add foo, $99, "⟩) ∧
    encode [⟨1, "add foo, $99, ", "", "add", ["foo", "$99", ""]⟩] LabelTable.empty
      = some ([⟨"00000020", "add foo, $99, "⟩],
          [⟨1, "invalid register \x27foo\x27"⟩,
           ⟨1, "register number out of range: $99"⟩,
           ⟨1, "invalid register \x27\x27"⟩]) :=
  ⟨C22_entry_shape.1 faultyProgram (buildLabelTable faultyProgram).1,
    C22_entry_shape.2.1 "add" ⟨"000000", "100000", .R_DST_SRC_TMP⟩
      ⟨1, "add foo, $99, ", "", "add", ["foo", "$99", ""]⟩ LabelTable.empty 0
      (by decide) (by decide),
    by decide⟩

/-! ## Operand indexing -/

theorem encodeInstruction_isSome (d : InstructionDef) (line : ParsedLine)
    (labels : LabelTable) (address : Int) :
    (encodeInstruction d line labels address).isSome = true ↔
      expectedOperandCount d.pattern ≤ line.operands.length := by
  obtain ⟨ln, raw, label, m, ops⟩ := line
  obtain ⟨opc, fn, pat⟩ := d
  cases pat <;>
    rcases ops with _ | ⟨o0, _ | ⟨o1, _ | ⟨o2, more⟩⟩⟩ <;>
    simp [encodeInstruction, expectedOperandCount] <;>
    (try split) <;> simp

theorem encodeInstruction_take (d : InstructionDef) (line : ParsedLine)
    (labels : LabelTable) (address : Int) :
    encodeInstruction d
        { line with operands := line.operands.take (expectedOperandCount d.pattern) }
        labels address
      = encodeInstruction d line labels address := by
  obtain ⟨ln, raw, label, m, ops⟩ := line
  obtain ⟨opc, fn, pat⟩ := d
  cases pat <;>
    rcases ops with _ | ⟨o0, _ | ⟨o1, _ | ⟨o2, more⟩⟩⟩ <;>
    simp [encodeInstruction, expectedOperandCount]

theorem encodeLoop_short (labels : LabelTable) (line : ParsedLine) (d : InstructionDef)
    (rest : List ParsedLine) (address : Int) (encoded : List EncodedInst) (log : List Diag)
    (hf : findInstruction line.mnemonic = some d)
    (hc : line.operands.length < expectedOperandCount d.pattern) :
    encodeLoop labels (line :: rest) address encoded log
      = encodeLoop labels rest (address + 1) encoded
          (log ++ [⟨line.lineNumber, "\x27" ++ line.mnemonic ++ "\x27 requires "
            ++ toString (expectedOperandCount d.pattern)
            ++ " operands, got " ++ toString line.operands.length⟩]) := by
  rw [encodeLoop]
  simp [findInstruction_ne_empty hf, hf, hc, reportError]

theorem lineResult_take (labels : LabelTable) (a : Int) (line : ParsedLine)
    (d : InstructionDef) (hf : findInstruction line.mnemonic = some d)
    (hc : expectedOperandCount d.pattern ≤ line.operands.length) :
    lineResult labels a
        { line with operands := line.operands.take (expectedOperandCount d.pattern) }
      = lineResult labels a line := by
  have hlen : (line.operands.take (expectedOperandCount d.pattern)).length
      = expectedOperandCount d.pattern := by
    rw [List.length_take]
    omega
  have ht := encodeInstruction_take d line labels a
  unfold lineResult
  simp only [findInstruction_ne_empty hf, hf, if_false, hlen, Nat.lt_irrefl,
    Nat.not_lt.mpr hc, ht]

/-- C23. Operand indexing.  For each of the eight operand patterns, `encodeInstruction`
reads an operand past the end of the list exactly when the line has fewer operands than
`expectedOperandCount` gives for the pattern, and its result is that of the line cut down
to its first `expectedOperandCount` operands: the indices read are those below the
expected count, the last of them included.  The loop of `encode` meets a line of the table
with fewer operands by registering the operand-count diagnostic and going on, without a
call of `encodeInstruction`, so that `encode` returns for every line sequence and label
table, whatever the operand counts; and for a line of the table with enough operands the
entry and the diagnostics are those of the line without the operands beyond the expected
count. -/
theorem C23_operand_indexing :
    (∀ (d : InstructionDef) (line : ParsedLine) (labels : LabelTable) (address : Int),
      ((encodeInstruction d line labels address).isSome = true ↔
        expectedOperandCount d.pattern ≤ line.operands.length) ∧
      encodeInstruction d
          { line with operands := line.operands.take (expectedOperandCount d.pattern) }
          labels address
        = encodeInstruction d line labels address) ∧
    (∀ p : OperandPattern, expectedOperandCount p = 1 ∨ expectedOperandCount p = 2 ∨
      expectedOperandCount p = 3) ∧
    (∀ (labels : LabelTable) (line : ParsedLine) (d : InstructionDef)
        (rest : List ParsedLine) (address : Int) (encoded : List EncodedInst)
        (log : List Diag), findInstruction line.mnemonic = some d →
      line.operands.length < expectedOperandCount d.pattern →
      encodeLoop labels (line :: rest) address encoded log
        = encodeLoop labels rest (address + 1) encoded
            (log ++ [⟨line.lineNumber, "\x27" ++ line.mnemonic ++ "\x27 requires "
              ++ toString (expectedOperandCount d.pattern)
              ++ " operands, got " ++ toString line.operands.length⟩])) ∧
    (∀ (lines : List ParsedLine) (labels : LabelTable),
      ∃ encoded diags, encode lines labels = some (encoded, diags)) ∧
    (∀ (labels : LabelTable) (address : Int) (line : ParsedLine) (d : InstructionDef),
      findInstruction line.mnemonic = some d →
      expectedOperandCount d.pattern ≤ line.operands.length →
      lineResult labels address
          { line with operands := line.operands.take (expectedOperandCount d.pattern) }
        = lineResult labels address line ∧
      ∃ W errs, EncodesAs labels address line W errs ∧
        EncodesAs labels address
          { line with operands := line.operands.take (expectedOperandCount d.pattern) }
          W errs) := by
  refine ⟨fun d line labels address =>
      ⟨encodeInstruction_isSome d line labels address,
        encodeInstruction_take d line labels address⟩,
    fun p => by cases p <;> simp [expectedOperandCount],
    encodeLoop_short, fun lines labels => ⟨_, _, encode_eq lines labels⟩, ?_⟩
  intro labels address line d hf hc
  refine ⟨lineResult_take labels address line d hf hc, ?_⟩
  obtain ⟨binary, errs, W, he, hw⟩ := encodeInstruction_total hf line hc labels address
  have hlen : (line.operands.take (expectedOperandCount d.pattern)).length
      = expectedOperandCount d.pattern := by
    rw [List.length_take]
    omega
  refine ⟨W, errs, encodesAs_of hf hc he hw, ?_⟩
  exact encodesAs_of (d := d) hf (le_of_eq hlen.symm)
    ((encodeInstruction_take d line labels address).trans he) hw

/-- Witness of C23: `jr` with no operand is met by the loop with the operand-count
diagnostic and no entry; `jr $31, junk, more` is encoded as `jr $31`, the word
0x03E00008, without diagnostic. -/
theorem C23_operand_indexing_witness :
    encodeLoop LabelTable.empty [⟨1, "jr", "", "jr", []⟩] 0 [] []
      = some ([], [⟨1, "\x27jr\x27 requires 1 operands, got 0"⟩]) ∧
    lineResult LabelTable.empty 0 ⟨2, "jr $31, junk, more", "", "jr", ["$31"]⟩
      = lineResult LabelTable.empty 0
          ⟨2, "jr $31, junk, more", "", "jr", ["$31", "junk", "more"]⟩ ∧
    encode [⟨2, "jr $31, junk, more", "", "jr", ["$31", "junk", "more"]⟩] LabelTable.empty
      = some ([⟨"03E00008", "jr $31, junk, more"⟩], []) := by
  have h1 := C23_operand_indexing.2.2.1 LabelTable.empty ⟨1, "jr", "", "jr", []⟩
    ⟨"000000", "001000", .R_SRC_ONLY⟩ [] 0 [] [] (by decide) (by decide)
  have h2 := (C23_operand_indexing.2.2.2.2 LabelTable.empty 0
    ⟨2, "jr $31, junk, more", "", "jr", ["$31", "junk", "more"]⟩
    ⟨"000000", "001000", .R_SRC_ONLY⟩ (by decide) (by decide)).1
  exact ⟨h1, h2, by decide⟩

/-! ## Immediate formats and the literals the parser reads -/

/-- C2, as the code has it.  For a mnemonic of the instruction table, numeric register
operands with numbers in `[0,31]` and an immediate operand that `parseImmediate` reads as
`v`, registering the diagnostics `errs`, the loop of `encode` emits, with exactly these
diagnostics, the word: immediate-triple (operands t, s, imm)
`opcode*2^26 + s*2^21 + t*2^16 + (v mod 2^16)`; immediate-pair (operands t, imm)
`opcode*2^26 + 0*2^21 + t*2^16 + (v mod 2^16)`; load/store-offset (operands t, offset, s)
`opcode*2^26 + s*2^21 + t*2^16 + (v mod 2^16)`.  A decimal literal (digits, or a minus
sign and digits) whose value is an `int` is read as that value and a `0x` literal below
`2^64` as its value reduced to 32 bits, both without diagnostic.  A decimal literal whose
value is outside `int` and a `0x` literal of `2^64` or more are read as 0 with one
invalid-immediate diagnostic, so their field is 0 and not their value modulo `2^16`; every
operand is read either as a value without diagnostic or as 0 with that diagnostic.  The
16-bit field of -1 is sixteen ones (0xFFFF) and that of 2^16 + 5 is the field of 5.  The
mnemonics of the three formats are the ones listed. -/
theorem C2_immediate_formats :
    (∀ (m : String) (d : InstructionDef) (rt rs : Nat) (imm : String) (v : Int)
        (errs : List Diag) (more : List String) (ln : Int) (raw label : String)
        (labels : LabelTable) (address : Int),
      findInstruction m = some d → d.pattern = .I_TMP_SRC_IMM →
      rt ≤ 31 → rs ≤ 31 → parseImmediate imm ln = (v, errs) →
      EncodesAs labels address
        ⟨ln, raw, label, m, regName rt :: regName rs :: imm :: more⟩
        (opcodeOf d * 2 ^ 26 + rs * 2 ^ 21 + rt * 2 ^ 16 + (v % 2 ^ 16).toNat) errs) ∧
    (∀ (m : String) (d : InstructionDef) (rt : Nat) (imm : String) (v : Int)
        (errs : List Diag) (more : List String) (ln : Int) (raw label : String)
        (labels : LabelTable) (address : Int),
      findInstruction m = some d → d.pattern = .I_TMP_IMM →
      rt ≤ 31 → parseImmediate imm ln = (v, errs) →
      EncodesAs labels address ⟨ln, raw, label, m, regName rt :: imm :: more⟩
        (opcodeOf d * 2 ^ 26 + 0 * 2 ^ 21 + rt * 2 ^ 16 + (v % 2 ^ 16).toNat) errs) ∧
    (∀ (m : String) (d : InstructionDef) (rt rs : Nat) (off : String) (v : Int)
        (errs : List Diag) (more : List String) (ln : Int) (raw label : String)
        (labels : LabelTable) (address : Int),
      findInstruction m = some d → d.pattern = .I_TMP_OFF_SRC →
      rt ≤ 31 → rs ≤ 31 → parseImmediate off ln = (v, errs) →
      EncodesAs labels address
        ⟨ln, raw, label, m, regName rt :: off :: regName rs :: more⟩
        (opcodeOf d * 2 ^ 26 + rs * 2 ^ 21 + rt * 2 ^ 16 + (v % 2 ^ 16).toNat) errs) ∧
    (∀ (cs : List Char) (ln : Int), IsDecDigits cs → decValue cs ≤ 2147483647 →
      parseImmediate (String.mk cs) ln = (((decValue cs : Nat) : Int), [])) ∧
    (∀ (cs : List Char) (ln : Int), IsDecDigits cs → decValue cs ≤ 2147483648 →
      parseImmediate (String.mk ('-' :: cs)) ln = (-((decValue cs : Nat) : Int), [])) ∧
    (∀ (x : Char) (hs : List Char) (ln : Int), x = 'x' ∨ x = 'X' → IsHexDigits hs →
      hexValue hs < 2 ^ 64 →
      parseImmediate (String.mk ('0' :: x :: hs)) ln
        = (wrapInt32 ((hexValue hs : Nat) : Int), [])) ∧
    (∀ (cs : List Char) (ln : Int), IsDecDigits cs → 2147483647 < decValue cs →
      parseImmediate (String.mk cs) ln
        = (0, [⟨ln, "invalid immediate value \x27" ++ String.mk cs ++ "\x27"⟩])) ∧
    (∀ (cs : List Char) (ln : Int), IsDecDigits cs → 2147483648 < decValue cs →
      parseImmediate (String.mk ('-' :: cs)) ln
        = (0, [⟨ln, "invalid immediate value \x27" ++ String.mk ('-' :: cs) ++ "\x27"⟩])) ∧
    (∀ (x : Char) (hs : List Char) (ln : Int), x = 'x' ∨ x = 'X' → IsHexDigits hs →
      2 ^ 64 ≤ hexValue hs →
      parseImmediate (String.mk ('0' :: x :: hs)) ln
        = (0, [⟨ln, "invalid immediate value \x27" ++ String.mk ('0' :: x :: hs)
            ++ "\x27"⟩])) ∧
    (∀ (operand : String) (ln : Int),
      (∃ v, parseImmediate operand ln = (v, [])) ∨
      parseImmediate operand ln
        = (0, [⟨ln, "invalid immediate value \x27" ++ operand ++ "\x27"⟩])) ∧
    IsField 16 (encodeImmediate (-1) 16) 0xFFFF ∧
    encodeImmediate (2 ^ 16 + 5) 16 = encodeImmediate 5 16 ∧
    (INSTRUCTIONS.filter (fun p => p.2.pattern = .I_TMP_SRC_IMM)).map (fun p => p.1)
      = ["addi", "addiu", "andi", "ori", "slti", "sltiu"] ∧
    (INSTRUCTIONS.filter (fun p => p.2.pattern = .I_TMP_IMM)).map (fun p => p.1)
      = ["lui"] ∧
    (INSTRUCTIONS.filter (fun p => p.2.pattern = .I_TMP_OFF_SRC)).map (fun p => p.1)
      = ["lbu", "lhu", "lw", "sb", "sh", "sw"] := by
  refine ⟨?_, ?_, ?_, ?_, ?_, ?_, ?_, ?_, ?_, ?_, by decide, by decide, by decide,
    by decide, by decide⟩
  · intro m d rt rs imm v errs more ln raw label labels address hf hp ht hs hv
    have ft := encodeRegister_regName rt ht ln
    have fs := encodeRegister_regName rs hs ln
    have fo := isField_opcode hf
    have fv := isField_encodeImmediate16 v
    refine encodesAs_of (d := d) hf (by simp [hp, expectedOperandCount]) ?_
      ((((fo.append fs.2).append ft.2).append fv).cast rfl (by norm_num; ring))
    simp [encodeInstruction, hp, fs.1, ft.1, hv]
  · intro m d rt imm v errs more ln raw label labels address hf hp ht hv
    have ft := encodeRegister_regName rt ht ln
    have fo := isField_opcode hf
    have fv := isField_encodeImmediate16 v
    refine encodesAs_of (d := d) hf (by simp [hp, expectedOperandCount]) ?_
      ((((fo.append isField_zeros5).append ft.2).append fv).cast rfl (by norm_num; ring))
    simp [encodeInstruction, hp, ft.1, hv]
  · intro m d rt rs off v errs more ln raw label labels address hf hp ht hs hv
    have ft := encodeRegister_regName rt ht ln
    have fs := encodeRegister_regName rs hs ln
    have fo := isField_opcode hf
    have fv := isField_encodeImmediate16 v
    refine encodesAs_of (d := d) hf (by simp [hp, expectedOperandCount]) ?_
      ((((fo.append fs.2).append ft.2).append fv).cast rfl (by norm_num; ring))
    simp [encodeInstruction, hp, fs.1, ft.1, hv]
  · intro cs ln h hr
    exact parseImmediate_digits cs ln h hr
  · intro cs ln h hr
    exact parseImmediate_minus_digits cs ln h hr
  · intro x hs ln hx h hlt
    exact parseImmediate_hex x hx hs ln h (by simpa using hlt)
  · intro cs ln h hr
    have h0 := parseImmediate_digits_tail cs [] ln h (by simp)
      (by rw [List.append_nil]; exact digits_not_hexBranch cs h)
    rw [List.append_nil] at h0
    rw [h0, if_neg (by omega)]
  · intro cs ln h hr
    have h0 := parseImmediate_sign_digits true cs [] ln h (by simp)
    simp only [if_true, List.append_nil] at h0
    rw [h0, if_neg (by omega)]
  · intro x hs ln hx h hr
    have hr2 : ¬ hexValue hs < 18446744073709551616 := by
      have : (2 : Nat) ^ 64 = 18446744073709551616 := by norm_num
      omega
    have h0 := parseImmediate_hex_tail x hx hs [] ln h (by simp)
    rw [List.append_nil] at h0
    rw [h0, if_neg hr2]
  · intro operand ln
    rw [parseImmediate_eq]
    rcases parsePseudoImmediate operand with _ | v
    · exact Or.inr rfl
    · exact Or.inl ⟨v, rfl⟩

/-- Witness of C2: `addi $1, $2, -1` is the word 0x2041FFFF, `lui $1, 65537` the word
0x3C010001 (65537 truncated to 1) and `lw $1, 4($31)` the word 0x8FE10004, all without
diagnostic; `addi $1, $2, 2147483649` is the word 0x20410000 with the invalid-immediate
diagnostic. -/
theorem C2_immediate_formats_witness :
    EncodesAs LabelTable.empty 0 ⟨1, "addi $1, $2, -1", "", "addi", ["$1", "$2", "-1"]⟩
      0x2041FFFF [] ∧
    EncodesAs LabelTable.empty 0 ⟨1, "lui $1, 65537", "", "lui", ["$1", "65537"]⟩
      0x3C010001 [] ∧
    EncodesAs LabelTable.empty 0 ⟨1, "lw $1, 4($31)", "", "lw", ["$1", "4", "$31"]⟩
      0x8FE10004 [] ∧
    EncodesAs LabelTable.empty 0
      ⟨1, "addi $1, $2, 2147483649", "", "addi", ["$1", "$2", "2147483649"]⟩
      0x20410000 [⟨1, "invalid immediate value \x272147483649\x27"⟩] := by
  have h1 := C2_immediate_formats.1 "addi" ⟨"001000", "", .I_TMP_SRC_IMM⟩ 1 2 "-1" (-1) []
    [] 1 "addi $1, $2, -1" "" LabelTable.empty 0 (by decide) (by decide) (by decide)
    (by decide) (by decide)
  have h2 := C2_immediate_formats.2.1 "lui" ⟨"001111", "", .I_TMP_IMM⟩ 1 "65537" 65537 []
    [] 1 "lui $1, 65537" "" LabelTable.empty 0 (by decide) (by decide) (by decide)
    (by decide)
  have h3 := C2_immediate_formats.2.2.1 "lw" ⟨"100011", "", .I_TMP_OFF_SRC⟩ 1 31 "4" 4 []
    [] 1 "lw $1, 4($31)" "" LabelTable.empty 0 (by decide) (by decide) (by decide)
    (by decide) (by decide)
  have h4 := C2_immediate_formats.1 "addi" ⟨"001000", "", .I_TMP_SRC_IMM⟩ 1 2 "2147483649"
    0 [⟨1, "invalid immediate value \x272147483649\x27"⟩] [] 1 "addi $1, $2, 2147483649"
    "" LabelTable.empty 0 (by decide) (by decide) (by decide) (by decide) (by decide)
  have e1 : opcodeOf ⟨"001000", "", .I_TMP_SRC_IMM⟩ * 2 ^ 26 + 2 * 2 ^ 21 + 1 * 2 ^ 16
      + ((-1 : Int) % 2 ^ 16).toNat = 0x2041FFFF := by decide
  have e2 : opcodeOf ⟨"001111", "", .I_TMP_IMM⟩ * 2 ^ 26 + 0 * 2 ^ 21 + 1 * 2 ^ 16
      + ((65537 : Int) % 2 ^ 16).toNat = 0x3C010001 := by decide
  have e3 : opcodeOf ⟨"100011", "", .I_TMP_OFF_SRC⟩ * 2 ^ 26 + 31 * 2 ^ 21 + 1 * 2 ^ 16
      + ((4 : Int) % 2 ^ 16).toNat = 0x8FE10004 := by decide
  have e4 : opcodeOf ⟨"001000", "", .I_TMP_SRC_IMM⟩ * 2 ^ 26 + 2 * 2 ^ 21 + 1 * 2 ^ 16
      + ((0 : Int) % 2 ^ 16).toNat = 0x20410000 := by decide
  rw [e1] at h1
  rw [e2] at h2
  rw [e3] at h3
  rw [e4] at h4
  exact ⟨h1, h2, h3, h4⟩

/-- C2, as stated, fails on `addi $1, $2, 2147483649`: the immediate is a decimal literal
of value 2147483649, which is 1 modulo `2^16`, so that the word claimed is 0x20410001;
`encode` emits `20410000`, the field being 0, and registers the invalid-immediate
diagnostic, `std::stoi` having thrown `std::out_of_range`.  It is the same for
`lui $1, 4294967296` and `lw $1, -2147483649($2)`. -/
theorem C2_decimal_outside_int_packed_as_zero :
    encode [⟨1, "addi $1, $2, 2147483649", "", "addi", ["$1", "$2", "2147483649"]⟩]
        LabelTable.empty
      = some ([⟨"20410000", "addi $1, $2, 2147483649"⟩],
          [⟨1, "invalid immediate value \x272147483649\x27"⟩]) ∧
    ((2147483649 : Int) % 2 ^ 16).toNat = 1 ∧
    fmtHex8 (opcodeOf ⟨"001000", "", .I_TMP_SRC_IMM⟩ * 2 ^ 26 + 2 * 2 ^ 21 + 1 * 2 ^ 16
      + ((2147483649 : Int) % 2 ^ 16).toNat) = "20410001" ∧
    encode [⟨2, "lui $1, 4294967296", "", "lui", ["$1", "4294967296"]⟩] LabelTable.empty
      = some ([⟨"3C010000", "lui $1, 4294967296"⟩],
          [⟨2, "invalid immediate value \x274294967296\x27"⟩]) ∧
    encode [⟨3, "lw $1, -2147483649($2)", "", "lw", ["$1", "-2147483649", "$2"]⟩]
        LabelTable.empty
      = some ([⟨"8C410000", "lw $1, -2147483649($2)"⟩],
          [⟨3, "invalid immediate value \x27-2147483649\x27"⟩]) ∧
    ((-2147483649 : Int) % 2 ^ 16).toNat = 65535 := by
  decide

/-! ## Expansion of `li` and the literals the parser reads -/

end Mips
